import Mathlib

/-! evmtools: disassembler, selector cache, signature grammar, call-data decoding

A shallow embedding of the Go packages `evmtools`, `evmtools/evmops`,
`evmtools/evmdis` and `evmtools/evmfuncs`, followed by theorems about them.

Conventions of the embedding:
* a Go `[]byte` is a `List Nat` of byte values; a Go `string` that holds text is a
  Lean `String`, and `stringBytes` gives its bytes (Go strings are UTF-8);
* a Go `map[string]V` is a function `String → Option V`;
* a Go `nil` result is `none`; a Go `error` is `Option` of an error value;
* process-wide state (the selector cache) and the remote directory are passed
  explicitly.
-/

namespace Evmtools

/-! ## Go runtime: bytes, strings, maps -/

/-- A Go `[]byte`; every element stands for one byte. -/
abbrev Bytes := List Nat

/-- UTF-8 encoding of one Unicode scalar value, as Go stores it inside a string. -/
def utf8EncodeChar (v : Nat) : Bytes :=
  if v < 0x80 then [v]
  else if v < 0x800 then [0xC0 + v / 64, 0x80 + v % 64]
  else if v < 0x10000 then [0xE0 + v / 4096, 0x80 + v / 64 % 64, 0x80 + v % 64]
  else [0xF0 + v / 262144, 0x80 + v / 4096 % 64, 0x80 + v / 64 % 64, 0x80 + v % 64]

/-- Go `[]byte(s)`: the bytes of a string. -/
def stringBytes (s : String) : Bytes :=
  s.data.flatMap (fun c => utf8EncodeChar c.toNat)

/-- Go `b[lo:hi]` on bytes, for a range the caller has checked. -/
def byteRange (b : Bytes) (lo hi : Nat) : Bytes := (b.take hi).drop lo

/-- A Go `map[string]V`. -/
abbrev GoMap (α : Type) := String → Option α

/-- The empty map `map[string]V{}`. -/
def GoMap.empty {α : Type} : GoMap α := fun _ => none

/-- Go `m[k] = v`. -/
def GoMap.set {α : Type} (m : GoMap α) (k : String) (v : α) : GoMap α :=
  fun k' => if k' = k then some v else m k'

/-- Go `_, ok := m[k]`. -/
def GoMap.has {α : Type} (m : GoMap α) (k : String) : Bool := (m k).isSome

/-- The set `map[string]struct{}` whose keys are the given strings. -/
def GoMap.ofKeys (keys : List String) : GoMap Unit :=
  keys.foldl (fun m k => m.set k ()) GoMap.empty

/-! ## Go `encoding/hex` -/

/-- Go `hextable`. -/
def hextable : List Char := "0123456789abcdef".data

/-- Go `hex.EncodeToString`: two lower-case digits per byte. -/
def hex.EncodeToString (src : Bytes) : String :=
  ⟨src.flatMap (fun v => [hextable.getD (v / 16) '0', hextable.getD (v % 16) '0'])⟩

/-- Go `fromHexChar`: the value of one hexadecimal digit, given as a byte. -/
def fromHexChar (c : Nat) : Option Nat :=
  if 48 ≤ c ∧ c ≤ 57 then some (c - 48)
  else if 97 ≤ c ∧ c ≤ 102 then some (c - 97 + 10)
  else if 65 ≤ c ∧ c ≤ 70 then some (c - 65 + 10)
  else none

/-- Errors of Go `encoding/hex`. -/
inductive HexError where
  | InvalidByteError (b : Nat)
  | ErrLength
  deriving DecidableEq, Repr

/-- Go `hex.Decode`, pair by pair; an invalid digit is reported before a bad length. -/
def hex.Decode : Bytes → Except HexError Bytes
  | [] => .ok []
  | [p] =>
    match fromHexChar p with
    | none => .error (.InvalidByteError p)
    | some _ => .error .ErrLength
  | p :: q :: rest =>
    match fromHexChar p with
    | none => .error (.InvalidByteError p)
    | some a =>
      match fromHexChar q with
      | none => .error (.InvalidByteError q)
      | some b =>
        match hex.Decode rest with
        | .error e => .error e
        | .ok bs => .ok ((a * 16 + b) :: bs)

/-- Go `hex.DecodeString`. -/
def hex.DecodeString (s : String) : Except HexError Bytes :=
  hex.Decode (stringBytes s)

/-- Go `hex.DecodedLen`. -/
def hex.DecodedLen (x : Nat) : Nat := x / 2

/-! ## Keccak-256 (`github.com/ethereum/go-ethereum/crypto`)

`crypto.Keccak256` is a library function; it is embedded here as the Keccak
sponge with rate 136 bytes, capacity 512 bits, padding `0x01 … 0x80` and 24
rounds of Keccak-f[1600] over 25 little-endian 64-bit lanes. -/

namespace Keccak

/-- All 64 bits set. -/
def mask64 : Nat := 2 ^ 64 - 1

/-- Rotate a 64-bit lane left by `n` bits. -/
def rotl64 (x n : Nat) : Nat :=
  ((x <<< n) ||| (x >>> (64 - n))) % 2 ^ 64

/-- The 24 round constants of Keccak-f[1600]. -/
def roundConstants : List Nat :=
  [0x0000000000000001, 0x0000000000008082, 0x800000000000808A, 0x8000000080008000,
   0x000000000000808B, 0x0000000080000001, 0x8000000080008081, 0x8000000000008009,
   0x000000000000008A, 0x0000000000000088, 0x0000000080008009, 0x000000008000000A,
   0x000000008000808B, 0x800000000000008B, 0x8000000000008089, 0x8000000000008003,
   0x8000000000008002, 0x8000000000000080, 0x000000000000800A, 0x800000008000000A,
   0x8000000080008081, 0x8000000000008080, 0x0000000080000001, 0x8000000080008008]

/-- Rotation offsets of the rho step; lane `(x, y)` is at index `x + 5 * y`. -/
def rotationOffsets : List Nat :=
  [ 0,  1, 62, 28, 27,
   36, 44,  6, 55, 20,
    3, 10, 43, 25, 39,
   41, 45, 15, 21,  8,
   18,  2, 61, 56, 14]

/-- Lane `(x mod 5, y mod 5)` of a state. -/
def lane (a : List Nat) (x y : Nat) : Nat := a.getD (x % 5 + 5 * (y % 5)) 0

/-- The theta step: every lane is xored with the parities of two columns. -/
def theta (a : List Nat) : List Nat :=
  let c := (List.range 5).map
    (fun x => lane a x 0 ^^^ lane a x 1 ^^^ lane a x 2 ^^^ lane a x 3 ^^^ lane a x 4)
  let d := (List.range 5).map
    (fun x => c.getD ((x + 4) % 5) 0 ^^^ rotl64 (c.getD ((x + 1) % 5) 0) 1)
  (List.range 25).map (fun i => a.getD i 0 ^^^ d.getD (i % 5) 0)

/-- The rho and pi steps: lane `(x, y)`, rotated, moves to `(y, 2x + 3y)`; the lane
that arrives at `(X, Y)` comes from `x = X + 3Y`, `y = X`. -/
def rhoPi (a : List Nat) : List Nat :=
  (List.range 25).map (fun i =>
    let x := (i % 5 + 3 * (i / 5)) % 5
    let y := i % 5
    rotl64 (lane a x y) (rotationOffsets.getD (x + 5 * y) 0))

/-- The chi step. -/
def chi (b : List Nat) : List Nat :=
  (List.range 25).map (fun i =>
    lane b (i % 5) (i / 5) ^^^
      ((lane b (i % 5 + 1) (i / 5) ^^^ mask64) &&& lane b (i % 5 + 2) (i / 5)))

/-- The iota step: the round constant is xored into lane `(0, 0)`. -/
def iota (rc : Nat) : List Nat → List Nat
  | [] => []
  | h :: t => (h ^^^ rc) :: t

/-- One round of Keccak-f[1600]. -/
def round (a : List Nat) (rc : Nat) : List Nat := iota rc (chi (rhoPi (theta a)))

/-- The permutation Keccak-f[1600]. -/
def keccakF (a : List Nat) : List Nat := roundConstants.foldl round a

/-- A little-endian word from its bytes. -/
def leWord (bs : Bytes) : Nat := bs.foldr (fun b acc => b + 256 * acc) 0

/-- The first `n` 8-byte little-endian words of a byte string. -/
def words : Nat → Bytes → List Nat
  | 0, _ => []
  | n + 1, bs => leWord (bs.take 8) :: words n (bs.drop 8)

/-- Absorb one 136-byte block: xor it into the first 17 lanes and permute. -/
def absorbBlock (st : List Nat) (block : Bytes) : List Nat :=
  let ws := words 17 block
  keccakF ((List.range 25).map (fun i => st.getD i 0 ^^^ ws.getD i 0))

/-- Keccak padding to a multiple of the rate: `0x01`, zeros, `0x80`. -/
def pad (msg : Bytes) : Bytes :=
  let q := 136 - msg.length % 136
  if q = 1 then msg ++ [0x81]
  else msg ++ [0x01] ++ List.replicate (q - 2) 0 ++ [0x80]

/-- The first `n` 136-byte blocks of a byte string. -/
def blocks : Nat → Bytes → List Bytes
  | 0, _ => []
  | n + 1, bs => bs.take 136 :: blocks n (bs.drop 136)

end Keccak

/-- Go `crypto.Keccak256`: the 32-byte Keccak-256 digest. -/
def crypto.Keccak256 (data : Bytes) : Bytes :=
  let p := Keccak.pad data
  let st := (Keccak.blocks (p.length / 136) p).foldl Keccak.absorbBlock (List.replicate 25 0)
  (List.range 32).map (fun i => (st.getD (i / 8) 0 >>> (8 * (i % 8))) % 256)

/-! ## Package `evmtools` (methodID.go) -/

/-- Go `MethodID`: `hash := crypto.Keccak256([]byte(signature)); return hash[:4]`. -/
def MethodID (signature : String) : Bytes :=
  let hash := crypto.Keccak256 (stringBytes signature)
  hash.take 4

/-! ## Package `evmops` (ops.go) -/

/-- Modelled from the spec: the `Instruction` type is declared in a file of
`evmops` that is not among the sources; §3 gives it an opcode and a mnemonic,
and `Line.String` reads `Mnemonic`. -/
structure Instruction where
  Opcode : Nat
  Mnemonic : String
  deriving DecidableEq, Repr

/-- Go `evmops.Line`. `Args` holds Go strings that may be raw bytes, so each
argument is kept as its bytes. -/
structure Line where
  Inst : Instruction
  ProgramCounter : Nat
  Args : List Bytes
  Comment : String
  deriving DecidableEq, Repr

/-! ## Package `evmdis` (evmdis.go) -/

/-- Go `evmdis.Results`. -/
structure Results where
  CompiledLen : Nat
  Lines : List Line
  FoundSignatures : GoMap Unit

/-- Go `ERC20Iface`. -/
def ERC20Iface : List String :=
  ["totalSupply()",
   "balanceOf(address)",
   "allowance(address,address)",
   "transfer(address,uint256)",
   "approve(address,uint256)",
   "transferFrom(address,address,uint256)"]

/-- Go `ERC721Iface`. -/
def ERC721Iface : List String :=
  ["balanceOf(address)",
   "ownerOf(uint256)",
   "safeTransferFrom(address,address,uint256)",
   "safeTransferFrom(address,address,uint256,bytes)",
   "transferFrom(address,address,uint256)",
   "approve(address,uint256)",
   "setApprovalForAll(address,bool)",
   "getApproved(uint256)",
   "isApprovedForAll(address,address)"]

/-- Go `(*Results).Implements`: the loop returns `false` at the first signature
that is not a key of `FoundSignatures`, and `true` after the last one. -/
def Results.Implements (r : Results) : List String → Bool
  | [] => true
  | sig :: rest =>
    if !(r.FoundSignatures.has sig) then false
    else Results.Implements r rest

/-! ## Package `evmdis` (fourBytesDirectory.go): the selector cache -/

/-- The entries of the Go map literal `fourBytesCache`, in source order. -/
def builtinFourBytes : List (String × List String) :=
  [ ("06fdde03", ["transfer_attention_tg_invmru_6e7aa58(bool,address,address)",
      "message_hour(uint256,int8,uint16,bytes32)", "name()"]),
   ("0753c30c", ["deprecate(address)"]),
   ("095ea7b3", ["watch_tg_invmru_2f69f1b(address,address)", "sign_szabo_bytecode(bytes16,uint128)",
      "approve(address,uint256)"]),
   ("0e136b19", ["deprecated()"]),
   ("0ecb93c0", ["addBlackList(address)"]),
   ("18160ddd", ["watch_tg_invmru_ae5c248(uint256,bool,bool)",
      "voting_var(address,uint256,int128,int128)", "totalSupply()"]),
   ("23b872dd", ["watch_tg_invmru_faebe36(bool,bool,bool)", "gasprice_bit_ether(int128)",
      "transferFrom(address,address,uint256)"]),
   ("26976e3f", ["upgradedAddress()"]),
   ("27e235e3", ["balances(address)"]),
   ("313ce567", ["watch_tg_invmru_5c94e13(bool)", "watch_tg_invmru_e597f2(address,bool)",
      "transfer_attention_tg_invmru_efa43f6(uint256,bool,address)",
      "available_assert_time(uint16,uint64)", "decimals()"]),
   ("35390714", ["maximumFee()"]),
   ("3eaaf86b", ["_totalSupply()"]),
   ("3f4ba83a", ["unpause()"]),
   ("59bf1abe", ["getBlackListStatus(address)"]),
   ("5c658165", ["allowed(address,address)"]),
   ("5c975abb", ["paused()"]),
   ("6e18980a", ["transferByLegacy(address,address,uint256)"]),
   ("70a08231", ["watch_tg_invmru_119a5a98(address,uint256,uint256)",
      "passphrase_calculate_transfer(uint64,address)", "branch_passphrase_public(uint256,bytes8)",
      "balanceOf(address)"]),
   ("8456cb59", ["pause()"]),
   ("893d20e8", ["getOwner()"]),
   ("8b477adb", ["transferFromByLegacy(address,address,address,uint256)"]),
   ("8da5cb5b", ["ideal_warn_timed(uint256,uint128)", "owner()"]),
   ("95d89b41", ["watch_tg_invmru_4f9dd3f(address,uint256)", "link_classic_internal(uint64,int64)",
      "symbol()"]),
   ("a9059cbb", ["join_tg_invmru_haha_fd06787(address,bool)", "func_2093253501(bytes)",
      "transfer(bytes4[9],bytes5[6],int48[11])", "many_msg_babbage(bytes1)",
      "transfer(address,uint256)"]),
   ("aee92d33", ["approveByLegacy(address,address,uint256)"]),
   ("c0324c77", ["setParams(uint256,uint256)"]),
   ("cc872b66", ["issue(uint256)"]),
   ("db006a75", ["redeem(uint256)"]),
   ("dd62ed3e", ["join_tg_invmru_haha_5911067(uint256,address)",
      "_func_5437782296(address,address)", "remove_good(uint256[],bytes8,bool)",
      "allowance(address,address)"]),
   ("dd644f72", ["basisPointsRate()"]),
   ("e47d6060", ["isBlackListed(address)"]),
   ("e4997dc5", ["removeBlackList(address)"]),
   ("e5b5019a", ["MAX_UINT()"]),
   ("f3bdc228", ["destroyBlackFunds(address)"]),
   ("ffffffff", ["LOCK8605463013()", "test266151307()"]),
   ("f2fde38b", ["transferOwnership(address)"]),
   ("6fcfff45", ["numCheckpoints(address)"]),
   ("b4b5ea57", ["getCurrentVotes(address)"]),
   ("e7a324dc", ["DELEGATION_TYPEHASH()"]),
   ("f1127ed8", ["checkpoints(address,uint32)"]),
   ("fca3b5aa", ["setMinter(address)"]),
   ("c3cda520", ["delegateBySig(address,uint256,uint256,uint8,bytes32,bytes32)"]),
   ("d505accf", ["watch_tg_invmru_168a06(bool,address,bool)",
      "permit(address,address,uint256,uint256,uint8,bytes32,bytes32)"]),
   ("782d6fe1", ["getPriorVotes(address,uint256)"]),
   ("7ecebe00", ["transfer_attention_tg_invmru_5811b86(uint256,address,address)",
      "nonces(address)"]),
   ("76c71ca1", ["mintCap()"]),
   ("30adf81f", ["transfer_attention_tg_invmru_6c0d2a(uint256,uint256)", "PERMIT_TYPEHASH()"]),
   ("40c10f19", ["mint(address,uint256)"]),
   ("587cde1e", ["delegates(address)"]),
   ("5c11d62f", ["minimumTimeBetweenMints()"]),
   ("5c19a95c", ["delegate(address)"]),
   ("30b36cef", ["mintingAllowedAfter()"]),
   ("20606b70", ["DOMAIN_TYPEHASH()"]),
   ("07546172", ["minter()"]),
   ("01ffc9a7", ["pizza_mandate_apology(uint256)", "supportsInterface(bytes4)"]),
   ("8f32d59b", ["isOwner()"]),
   ("d6e4fa86", ["nameExpires(uint256)"]),
   ("e985e9c5", ["isApprovedForAll(address,address)"]),
   ("f6a74ed7", ["removeController(address)"]),
   ("fca247ac", ["register(uint256,address,uint256)"]),
   ("da8c229e", ["controllers(address)"]),
   ("ddf7fcb0", ["baseNode()"]),
   ("a7fc7a07", ["addController(address)"]),
   ("b88d4fde", ["safeTransferFrom(address,address,uint256,bytes)"]),
   ("c1a287e2", ["GRACE_PERIOD()"]),
   ("c475abff", ["renew(uint256,uint256)"]),
   ("96e494e8", ["available(uint256)"]),
   ("a22cb465", ["niceFunctionHerePlzClick943230089(address,bool)",
      "setApprovalForAll(address,bool)"]),
   ("3f15457f", ["ens()"]),
   ("6352211e", ["ownerOf(uint256)"]),
   ("715018a6", ["renounceOwnership()"]),
   ("42842e0e", ["safeTransferFrom(address,address,uint256)"]),
   ("4e543b26", ["setResolver(address)"]),
   ("081812fc", ["getApproved(uint256)"]),
   ("0e297b45", ["registerOnly(uint256,address,uint256)"]),
   ("28ed4f6c", ["reclaim(uint256,address)"]),
   ("02571be3", ["owner(bytes32)"]),
   ("06ab5923", ["setSubnodeOwner(bytes32,bytes32,address)"]),
   ("1896f70a", ["setResolver(bytes32,address)"]),
   ("150b7a02", ["onERC721Received(address,address,uint256,bytes)"])]

/-- Go `fourBytesCache` as the program starts: the built-in entries. -/
def fourBytesCache : GoMap (List String) := fun k => builtinFourBytes.lookup k

/-- Go `replyRec`. -/
structure replyRec where
  ID : Nat
  CreatedAt : String
  TextSignature : String
  HexSignature : String
  BytesSignature : String
  deriving DecidableEq, Repr

/-- Go `fourByteDirectoryResponse`. -/
structure fourByteDirectoryResponse where
  Count : Int
  Next : String
  Previous : String
  Results : List replyRec
  deriving DecidableEq, Repr

/-- What one remote lookup comes to: `http.Get` fails, the body does not decode,
or a reply is decoded. -/
inductive HttpResult where
  | getFailed
  | decodeFailed
  | reply (b4 : fourByteDirectoryResponse)
  deriving DecidableEq, Repr

/-- The remote directory: the outcome of the `n`-th request the process makes
(counted from 0), asked for the given four bytes. It may answer the same
selector differently at different times. -/
abbrev Remote := Nat → Bytes → HttpResult

/-- The process-wide state `getSigsFromFourBytes` works on: the cache, and two
logs kept for the statements, the remote requests made so far and the calls of
`getSigsFromFourBytes` so far, oldest first. -/
structure World where
  fourBytesCache : GoMap (List String)
  requests : List Bytes
  calls : List Bytes

/-- The state of a fresh process. -/
def World.initial : World :=
  { fourBytesCache := Evmtools.fourBytesCache, requests := [], calls := [] }

/-- Go `getSigsFromFourBytes`, in sequential use: a cached selector is answered
from the cache; otherwise one remote request is made, its text signatures (none
on failure) are stored under the selector and returned. -/
def getSigsFromFourBytes (remote : Remote) (w : World) (fourBytes : Bytes) :
    List String × World :=
  let w := { w with calls := w.calls ++ [fourBytes] }
  let hexFourBytes := hex.EncodeToString fourBytes
  match w.fourBytesCache hexFourBytes with
  | some sigs => (sigs, w)
  | none =>
    let sigs : List String :=
      match remote w.requests.length fourBytes with
      | .getFailed => []
      | .decodeFailed => []
      | .reply b4 => b4.Results.map (fun b4rec => b4rec.TextSignature)
    (sigs, { w with fourBytesCache := w.fourBytesCache.set hexFourBytes sigs,
                    requests := w.requests ++ [fourBytes] })

/-! ## go-ethereum `core/vm` and `core/asm` (library): the instruction iterator -/

/-- Go `vm.PUSH1`. -/
def vm.PUSH1 : Nat := 0x60

/-- Go `vm.PUSH4`. -/
def vm.PUSH4 : Nat := 0x63

/-- Go `vm.PUSH32`. -/
def vm.PUSH32 : Nat := 0x7f

/-- Go `(vm.OpCode).IsPush`: `PUSH1` to `PUSH32`. (Where a later release of the
library also counts `PUSH0`, that opcode has no trailing bytes and `Disassemble`
treats it like every opcode without an argument.) -/
def vm.IsPush (op : Nat) : Bool := decide (vm.PUSH1 ≤ op) && decide (op ≤ vm.PUSH32)

/-- Go `asm.instructionIterator`; a `nil` argument is `none`, and the error, when
set, holds the program counter of the incomplete push. -/
structure instructionIterator where
  code : Bytes
  pc : Nat
  arg : Option Bytes
  op : Nat
  error : Option Nat
  started : Bool
  deriving DecidableEq, Repr

/-- Go `asm.NewInstructionIterator`. -/
def asm.NewInstructionIterator (code : Bytes) : instructionIterator :=
  { code := code, pc := 0, arg := none, op := 0, error := none, started := false }

/-- Go `(*instructionIterator).Next`: the returned flag and the iterator after the
call. -/
def instructionIterator.Next (it : instructionIterator) : Bool × instructionIterator :=
  if it.error.isSome || decide (it.code.length ≤ it.pc) then (false, it)
  else
    let it : instructionIterator :=
      if it.started then
        { it with pc := (match it.arg with
                         | some arg => it.pc + arg.length
                         | none => it.pc) + 1 }
      else { it with started := true }
    if it.code.length ≤ it.pc then (false, it)
    else
      let it := { it with op := it.code.getD it.pc 0 }
      if vm.IsPush it.op then
        let a := it.op - vm.PUSH1 + 1
        let u := it.pc + 1 + a
        if it.code.length ≤ it.pc ∨ it.code.length < u then
          (false, { it with error := some it.pc })
        else (true, { it with arg := some (byteRange it.code (it.pc + 1) u) })
      else (true, { it with arg := none })

/-- Go `(*instructionIterator).Op`. -/
def instructionIterator.Op (it : instructionIterator) : Nat := it.op

/-- Go `(*instructionIterator).Arg`. -/
def instructionIterator.Arg (it : instructionIterator) : Option Bytes := it.arg

/-- Go `(*instructionIterator).PC`. -/
def instructionIterator.PC (it : instructionIterator) : Nat := it.pc

/-- Go `(*instructionIterator).Error`. -/
def instructionIterator.Error (it : instructionIterator) : Option Nat := it.error

/-! ## Package `evmdis` (evmdis.go): `Disassemble` -/

/-- Go `strings.Join`. -/
def strings.Join : List String → String → String
  | [], _ => ""
  | [a], _ => a
  | a :: b :: rest, sep => a ++ sep ++ strings.Join (b :: rest) sep

/-- Go `bytes.IndexByte`: the position of the first `c`, or `-1`. -/
def bytes.IndexByte (b : Bytes) (c : Nat) : Int :=
  if c ∈ b then (b.indexOf c : Int) else -1

/-- The local variables of `Disassemble` that the loop updates, and the
process-wide state. -/
structure DisState where
  sigs : GoMap Unit
  fourBytesToSigs : GoMap (List String)
  lines : List Line
  world : World

/-- The local variables as `Disassemble` creates them: empty maps and no lines. -/
def DisState.start (w : World) : DisState :=
  { sigs := GoMap.empty, fourBytesToSigs := GoMap.empty, lines := [], world := w }

/-- The loop `for _, sig := range signatures` of the `PUSH4` branch: every
signature joins `sigs`, is appended to `fourBytesToSigs[hexArg]` and to the
comment. -/
def recordSignatures (hexArg : String) :
    List String → String × DisState → String × DisState
  | [], acc => acc
  | sig :: rest, (comment, st) =>
    recordSignatures hexArg rest
      (comment ++ " " ++ sig,
       { st with sigs := st.sigs.set sig (),
                 fourBytesToSigs :=
                   st.fourBytesToSigs.set hexArg ((st.fourBytesToSigs hexArg).getD [] ++ [sig]) })

/-- The body of the loop `for it.Next() { ... }` of `Disassemble`, run on the
iterator as `Next` left it. `InstructionSet` is the table of package `evmops`,
which is not among the sources. -/
def disassembleBody (InstructionSet : Nat → Instruction) (remote : Remote)
    (it : instructionIterator) (st : DisState) : DisState :=
  let plain : DisState :=
    { st with lines := st.lines ++
        [{ Inst := InstructionSet it.Op, ProgramCounter := it.PC, Args := [], Comment := "" }] }
  match it.Arg with
  | none => plain
  | some arg =>
    if 0 < arg.length then
      if arg.length = 4 ∧ it.Op = vm.PUSH4 then
        let hexArg := hex.EncodeToString arg
        let (comment, st) : String × DisState :=
          if !(st.fourBytesToSigs.has hexArg) then
            let (signatures, world) := getSigsFromFourBytes remote st.world arg
            recordSignatures hexArg signatures ("", { st with world := world })
          else
            (strings.Join ((st.fourBytesToSigs hexArg).getD []) ", ", st)
        { st with lines := st.lines ++
            [{ Inst := InstructionSet it.Op, Args := [arg], ProgramCounter := it.PC,
               Comment := comment }] }
      else if it.Op = vm.PUSH32 then
        let pos := bytes.IndexByte arg 0
        let ok := (List.range pos.toNat).foldl
          (fun ok i => ok && decide (arg.getD i 0 < 0x80)) true
        let ascii : Bytes :=
          if ok then
            if pos ≥ 0 then arg.take pos.toNat else arg
          else []
        let hexArg := hex.EncodeToString ascii
        { st with lines := st.lines ++
            [{ Inst := InstructionSet it.Op, Args := [stringBytes hexArg],
               ProgramCounter := it.PC, Comment := "" }] }
      else plain
    else plain

/-- The loop `for it.Next() { ... }`, at most `fuel` calls of `Next`. -/
def disassembleLoop (InstructionSet : Nat → Instruction) (remote : Remote) :
    Nat → instructionIterator → DisState → instructionIterator × DisState
  | 0, it, st => (it, st)
  | fuel + 1, it, st =>
    match it.Next with
    | (true, it) => disassembleLoop InstructionSet remote fuel it
        (disassembleBody InstructionSet remote it st)
    | (false, it) => (it, st)

/-- The error `Disassemble` returns: the one of `hex.DecodeString`, or the
iterator's `incomplete push instruction at pc`. -/
inductive DisError where
  | hex (e : HexError)
  | incompletePush (pc : Nat)
  deriving DecidableEq, Repr

/-- What a call of `Disassemble` returns, and the process-wide state after it. -/
structure DisOutcome where
  result : Option Results
  err : Option DisError
  world : World

/-- Go `(*Disassembler).Disassemble`. Every successful `Next` moves to a later
byte of the script, so `len(script) + 1` calls of `Next` end the loop. -/
def Disassemble (InstructionSet : Nat → Instruction) (remote : Remote) (w : World)
    (code : String) : DisOutcome :=
  match hex.DecodeString code with
  | .error err => { result := none, err := some (.hex err), world := w }
  | .ok script =>
    let (it, st) := disassembleLoop InstructionSet remote (script.length + 1)
      (asm.NewInstructionIterator script) (DisState.start w)
    let r : Results :=
      { Lines := st.lines, FoundSignatures := st.sigs,
        CompiledLen := hex.DecodedLen (stringBytes code).length }
    match it.Error with
    | some pc => { result := some r, err := some (.incompletePush pc), world := st.world }
    | none => { result := some r, err := none, world := st.world }

/-! ## Go `strings` and `unicode`

Text is a `String`, read as its list of characters; an index is a character
position. The source only slices at positions that `strings.Index` returned, so
positions in characters and positions in bytes cut a text at the same places. -/

/-- Go `unicode.IsSpace`. -/
def unicode.IsSpace (c : Char) : Bool :=
  let r := c.toNat
  r = 0x09 || r = 0x0A || r = 0x0B || r = 0x0C || r = 0x0D || r = 0x20 || r = 0x85 || r = 0xA0 ||
  r = 0x1680 || (0x2000 ≤ r && r ≤ 0x200A) || r = 0x2028 || r = 0x2029 || r = 0x202F ||
  r = 0x205F || r = 0x3000

/-- The position of the first occurrence of `sub` in a text whose first character
has position `i`. -/
def indexFrom (sub : List Char) : List Char → Nat → Option Nat
  | [], i => if sub = [] then some i else none
  | c :: cs, i => if sub.isPrefixOf (c :: cs) then some i else indexFrom sub cs (i + 1)

/-- Go `strings.Index`: the position of the first occurrence, or `-1`. -/
def strings.Index (s substr : String) : Int :=
  match indexFrom substr.data s.data 0 with
  | some i => (i : Int)
  | none => -1

/-- Go `strings.Contains`. -/
def strings.Contains (s substr : String) : Bool :=
  decide (strings.Index s substr ≥ 0)

/-- Go `s[lo:hi]`; `none` stands for the run-time panic of a slice out of range. -/
def slice (s : String) (lo hi : Int) : Option String :=
  if 0 ≤ lo ∧ lo ≤ hi ∧ hi ≤ (s.length : Int) then
    some ⟨(s.data.take hi.toNat).drop lo.toNat⟩
  else none

/-- Go `s[:hi]`. -/
def sliceTo (s : String) (hi : Int) : Option String := slice s 0 hi

/-- Go `s[lo:]`. -/
def sliceFrom (s : String) (lo : Int) : Option String := slice s lo s.length

/-- Go `strings.TrimSpace`: leading and trailing white space removed. -/
def strings.TrimSpace (s : String) : String :=
  ⟨((s.data.dropWhile unicode.IsSpace).reverse.dropWhile unicode.IsSpace).reverse⟩

/-- Pieces of a text between occurrences of the character `sep`. -/
def splitChars (sep : Char) : List Char → List (List Char)
  | [] => [[]]
  | c :: cs =>
    if c = sep then [] :: splitChars sep cs
    else
      match splitChars sep cs with
      | [] => [[c]]
      | p :: ps => (c :: p) :: ps

/-- Go `strings.Split(s, sep)` for a separator of one character, the only use the
source makes of it (`strings.Split(sig, ",")`). -/
def strings.Split (s : String) (sep : Char) : List String :=
  (splitChars sep s.data).map String.mk

/-! ## Package `evmfuncs` (funcSig.go): descriptors and the signature grammar -/

/-- Go `evmfuncs.FuncParam`; the field `Type` of the source is `Typ` here, `Type`
being a reserved word. -/
structure FuncParam where
  Name : String
  Typ : String
  deriving DecidableEq, Repr

/-- Go `evmfuncs.FuncSig`. `Outputs` tells a `nil` slice of outputs from an empty
one, so `outputs` is `none` for `nil`; nothing reads that difference for `inputs`,
whose `nil` is the empty list. -/
structure FuncSig where
  name : String
  inputs : List FuncParam
  outputs : Option (List FuncParam)
  unescapedSel : String
  deriving DecidableEq, Repr

/-- Go `(*FuncSig).Name`. -/
def FuncSig.Name (fsig : FuncSig) : String := fsig.name

/-- Go `(*FuncSig).Inputs`. -/
def FuncSig.Inputs (fsig : FuncSig) : List FuncParam := fsig.inputs

/-- The loop shared by `String` and `removeParamNamesFromSelector`: the types in
order, with `","` after each one but the last. -/
def typeList : List FuncParam → String
  | [] => ""
  | [p] => p.Typ
  | p :: q :: rest => p.Typ ++ "," ++ typeList (q :: rest)

/-- Go `(*FuncSig).removeParamNamesFromSelector`. -/
def FuncSig.removeParamNamesFromSelector (fsig : FuncSig) : String :=
  fsig.name ++ "(" ++ typeList fsig.Inputs ++ ")"

/-- Go `(*FuncSig).String`: the canonical signature `name(type,...,type)`. -/
def FuncSig.String (fsig : FuncSig) : String :=
  fsig.Name ++ "(" ++ typeList fsig.Inputs ++ ")"

/-- Go `parseName`. -/
def parseName (sig : String) : Option (String × String) :=
  if strings.Contains sig "(" then do
    let name ← sliceTo sig (strings.Index sig "(")
    let sig ← sliceFrom sig (strings.Index sig "(")
    pure (name, sig)
  else
    pure (sig, "")

/-- Go `parseParam`: the first space splits the type from the name. -/
def parseParam (paramStr : String) : Option FuncParam :=
  if strings.Contains paramStr " " then do
    let ty ← sliceTo paramStr (strings.Index paramStr " ")
    let nm ← sliceFrom paramStr (strings.Index paramStr " " + 1)
    pure { Name := nm, Typ := ty }
  else
    pure { Name := "", Typ := paramStr }

/-- The loop of Go `parseParams` over the pieces of the split. -/
def parseParamStrs : List String → Option (List FuncParam)
  | [] => some []
  | paramStr :: rest => do
    let param ← parseParam (strings.TrimSpace paramStr)
    let params ← parseParamStrs rest
    pure (param :: params)

/-- Go `parseParams`. -/
def parseParams (sig : String) : Option (List FuncParam) :=
  parseParamStrs (strings.Split sig ',')

/-- Go `parseInputs`; the second component is the text the function returns as
the remaining signature, which is the text between the parentheses. -/
def parseInputs (sig : String) : Option (List FuncParam × String) :=
  if strings.Contains sig "(" then do
    let sig ← sliceFrom sig (strings.Index sig "(" + 1)
    let sig ← (if strings.Contains sig ")" then sliceTo sig (strings.Index sig ")") else pure sig)
    let inputs ← (if sig ≠ "" then parseParams sig else pure [])
    pure (inputs, sig)
  else
    pure ([], sig)

/-- Go `parseOutputs`; the outputs stay `nil` unless `parseParams` runs. -/
def parseOutputs (sig : String) : Option (Option (List FuncParam) × String) :=
  if strings.Contains sig "returns" then do
    let sig ← sliceFrom sig (strings.Index sig "returns" + 7)
    let sig ← (if strings.Contains sig ")" then sliceTo sig (strings.Index sig ")") else pure sig)
    let outputs ← (if sig ≠ "" then (parseParams sig).map some else pure none)
    pure (outputs, sig)
  else
    pure (none, sig)

/-- Go `parseFuncSig`; `none` stands for a run-time panic. -/
def parseFuncSig (rawSig : String) : Option FuncSig := do
  let (name, sig) ← parseName rawSig
  let (inputs, sig) ← parseInputs sig
  let (outputs, _) ← parseOutputs sig
  pure { name := name, inputs := inputs, outputs := outputs, unescapedSel := rawSig }

/-! ## go-ethereum `accounts/abi` (library): decoding of elementary types

The call-data decoder is the library's; `unpackArgs` only chooses the bytes it
is given. It is embedded here after go-ethereum 1.10 for the elementary types
(`intN`, `uintN`, `bool`, `address`, `bytesN`, `bytes`, `string`, `function`).
Array and tuple types are outside the embedding, and so is `bytesN` with `N > 32`; the
library accepts all of them. `abi.NewType` answers them with `Error.notModelled`, which
is no error of the library. -/

/-- Go `abi` type kinds (the elementary ones). -/
inductive abi.Kind where
  | IntTy | UintTy | BoolTy | StringTy | AddressTy | FixedBytesTy | BytesTy | FunctionTy
  deriving DecidableEq, Repr

/-- Go `abi.Type`, reduced to an elementary type: kind, size and the text it was
parsed from. -/
structure abi.Ty where
  T : abi.Kind
  Size : Nat
  stringKind : String
  deriving DecidableEq, Repr

/-- Errors of the library. -/
inductive abi.Error where
  | invalidArgType
  | notModelled
  | invalidType (t : String)
  | parsingVariableSize
  | unsupportedArgType (t : String)
  | lengthInsufficient (len required : Nat)
  | offsetOverBoundary
  | offsetLargerThanInt64
  | lengthLargerThanInt64
  | badBool
  | badFunctionType
  deriving DecidableEq, Repr

/-- Values the decoder produces: `common.Address`, `*big.Int`, the sized
integers, `bool`, `[N]byte`, `[]byte`, `string` (as its bytes) and `[24]byte`. -/
inductive abi.Value where
  | address (a : Bytes)
  | bigInt (v : Int)
  | uintN (bits : Nat) (v : Nat)
  | intN (bits : Nat) (v : Int)
  | bool (b : Bool)
  | fixedBytes (b : Bytes)
  | bytes (b : Bytes)
  | str (b : Bytes)
  | func (b : Bytes)
  deriving DecidableEq, Repr

/-- Go `abi.Argument`; the field `Type` of the source is `Typ` here. -/
structure abi.Argument where
  Name : String
  Typ : abi.Ty
  Indexed : Bool
  deriving DecidableEq, Repr

/-- Go `abi.Arguments`. -/
abbrev abi.Arguments := List abi.Argument

/-- A letter `a-z` or `A-Z`. -/
def abi.isLetter (c : Char) : Bool :=
  (decide ('a' ≤ c) && decide (c ≤ 'z')) || (decide ('A' ≤ c) && decide (c ≤ 'Z'))

/-- A digit `0-9`. -/
def abi.isDigit (c : Char) : Bool := decide ('0' ≤ c) && decide (c ≤ '9')

/-- The first match of the library's `typeRegex`,
`([a-zA-Z]+)(([0-9]+)(x([0-9]+))?)?`: groups 1, 2 and 3. -/
def abi.typeRegexMatch (t : List Char) : Option (List Char × List Char × List Char) :=
  let s := t.dropWhile (fun c => !abi.isLetter c)
  if s = [] then none
  else
    let letters := s.takeWhile abi.isLetter
    let rest := s.dropWhile abi.isLetter
    let digits := rest.takeWhile abi.isDigit
    if digits = [] then some (letters, [], [])
    else
      match rest.dropWhile abi.isDigit with
      | 'x' :: more =>
        if more.takeWhile abi.isDigit = [] then some (letters, digits, digits)
        else some (letters, digits ++ 'x' :: more.takeWhile abi.isDigit, digits)
      | _ => some (letters, digits, digits)

/-- Go `strconv.Atoi` on a text without sign: the decimal value, or `none` for a
text that is not all digits or a value out of the range of `int`. -/
def strconv.Atoi (s : List Char) : Option Nat :=
  if s ≠ [] ∧ s.all abi.isDigit then
    let v := s.foldl (fun acc c => 10 * acc + (c.toNat - 48)) 0
    if v < 2 ^ 63 then some v else none
  else none

/-- Go `abi.NewType(t, "", nil)` on the types of the embedding; `Error.notModelled`
for the types outside it (arrays, tuples, `bytesN` with `N > 32`). -/
def abi.NewType (t : String) : Except abi.Error abi.Ty :=
  if t.data.count '[' ≠ t.data.count ']' then .error .invalidArgType
  else if t.data.count '[' ≠ 0 then .error .notModelled
  else
    match abi.typeRegexMatch t.data with
    | none => .error (.invalidType t)
    | some (varType, group2, group3) =>
      let sized : Except abi.Error Nat :=
        if group3.length > 0 then
          match strconv.Atoi group2 with
          | some n => .ok n
          | none => .error .parsingVariableSize
        else if varType ++ group2 = "uint".data ∨ varType ++ group2 = "int".data then
          .error (.unsupportedArgType t)
        else .ok 0
      match sized with
      | .error e => .error e
      | .ok varSize =>
        if varType = "int".data then .ok ⟨.IntTy, varSize, t⟩
        else if varType = "uint".data then .ok ⟨.UintTy, varSize, t⟩
        else if varType = "bool".data then .ok ⟨.BoolTy, 0, t⟩
        else if varType = "address".data then .ok ⟨.AddressTy, 20, t⟩
        else if varType = "string".data then .ok ⟨.StringTy, 0, t⟩
        else if varType = "bytes".data then
          if varSize = 0 then .ok ⟨.BytesTy, 0, t⟩
          else if varSize > 32 then .error .notModelled
          else .ok ⟨.FixedBytesTy, varSize, t⟩
        else if varType = "tuple".data then .error .notModelled
        else if varType = "function".data then .ok ⟨.FunctionTy, 24, t⟩
        else .error (.unsupportedArgType t)

/-- Go `(Type).requiresLengthPrefix`. -/
def abi.Ty.requiresLengthPrefix (t : abi.Ty) : Bool :=
  t.T = .StringTy || t.T = .BytesTy

/-- Go `new(big.Int).SetBytes(b)`: the big-endian value of a byte string. -/
def bigEndian (b : Bytes) : Nat := b.foldl (fun acc x => acc * 256 + x) 0

/-- The big-endian bytes of `v` in a field of `n` bytes. -/
def bigEndianBytes : Nat → Nat → Bytes
  | 0, _ => []
  | n + 1, v => bigEndianBytes n (v / 256) ++ [v % 256]

/-- Go `abi.lengthPrefixPointsTo`: start and length of a dynamic payload. -/
def abi.lengthPrefixPointsTo (index : Nat) (output : Bytes) : Except abi.Error (Nat × Nat) :=
  let bigOffsetEnd := bigEndian (byteRange output index (index + 32)) + 32
  let outputLength := output.length
  if bigOffsetEnd > outputLength then .error .offsetOverBoundary
  else if bigOffsetEnd ≥ 2 ^ 63 then .error .offsetLargerThanInt64
  else
    let offsetEnd := bigOffsetEnd
    let lengthBig := bigEndian (byteRange output (offsetEnd - 32) offsetEnd)
    let totalSize := bigOffsetEnd + lengthBig
    if totalSize ≥ 2 ^ 63 then .error .lengthLargerThanInt64
    else if totalSize > outputLength then .error (.lengthInsufficient outputLength totalSize)
    else .ok (bigOffsetEnd, lengthBig)

/-- Go `abi.ReadInteger`: sizes 8, 16, 32 and 64 give the sized integer read from
the low bytes of the word, every other size a `*big.Int`, negative for a signed
type whose bit 255 is set. -/
def abi.ReadInteger (typ : abi.Ty) (b : Bytes) : abi.Value :=
  if typ.T = .UintTy then
    if typ.Size = 8 ∨ typ.Size = 16 ∨ typ.Size = 32 ∨ typ.Size = 64 then
      .uintN typ.Size (bigEndian (b.drop (b.length - typ.Size / 8)))
    else .bigInt (bigEndian b)
  else
    if typ.Size = 8 ∨ typ.Size = 16 ∨ typ.Size = 32 ∨ typ.Size = 64 then
      let u := bigEndian (b.drop (b.length - typ.Size / 8))
      .intN typ.Size (if u < 2 ^ (typ.Size - 1) then (u : Int) else (u : Int) - 2 ^ typ.Size)
    else
      let ret := bigEndian b
      if ret / 2 ^ 255 % 2 = 1 then .bigInt (-((2 ^ 256 - 1 - (ret : Int)) + 1))
      else .bigInt ret

/-- Go `abi.readBool`. -/
def abi.readBool (word : Bytes) : Except abi.Error Bool :=
  if (word.take 31).any (fun b => b ≠ 0) then .error .badBool
  else
    match word.getD 31 0 with
    | 0 => .ok false
    | 1 => .ok true
    | _ => .error .badBool

/-- Go `common.BytesToAddress`: the last 20 bytes, left-padded with zeros. -/
def common.BytesToAddress (b : Bytes) : Bytes :=
  let b := if b.length > 20 then b.drop (b.length - 20) else b
  List.replicate (20 - b.length) 0 ++ b

/-- Go `abi.toGoType`: the value of type `t` whose head word starts at `index`. -/
def abi.toGoType (index : Nat) (t : abi.Ty) (output : Bytes) : Except abi.Error abi.Value :=
  if index + 32 > output.length then
    .error (.lengthInsufficient output.length (index + 32))
  else if t.requiresLengthPrefix then
    match abi.lengthPrefixPointsTo index output with
    | .error e => .error e
    | .ok (begin, length) =>
      match t.T with
      | .StringTy => .ok (.str (byteRange output begin (begin + length)))
      | _ => .ok (.bytes (byteRange output begin (begin + length)))
  else
    let returnOutput := byteRange output index (index + 32)
    match t.T with
    | .IntTy => .ok (abi.ReadInteger t returnOutput)
    | .UintTy => .ok (abi.ReadInteger t returnOutput)
    | .BoolTy =>
      match abi.readBool returnOutput with
      | .error e => .error e
      | .ok b => .ok (.bool b)
    | .AddressTy => .ok (.address (common.BytesToAddress returnOutput))
    | .FixedBytesTy => .ok (.fixedBytes (byteRange returnOutput 0 t.Size))
    | .FunctionTy =>
      if bigEndian (byteRange returnOutput 24 32) ≠ 0 then .error .badFunctionType
      else .ok (.func (byteRange returnOutput 0 24))
    | _ => .error (.invalidType t.stringKind)

/-- The loop of Go `Arguments.UnpackValues`: `index` counts the arguments read so
far and `retval` holds their values. -/
def abi.unpackLoop (data : Bytes) :
    abi.Arguments → Nat → List abi.Value → Option (List abi.Value) × Option abi.Error
  | [], _, retval => (some retval, none)
  | arg :: rest, index, retval =>
    match abi.toGoType (index * 32) arg.Typ data with
    | .error err => (none, some err)
    | .ok marshalledValue => abi.unpackLoop data rest (index + 1) (retval ++ [marshalledValue])

/-- Go `Arguments.UnpackValues`: one value per argument, or `nil` and the first
error. (Every argument `FuncSig.ABI` builds is non-indexed.) -/
def abi.Arguments.UnpackValues (arguments : abi.Arguments) (data : Bytes) :
    Option (List abi.Value) × Option abi.Error :=
  abi.unpackLoop data (arguments.filter (fun a => !a.Indexed)) 0 []

/-- Go `abi.Method`, with the fields `abi.NewMethod` is given. -/
structure abi.Method where
  Name : String
  RawName : String
  StateMutability : String
  Constant : Bool
  Payable : Bool
  Inputs : abi.Arguments
  Outputs : abi.Arguments

/-- Go `abi.ABI`, with the one field `FuncSig.ABI` sets. -/
structure abi.ABI where
  Methods : GoMap abi.Method

/-- Go `bytes.HasPrefix`. -/
def bytes.HasPrefix (s pre : Bytes) : Bool :=
  decide (s.length ≥ pre.length) && decide (s.take pre.length = pre)

/-! ## Package `evmfuncs`: effects and the registry, as far as `ABI` reads them -/

/-- Go `evmfuncs.Effect`, a `uint64`. -/
abbrev Effect := Nat

/-- Go `EffectUnknown`. -/
def EffectUnknown : Effect := 0

/-- Go `EffectRead`, `1 << iota` on the second line of its block. -/
def EffectRead : Effect := 1 <<< 1

/-- Go `evmfuncs.WellKnownFuncDesc`; as in `FuncSig`, `outputs` is `none` for a `nil`
slice. -/
structure WellKnownFuncDesc where
  name : String
  knownMethodKey : String
  description : String
  inputs : List FuncParam
  outputs : Option (List FuncParam)
  effects : Effect
  methodIDHex : String
  deriving DecidableEq

/-- Go `(*FuncSig).Effects`; `funcDescriptions` is the package's registry. -/
def FuncSig.Effects (funcDescriptions : GoMap WellKnownFuncDesc) (fsig : FuncSig) : Effect :=
  match funcDescriptions fsig.String with
  | some description => description.effects
  | none => EffectUnknown

/-! ## Package `evmfuncs` (funcSig.go): decoding call data -/

/-- The loops of Go `(*FuncSig).ABI` over the inputs and over the outputs: one
non-indexed argument per parameter, or the first error of `abi.NewType`. -/
def abiArguments : List FuncParam → Except abi.Error abi.Arguments
  | [] => .ok []
  | param :: rest =>
    match abi.NewType param.Typ with
    | .error err => .error err
    | .ok abiType =>
      match abiArguments rest with
      | .error err => .error err
      | .ok args => .ok ({ Name := param.Name, Typ := abiType, Indexed := false } :: args)

/-- Go `(*FuncSig).ABI`: a one-method ABI for the descriptor. -/
def FuncSig.ABI (funcDescriptions : GoMap WellKnownFuncDesc) (fsig : FuncSig) :
    Except abi.Error abi.ABI :=
  match abiArguments fsig.inputs with
  | .error err => .error err
  | .ok abiInputs =>
    match abiArguments (fsig.outputs.getD []) with
    | .error err => .error err
    | .ok abiOutputs =>
      let mutability :=
        if fsig.Effects funcDescriptions ≠ EffectUnknown then
          if fsig.Effects funcDescriptions = EffectRead then "view" else ""
        else ""
      .ok { Methods := GoMap.empty.set fsig.Name
              { Name := fsig.Name, RawName := fsig.Name, StateMutability := mutability,
                Constant := false, Payable := true,
                Inputs := abiInputs, Outputs := abiOutputs } }

/-- Go `fsigABI.Methods[name]`: the method, or the zero `abi.Method`. -/
def abi.ABI.method (a : abi.ABI) (name : String) : abi.Method :=
  (a.Methods name).getD
    { Name := "", RawName := "", StateMutability := "", Constant := false, Payable := false,
      Inputs := [], Outputs := [] }

/-- Go `(*FuncSig).unpackArgs`. Empty data gives `nil, nil`; with `tryStripMethodID`
set and the descriptor's selector in front, the selector is skipped. -/
def FuncSig.unpackArgs (fsig : FuncSig) (args : abi.Arguments) (data : Bytes)
    (tryStripMethodID : Bool) : Option (List abi.Value) × Option abi.Error :=
  if data.length = 0 then (none, none)
  else
    let sig := fsig.removeParamNamesFromSelector
    let methodID := MethodID sig
    if !tryStripMethodID || !bytes.HasPrefix data methodID then
      args.UnpackValues data
    else
      match args.UnpackValues (data.drop 4) with
      | (_, some err) => (none, some err)
      | (x, none) => (x, none)

/-- Go `(*FuncSig).UnpackInput`. -/
def FuncSig.UnpackInput (funcDescriptions : GoMap WellKnownFuncDesc) (fsig : FuncSig)
    (data : Bytes) : Option (List abi.Value) × Option abi.Error :=
  match fsig.ABI funcDescriptions with
  | .error err => (none, some err)
  | .ok fsigABI => fsig.unpackArgs (fsigABI.method fsig.Name).Inputs data true

/-- Go `(*FuncSig).UnpackOutput`. -/
def FuncSig.UnpackOutput (funcDescriptions : GoMap WellKnownFuncDesc) (fsig : FuncSig)
    (data : Bytes) : Option (List abi.Value) × Option abi.Error :=
  match fsig.ABI funcDescriptions with
  | .error err => (none, some err)
  | .ok fsigABI => fsig.unpackArgs (fsigABI.method fsig.Name).Outputs data false

/-! ## Bytecode as a list of instructions: the vocabulary of the statements about
`Disassemble` -/

/-- A table for the examples: the mnemonics of four opcodes, every other opcode
undefined. -/
def exampleInstructionSet : Nat → Instruction := fun op =>
  { Opcode := op,
    Mnemonic := if op = 0x00 then "STOP" else if op = 0x60 then "PUSH1"
      else if op = 0x63 then "PUSH4" else if op = 0x7f then "PUSH32"
      else "__UNDEFINED_INSTRUCTION" }

/-- A remote directory that cannot be reached. -/
def offlineRemote : Remote := fun _ _ => .getFailed

/-- A hexadecimal digit `0-9`, `a-f` or `A-F`. -/
def isHexDigit (c : Char) : Bool :=
  (decide ('0'.toNat ≤ c.toNat) && decide (c.toNat ≤ '9'.toNat)) ||
  (decide ('a'.toNat ≤ c.toNat) && decide (c.toNat ≤ 'f'.toNat)) ||
  (decide ('A'.toNat ≤ c.toNat) && decide (c.toNat ≤ 'F'.toNat))

/-- A valid hexadecimal string: even length and only hexadecimal digits. -/
def IsHexString (code : String) : Bool :=
  decide (code.length % 2 = 0) && code.data.all isHexDigit

/-- One instruction of a bytecode: the opcode byte and the bytes that follow it. -/
structure Instr where
  op : Nat
  args : Bytes
  deriving DecidableEq, Repr

/-- The number of trailing bytes an opcode declares: `opcode - 0x5f` for the push
opcodes `0x60..0x7f`, and `0` for every other opcode. -/
def pushWidth (op : Nat) : Nat := if vm.IsPush op then op - 0x5f else 0

/-- A complete instruction carries exactly the bytes its opcode declares. -/
def Instr.complete (i : Instr) : Bool := decide (i.args.length = pushWidth i.op)

/-- The bytes of an instruction. -/
def Instr.bytes (i : Instr) : Bytes := i.op :: i.args

/-- The bytecode made of the given instructions. -/
def assemble (is : List Instr) : Bytes := is.flatMap Instr.bytes

/-- A push opcode followed by fewer bytes than it declares, at the end of a
bytecode. -/
def truncatedPush (suffix : Bytes) : Bool :=
  match suffix with
  | [] => false
  | op :: tail => vm.IsPush op && decide (tail.length < pushWidth op)

/-- The iterator as `Next` leaves it on the instruction `i` at `pc`. -/
def Instr.iterator (i : Instr) (code : Bytes) (pc : Nat) : instructionIterator :=
  { code := code, pc := pc, arg := if vm.IsPush i.op then some i.args else none, op := i.op,
    error := none, started := true }

/-- The loop body run on the given instructions in turn, the first one at `pc`. -/
def runInstrs (InstructionSet : Nat → Instruction) (remote : Remote) :
    Nat → List Instr → DisState → DisState
  | _, [], st => st
  | pc, i :: is, st =>
    runInstrs InstructionSet remote (pc + 1 + i.args.length) is
      (disassembleBody InstructionSet remote (i.iterator [] pc) st)

/-- An iterator whose next call of `Next` reads the byte at `q`. -/
def Poised (it : instructionIterator) (code : Bytes) (q : Nat) : Prop :=
  it.code = code ∧ it.error = none ∧ it.pc < code.length ∧
  (if it.started then
    (match it.arg with
     | some arg => it.pc + arg.length
     | none => it.pc) + 1
   else it.pc) = q

/-- The program counters of the given instructions, the first one at `pc`. -/
def pcsFrom : Nat → List Instr → List Nat
  | _, [] => []
  | pc, i :: is => pc :: pcsFrom (pc + 1 + i.args.length) is

/-! ## The call data of the tests (funcSig_test.go) -/

/-- The descriptor of the tests: `transfer(address to, uint256 amount)`. -/
def transferSig : FuncSig :=
  { name := "transfer",
    inputs := [{ Name := "to", Typ := "address" }, { Name := "amount", Typ := "uint256" }],
    outputs := some [],
    unescapedSel := "transfer(address to, uint256 amount)" }

/-- The arguments `ABI` builds for `transferSig`. -/
def transferArgs : abi.Arguments :=
  [⟨"to", ⟨.AddressTy, 20, "address"⟩, false⟩, ⟨"amount", ⟨.UintTy, 256, "uint256"⟩, false⟩]

/-- The 64 bytes of the tests: the padded address and the amount. -/
def transferPayload : Bytes :=
  [0, 0, 0, 0, 0, 0, 0, 0, 0, 0, 0, 0,
   0x5a, 0x5b, 0x64, 0x4f, 0xb1, 0xa3, 0xca, 0x04, 0x63, 0x17,
   0xfe, 0x82, 0xbc, 0x69, 0x5f, 0xff, 0x7b, 0xac, 0xf3, 0x0c,
   0, 0, 0, 0, 0, 0, 0, 0, 0, 0, 0, 0, 0, 0, 0, 0, 0, 0, 0, 0, 0, 0,
   0x02, 0xa5, 0x68, 0xd6, 0x21, 0x5a, 0xc1, 0x40, 0x00, 0x00]

/-! ## Signature texts: the vocabulary of the statements about the grammar -/

/-- the characters of `a,b,...,c` -/
def commaJoinChars : List (List Char) → List Char
  | [] => []
  | [a] => a
  | a :: b :: rest => a ++ ',' :: commaJoinChars (b :: rest)

/-- `a,b,...,c` -/
def commaJoin : List String → String
  | [] => ""
  | [a] => a
  | a :: b :: rest => a ++ "," ++ commaJoin (b :: rest)

/-- A run of `n` spaces. -/
def spaces (n : Nat) : String := ⟨List.replicate n ' '⟩

/-- One parameter as a signature text writes it: a type, optionally one space and
a name, and `padL`/`padR` spaces around it. -/
structure ParamText where
  ty : String
  nm : Option String
  padL : Nat
  padR : Nat
  deriving DecidableEq, Repr

/-- The text of a parameter. -/
def ParamText.written (p : ParamText) : String :=
  spaces p.padL ++ p.ty ++ (match p.nm with | none => "" | some n => " " ++ n) ++ spaces p.padR

/-- The `(type, name)` pair a parameter stands for; the name is empty when absent. -/
def ParamText.param (p : ParamText) : FuncParam :=
  { Name := p.nm.getD "", Typ := p.ty }

/-- The type is non-empty and free of white space, `,`, `(` and `)`; the name, when
written, is free of `,` and `)`. -/
def ParamText.asStated (p : ParamText) : Bool :=
  p.ty.data ≠ [] &&
  p.ty.data.all (fun c => !unicode.IsSpace c && c != ',' && c != '(' && c != ')') &&
  (match p.nm with
   | none => true
   | some n => n.data.all (fun c => c != ',' && c != ')'))

/-- The name, when written, does not end in a white-space character. -/
def ParamText.nameKept (p : ParamText) : Bool :=
  match p.nm with
  | none => true
  | some n =>
    match n.data.getLast? with
    | none => true
    | some c => !unicode.IsSpace c

/-- The signature text `name(p1,...,pk)`. -/
def signatureText (name : String) (ps : List ParamText) : String :=
  name ++ "(" ++ commaJoin (ps.map ParamText.written) ++ ")"

/-- The text the `PUSH32` branch of `Disassemble` hex-encodes: `ascii` after the scan
for the first zero byte. -/
def push32Text (arg : Bytes) : Bytes :=
  if (List.range (bytes.IndexByte arg 0).toNat).foldl
      (fun ok i => ok && decide (arg.getD i 0 < 0x80)) true = true then
    (if bytes.IndexByte arg 0 ≥ 0 then arg.take (bytes.IndexByte arg 0).toNat else arg)
  else []

/-- The process states reachable from the initial one in sequential use: each step is
one call of `getSigsFromFourBytes`, on any selector and with any remote collaborator. -/
inductive Reachable : World → Prop
  | initial : Reachable World.initial
  | call (remote : Remote) (w : World) (fourBytes : Bytes) :
      Reachable w → Reachable (getSigsFromFourBytes remote w fourBytes).2

/-- Invariant of the `Disassemble` loop once the instructions `seen` are decoded: a
memoized list is the cached list of its selector and is part of the signatures found;
every signature found is a cached candidate of a decoded `PUSH4` argument; and every
cached candidate of a decoded `PUSH4` argument is found. -/
def FoundInv (st : DisState) (seen : List Instr) : Prop :=
  (∀ (k : String) (L : List String), st.fourBytesToSigs k = some L →
    st.world.fourBytesCache k = some L ∧ ∀ s ∈ L, st.sigs.has s = true) ∧
  (∀ s : String, st.sigs.has s = true →
    ∃ i ∈ seen, i.op = vm.PUSH4 ∧ i.args.length = 4 ∧
      ∃ L, st.world.fourBytesCache (hex.EncodeToString i.args) = some L ∧ s ∈ L) ∧
  (∀ i ∈ seen, i.op = vm.PUSH4 → i.args.length = 4 →
    ∃ L, st.world.fourBytesCache (hex.EncodeToString i.args) = some L ∧
      ∀ s ∈ L, st.sigs.has s = true)

/-! ## Package `evmfuncs`: the remaining effect constants (effect.go) -/

/-- Go `EffectWrite`, `1 << iota` on the third line of its block. -/
def EffectWrite : Effect := 1 <<< 2

/-- Go `EffectTrigger`, `1 << iota` on the fourth line of its block. -/
def EffectTrigger : Effect := 1 <<< 3

/-- Go `effectClassMax = 1 << iota >> 1` on the fifth line of its block. -/
def effectClassMax : Nat := (1 <<< 4) >>> 1

/-- Go `EffectStateWrite = EffectWrite | effectClassMax<<iota<<1`, `iota = 0`. -/
def EffectStateWrite : Effect := EffectWrite ||| ((effectClassMax <<< 0) <<< 1)

/-- Go `EffectAddressWrite = EffectWrite | effectClassMax<<iota<<1`, `iota = 1`. -/
def EffectAddressWrite : Effect := EffectWrite ||| ((effectClassMax <<< 1) <<< 1)

/-- Go `EffectTransfer = EffectStateWrite | EffectTrigger | effectClassMax<<iota<<1`,
`iota = 2`. -/
def EffectTransfer : Effect :=
  EffectStateWrite ||| EffectTrigger ||| ((effectClassMax <<< 2) <<< 1)

/-- Go `EffectMint = EffectTransfer | effectClassMax<<iota<<1`, `iota = 3`. -/
def EffectMint : Effect := EffectTransfer ||| ((effectClassMax <<< 3) <<< 1)

/-- Go `EffectBurn = EffectTransfer | effectClassMax<<iota<<1`, `iota = 4`. -/
def EffectBurn : Effect := EffectTransfer ||| ((effectClassMax <<< 4) <<< 1)

/-- Go `EffectSelfdestruct = EffectAddressWrite | EffectStateWrite | EffectTrigger |
effectClassMax<<iota<<1`, `iota = 5`. -/
def EffectSelfdestruct : Effect :=
  EffectAddressWrite ||| EffectStateWrite ||| EffectTrigger ||| ((effectClassMax <<< 5) <<< 1)

/-- Go `EffectRBACUpdate = EffectStateWrite | effectClassMax<<iota<<1`, `iota = 6`. -/
def EffectRBACUpdate : Effect := EffectStateWrite ||| ((effectClassMax <<< 6) <<< 1)

/-! ## Package `evmfuncs`: the registry as declared (funcSigDict.go) -/

/-- Go map literal `funcDescriptions` (funcSigDict.go), in source order, as declared:
`knownMethodKey` and `methodIDHex` are still empty, `init` fills them in and adds
the role functions. A field the literal leaves out has its zero value
(`none` for the `nil` slice of outputs). -/
def funcDescriptionsLiteral : List (String × WellKnownFuncDesc) := [
  ("balance(address)",
    { name := "balance", knownMethodKey := "",
      description := "get the balance of the given account",
      inputs := [{ Name := "accountAddress", Typ := "address" }],
      outputs := some [{ Name := "balance", Typ := "uint256" }],
      effects := EffectRead, methodIDHex := "" }),
  ("mint(address,uint256)",
    { name := "mint", knownMethodKey := "",
      description := "mint new tokens",
      inputs :=
        [{ Name := "receiverAddress", Typ := "address" },
         { Name := "amount", Typ := "uint256" }],
      outputs := some [],
      effects := EffectMint, methodIDHex := "" }),
  ("burn(uint256)",
    { name := "burn", knownMethodKey := "",
      description := "burn tokens",
      inputs := [{ Name := "amount", Typ := "uint256" }],
      outputs := some [],
      effects := EffectBurn, methodIDHex := "" }),
  ("burn(address,uint256)",
    { name := "burn", knownMethodKey := "",
      description := "burn tokens",
      inputs :=
        [{ Name := "accountAddress", Typ := "address" },
         { Name := "amount", Typ := "uint256" }],
      outputs := none,
      effects := EffectUnknown, methodIDHex := "" }),
  ("transfer(address,uint256)",
    { name := "transfer", knownMethodKey := "",
      description := "transfer erc20 tokens or a specific erc721 to the given address",
      inputs := [{ Name := "to", Typ := "address" }, { Name := "amount", Typ := "uint256" }],
      outputs := some [],
      effects := EffectTransfer, methodIDHex := "" }),
  ("transfer(address to, uint256 tokenID)",
    { name := "transfer", knownMethodKey := "",
      description := "transfer a specific erc721 to the given address",
      inputs := [{ Name := "to", Typ := "address" }, { Name := "tokenID", Typ := "uint256" }],
      outputs := some [],
      effects := EffectTransfer, methodIDHex := "" }),
  ("transfer(address to, uint256 value)",
    { name := "transfer", knownMethodKey := "",
      description := "transfer erc20 tokens to the given address",
      inputs := [{ Name := "to", Typ := "address" }, { Name := "value", Typ := "uint256" }],
      outputs := some [],
      effects := EffectTransfer, methodIDHex := "" }),
  ("transfer(address to, uint256 amount)",
    { name := "transfer", knownMethodKey := "",
      description := "transfer erc20 tokens to the given address",
      inputs := [{ Name := "to", Typ := "address" }, { Name := "amount", Typ := "uint256" }],
      outputs := some [],
      effects := EffectTransfer, methodIDHex := "" }),
  ("transferFrom(address,address,uint256)",
    { name := "transferFrom", knownMethodKey := "",
      description := "transfer tokens from the given address to the given address",
      inputs :=
        [{ Name := "from", Typ := "address" },
         { Name := "to", Typ := "address" },
         { Name := "amount", Typ := "uint256" }],
      outputs := some [],
      effects := EffectTransfer, methodIDHex := "" }),
  ("approve(address,uint256)",
    { name := "approve", knownMethodKey := "",
      description :=
        "approve the given address to spend the specified number of tokens on behalf of the message sender",
      inputs := [{ Name := "spender", Typ := "address" }, { Name := "amount", Typ := "uint256" }],
      outputs := some [],
      effects := EffectStateWrite, methodIDHex := "" }),
  ("name()",
    { name := "name", knownMethodKey := "",
      description := "get the name of the token",
      inputs := [],
      outputs := some [{ Name := "name", Typ := "string" }],
      effects := EffectRead, methodIDHex := "" }),
  ("owner()",
    { name := "owner", knownMethodKey := "",
      description := "get the owner of the contract",
      inputs := [],
      outputs := some [{ Name := "owner", Typ := "address" }],
      effects := EffectRead, methodIDHex := "" }),
  ("symbol()",
    { name := "symbol", knownMethodKey := "",
      description := "get the symbol of the token",
      inputs := [],
      outputs := some [{ Name := "symbol", Typ := "string" }],
      effects := EffectRead, methodIDHex := "" }),
  ("totalSupply()",
    { name := "totalSupply", knownMethodKey := "",
      description := "get the total supply of the token",
      inputs := [],
      outputs := some [{ Name := "totalSupply", Typ := "uint256" }],
      effects := EffectRead, methodIDHex := "" }),
  ("decimals()",
    { name := "decimals", knownMethodKey := "",
      description := "get the number of decimals of the token",
      inputs := [],
      outputs := some [{ Name := "decimals", Typ := "uint8" }],
      effects := EffectRead, methodIDHex := "" }),
  ("balanceOf(address)",
    { name := "balanceOf", knownMethodKey := "",
      description := "get the balance of the given address",
      inputs := [{ Name := "accountAddress", Typ := "address" }],
      outputs := some [{ Name := "balance", Typ := "uint256" }],
      effects := EffectRead, methodIDHex := "" }),
  ("allowance(address,address)",
    { name := "allowance", knownMethodKey := "",
      description :=
        "get the number of tokens that the given address is allowed to spend on behalf of the given address",
      inputs := [{ Name := "owner", Typ := "address" }, { Name := "spender", Typ := "address" }],
      outputs := some [{ Name := "allowance", Typ := "uint256" }],
      effects := EffectRead, methodIDHex := "" }),
  ("renounceOwnership()",
    { name := "renounceOwnership", knownMethodKey := "",
      description := "renounce ownership of the contract",
      inputs := [],
      outputs := some [],
      effects := EffectStateWrite, methodIDHex := "" }),
  ("transferOwnership(address)",
    { name := "transferOwnership", knownMethodKey := "",
      description := "transfer ownership of the contract to the given address",
      inputs := [{ Name := "newOwner", Typ := "address" }],
      outputs := some [],
      effects := EffectStateWrite, methodIDHex := "" }),
  ("pause()",
    { name := "pause", knownMethodKey := "",
      description := "pause the contract",
      inputs := [],
      outputs := some [],
      effects := EffectStateWrite, methodIDHex := "" }),
  ("unpause()",
    { name := "unpause", knownMethodKey := "",
      description := "unpause the contract",
      inputs := [],
      outputs := some [],
      effects := EffectStateWrite, methodIDHex := "" }),
  ("paused()",
    { name := "paused", knownMethodKey := "",
      description := "check if the contract is paused",
      inputs := [],
      outputs := some [{ Name := "paused", Typ := "bool" }],
      effects := EffectRead, methodIDHex := "" }),
  ("ownerOf(uint256)",
    { name := "ownerOf", knownMethodKey := "",
      description := "get the owner of the given token",
      inputs := [{ Name := "tokenId", Typ := "uint256" }],
      outputs := some [{ Name := "owner", Typ := "address" }],
      effects := EffectRead, methodIDHex := "" }),
  ("getApproved(uint256)",
    { name := "getApproved", knownMethodKey := "",
      description := "get the approved address for the given token",
      inputs := [{ Name := "tokenId", Typ := "uint256" }],
      outputs := some [{ Name := "operator", Typ := "address" }],
      effects := EffectRead, methodIDHex := "" }),
  ("setApprovalForAll(address,bool)",
    { name := "setApprovalForAll", knownMethodKey := "",
      description := "set the approval status for the given operator",
      inputs := [{ Name := "operator", Typ := "address" }, { Name := "approved", Typ := "bool" }],
      outputs := some [],
      effects := EffectStateWrite, methodIDHex := "" }),
  ("isApprovedForAll(address,address)",
    { name := "isApprovedForAll", knownMethodKey := "",
      description := "check if the given operator is approved for the given owner",
      inputs := [{ Name := "owner", Typ := "address" }, { Name := "operator", Typ := "address" }],
      outputs := some [{ Name := "approved", Typ := "bool" }],
      effects := EffectRead, methodIDHex := "" }),
  ("safeTransferFrom(address,address,uint256)",
    { name := "safeTransferFrom", knownMethodKey := "",
      description := "transfer the given token from the given address to the given address",
      inputs :=
        [{ Name := "from", Typ := "address" },
         { Name := "to", Typ := "address" },
         { Name := "tokenId", Typ := "uint256" }],
      outputs := some [],
      effects := EffectTransfer, methodIDHex := "" }),
  ("safeTransferFrom(address,address,uint256,bytes)",
    { name := "safeTransferFrom", knownMethodKey := "",
      description := "transfer the given token from the given address to the given address",
      inputs :=
        [{ Name := "from", Typ := "address" },
         { Name := "to", Typ := "address" },
         { Name := "tokenId", Typ := "uint256" },
         { Name := "data", Typ := "bytes" }],
      outputs := some [],
      effects := EffectTransfer, methodIDHex := "" }),
  ("tokenURI(uint256)",
    { name := "tokenURI", knownMethodKey := "",
      description := "get the URI of the given token",
      inputs := [{ Name := "tokenId", Typ := "uint256" }],
      outputs := some [{ Name := "tokenURI", Typ := "string" }],
      effects := EffectRead, methodIDHex := "" }),
  ("supportsInterface(bytes4)",
    { name := "supportsInterface", knownMethodKey := "",
      description := "check if the contract implements the given interface",
      inputs := [{ Name := "interfaceId", Typ := "bytes4" }],
      outputs := some [{ Name := "supported", Typ := "bool" }],
      effects := EffectRead, methodIDHex := "" }),
  ("onERC721Received(address,address,uint256,bytes)",
    { name := "onERC721Received", knownMethodKey := "",
      description := "handle the receipt of an NFT",
      inputs :=
        [{ Name := "operator", Typ := "address" },
         { Name := "from", Typ := "address" },
         { Name := "tokenId", Typ := "uint256" },
         { Name := "data", Typ := "bytes" }],
      outputs := none,
      effects := EffectUnknown, methodIDHex := "" }),
  ("isOnLegalHold(uint256)",
    { name := "isOnLegalHold", knownMethodKey := "",
      description := "check if the given token is on legal hold",
      inputs := [{ Name := "tokenId", Typ := "uint256" }],
      outputs := some [{ Name := "onHold", Typ := "bool" }],
      effects := EffectRead, methodIDHex := "" }),
  ("putOnLegalHold(uint256)",
    { name := "putOnLegalHold", knownMethodKey := "",
      description := "put the given token on legal hold",
      inputs := [{ Name := "tokenId", Typ := "uint256" }],
      outputs := some [],
      effects := EffectStateWrite, methodIDHex := "" }),
  ("releaseLegalHold(uint256)",
    { name := "releaseLegalHold", knownMethodKey := "",
      description := "release the given token from legal hold",
      inputs := [{ Name := "tokenId", Typ := "uint256" }],
      outputs := some [],
      effects := EffectStateWrite, methodIDHex := "" })]

/-- The package variable `funcDescriptions` with the entries of its literal, before
`init` adds the role functions; `init` removes no key. -/
def funcDescriptionsDeclared : GoMap WellKnownFuncDesc :=
  fun k => funcDescriptionsLiteral.lookup k

/-! ## Package `evmfuncs` (funcSig.go): `lookupWellKnownKey` -/

/-- Go `strings.Fields` over the characters still to read; `cur` is the field being
read, last character first. -/
def fieldsFrom : List Char → List Char → List String
  | [], cur => if cur = [] then [] else [⟨cur.reverse⟩]
  | c :: cs, cur =>
    if unicode.IsSpace c then
      if cur = [] then fieldsFrom cs [] else ⟨cur.reverse⟩ :: fieldsFrom cs []
    else fieldsFrom cs (c :: cur)

/-- Go `strings.Fields`: the maximal runs of characters that are not white space. -/
def strings.Fields (s : String) : List String := fieldsFrom s.data []

/-- Go `strings.ToLower`. A text of ASCII characters has `A..Z` replaced by `a..z`;
otherwise every character is mapped by `unicode.ToLower`, whose case tables are not
part of this repository and are the parameter `unicodeToLower`. -/
def strings.ToLower (unicodeToLower : Char → Char) (s : String) : String :=
  if s.data.all (fun c => decide (c.toNat < 0x80)) then
    ⟨s.data.map (fun c => if 'A' ≤ c ∧ c ≤ 'Z' then Char.ofNat (c.toNat + ('a'.toNat - 'A'.toNat))
      else c)⟩
  else ⟨s.data.map unicodeToLower⟩

/-- Go `(*FuncSig).lookupWellKnownKey`; `funcDescriptions` is the package's registry. -/
def lookupWellKnownKey (funcDescriptions : GoMap WellKnownFuncDesc)
    (unicodeToLower : Char → Char) (fsig : FuncSig) : String :=
  let hasFuncDesc := fun (s : String) => (funcDescriptions (strings.TrimSpace s)).isSome
  if hasFuncDesc fsig.String then fsig.String
  else if hasFuncDesc fsig.unescapedSel then fsig.unescapedSel
  else
    let dedupSpaces := fun (s : String) => strings.Join (strings.Fields s) " "
    let respaced := dedupSpaces fsig.String
    if hasFuncDesc respaced then respaced
    else
      let anonymized := fsig.removeParamNamesFromSelector
      if hasFuncDesc anonymized then anonymized
      else strings.ToLower unicodeToLower fsig.name

/-! ## Package `evmfuncs` (funcSigDict.go): the role functions and `init` -/

/-- Go `strings.ToUpper(role[:1]) + role[1:]` of `getRBACFuncsForRole`: an ASCII
letter `a..z` in front becomes `A..Z`. `none` stands for the panic of `role[:1]` on
the empty text, and for a role whose first character is not ASCII: `role[:1]` then
cuts a character in two, which a text cannot hold here. -/
def firstCap (role : String) : Option String :=
  match role.data with
  | [] => none
  | c :: rest =>
    if c.toNat < 0x80 then
      some ⟨(if 'a' ≤ c ∧ c ≤ 'z' then Char.ofNat (c.toNat - ('a'.toNat - 'A'.toNat)) else c)
        :: rest⟩
    else none

/-- Go `getRBACFuncsForRole`: the six functions of a role, in source order. -/
def getRBACFuncsForRole (role : String) : Option (List (String × WellKnownFuncDesc)) :=
  match firstCap role with
  | none => none
  | some firstCap =>
    some [
      ("add" ++ firstCap ++ "(address)",
        { name := "add" ++ firstCap, knownMethodKey := "",
          description := "add the given address to the " ++ role ++ " role",
          inputs := [{ Name := "account", Typ := "address" }],
          outputs := some [],
          effects := EffectRBACUpdate, methodIDHex := "" }),
      ("remove" ++ firstCap ++ "(address)",
        { name := "remove" ++ firstCap, knownMethodKey := "",
          description := "remove the given address from the " ++ role ++ " role",
          inputs := [{ Name := "account", Typ := "address" }],
          outputs := some [],
          effects := EffectRBACUpdate, methodIDHex := "" }),
      ("renounce" ++ firstCap ++ "()",
        { name := "renounce" ++ firstCap, knownMethodKey := "",
          description := "remove the sender from the " ++ role ++ " role",
          inputs := [],
          outputs := some [],
          effects := EffectRBACUpdate, methodIDHex := "" }),
      ("has" ++ firstCap ++ "Role(address)",
        { name := "has" ++ firstCap ++ "Role", knownMethodKey := "",
          description := "check if the given address has the " ++ role ++ " role",
          inputs := [{ Name := "account", Typ := "address" }],
          outputs := some [{ Name := "hasRole", Typ := "bool" }],
          effects := EffectRead, methodIDHex := "" }),
      ("is" ++ firstCap ++ "()",
        { name := "is" ++ firstCap, knownMethodKey := "",
          description := "check if the sender has the " ++ role ++ " role",
          inputs := [],
          outputs := some [{ Name := "is" ++ firstCap, Typ := "bool" }],
          effects := EffectRead, methodIDHex := "" }),
      ("is" ++ firstCap ++ "(address)",
        { name := "is" ++ firstCap, knownMethodKey := "",
          description := "check if the given address has the " ++ role ++ " role",
          inputs := [{ Name := "account", Typ := "address" }],
          outputs := some [{ Name := "is" ++ firstCap, Typ := "bool" }],
          effects := EffectRead, methodIDHex := "" })]

/-- Go `wellKnownRoles`, the local list of `wellKnownRBACFuncs`. -/
def wellKnownRoles : List String :=
  ["admin", "minter", "pauser", "burner", "signer", "whitelisted", "blacklisted", "owner",
   "operator", "verifier", "legal", "legalOperator", "legalHolder", "legalHoldOperator"]

/-- Go `m[k] = v` on a map kept as the list of its entries: the entry of `k` is
replaced, or a new entry is added at the end. -/
def entriesSet {α : Type} (m : List (String × α)) (k : String) (v : α) : List (String × α) :=
  if (m.lookup k).isSome then m.map (fun e => if e.1 = k then (k, v) else e)
  else m ++ [(k, v)]

/-- The loop of Go `wellKnownRBACFuncs` over the roles. -/
def rbacFuncsOf : List String → List (String × WellKnownFuncDesc) →
    Option (List (String × WellKnownFuncDesc))
  | [], funcs => some funcs
  | role :: rest, funcs =>
    match getRBACFuncsForRole role with
    | none => none
    | some roleFuncs =>
      rbacFuncsOf rest (roleFuncs.foldl (fun funcs e => entriesSet funcs e.1 e.2) funcs)

/-- Go `wellKnownRBACFuncs()`: the functions of the fourteen roles. -/
def wellKnownRBACFuncs : Option (List (String × WellKnownFuncDesc)) :=
  rbacFuncsOf wellKnownRoles []

/-- The signature `name(type,...,type)` that `init` and `MethodID` build from a
descriptor's name and input types. -/
def WellKnownFuncDesc.sig (v : WellKnownFuncDesc) : String :=
  v.name ++ "(" ++ typeList v.inputs ++ ")"

/-- The package variables `funcDescriptions` (as the list of its entries) and
`funcDescriptionByMethodID`. -/
structure Registry where
  funcDescriptions : List (String × WellKnownFuncDesc)
  funcDescriptionByMethodID : GoMap WellKnownFuncDesc

/-- The first loop of Go `init`: the role functions are added to `funcDescriptions`;
`none` stands for `panic("dup function description " + k)`. -/
def initAdd : List (String × WellKnownFuncDesc) → List (String × WellKnownFuncDesc) →
    Option (List (String × WellKnownFuncDesc))
  | [], funcDescriptions => some funcDescriptions
  | (k, v) :: rest, funcDescriptions =>
    if (funcDescriptions.lookup k).isSome then none
    else initAdd rest (entriesSet funcDescriptions k v)

/-- The second loop of Go `init`, over the entries of `funcDescriptions`: each
descriptor learns its key, and one whose key is its signature learns its selector
and is indexed by it; `none` stands for `panic("signature mismatch: ...")`. -/
def initIndex : List (String × WellKnownFuncDesc) → GoMap WellKnownFuncDesc →
    Option (List (String × WellKnownFuncDesc) × GoMap WellKnownFuncDesc)
  | [], funcDescriptionByMethodID => some ([], funcDescriptionByMethodID)
  | (k, v) :: rest, funcDescriptionByMethodID =>
    let v := { v with knownMethodKey := k }
    let sig := v.sig
    if k = sig then
      let methodID := MethodID sig
      let methodIDHex := hex.EncodeToString methodID
      let v := { v with methodIDHex := methodIDHex }
      match initIndex rest (funcDescriptionByMethodID.set methodIDHex v) with
      | none => none
      | some (entries, byMethodID) => some ((k, v) :: entries, byMethodID)
    else if k ≠ "transfer(address to, uint256 tokenID)" ∧
        k ≠ "transfer(address to, uint256 value)" ∧
        k ≠ "transfer(address to, uint256 amount)" then none
    else
      match initIndex rest funcDescriptionByMethodID with
      | none => none
      | some (entries, byMethodID) => some ((k, v) :: entries, byMethodID)

/-- Go `init` of package `evmfuncs`, run on the variables as declared; `none` stands
for a panic. Go ranges over maps in no fixed order; the entries are taken in source
order here. -/
def init : Option Registry :=
  match wellKnownRBACFuncs with
  | none => none
  | some rbac =>
    match initAdd rbac funcDescriptionsLiteral with
    | none => none
    | some funcDescriptions =>
      match initIndex funcDescriptions GoMap.empty with
      | none => none
      | some (entries, byMethodID) =>
        some { funcDescriptions := entries, funcDescriptionByMethodID := byMethodID }

/-- The registry `funcDescriptions` as a map. -/
def Registry.descriptions (r : Registry) : GoMap WellKnownFuncDesc :=
  fun k => r.funcDescriptions.lookup k

/-- Go `(*WellKnownFuncDesc).MethodID`. -/
def WellKnownFuncDesc.MethodID (desc : WellKnownFuncDesc) : Bytes :=
  match hex.DecodeString desc.methodIDHex with
  | .error _ => Evmtools.MethodID desc.sig
  | .ok mID => mID

/-- Go `GetWellKnownFuncByMethodID`; `none` for `nil, false`. -/
def GetWellKnownFuncByMethodID (funcDescriptionByMethodID : GoMap WellKnownFuncDesc)
    (methodID : Bytes) : Option WellKnownFuncDesc :=
  funcDescriptionByMethodID (hex.EncodeToString methodID)

/-- Go `GetWellKnownFuncBySig`, which reads `funcDescriptionByMethodID[sig]`; `none`
for `nil, false`. -/
def GetWellKnownFuncBySig (funcDescriptionByMethodID : GoMap WellKnownFuncDesc)
    (sig : String) : Option WellKnownFuncDesc :=
  funcDescriptionByMethodID sig

/-- Go `strings.EqualFold` on ASCII text: equal up to the case of `A..Z`. `none`
stands for a text with a character outside ASCII, whose Unicode case folding is
outside the embedding. -/
def equalFoldChars : List Char → List Char → Option Bool
  | [], [] => some true
  | [], _ :: _ => some false
  | _ :: _, [] => some false
  | sr :: s, tr :: t =>
    if sr.toNat ≥ 0x80 ∨ tr.toNat ≥ 0x80 then none
    else if tr = sr then equalFoldChars s t
    else
      let lo := if tr < sr then tr else sr
      let hi := if tr < sr then sr else tr
      if 'A' ≤ lo ∧ lo ≤ 'Z' ∧ hi.toNat = lo.toNat + ('a'.toNat - 'A'.toNat) then
        equalFoldChars s t
      else some false

/-- Go `strings.EqualFold`, see `equalFoldChars`. -/
def strings.EqualFold (s t : String) : Option Bool := equalFoldChars s.data t.data

/-- The loop of Go `GetWellKnownFuncsByName` over the entries of `funcDescriptions`. -/
def wellKnownFuncsByName (name : String) :
    List (String × WellKnownFuncDesc) → Option (List WellKnownFuncDesc)
  | [] => some []
  | (_, desc) :: rest =>
    match strings.EqualFold desc.name name, wellKnownFuncsByName name rest with
    | some true, some descriptions => some (desc :: descriptions)
    | some false, some descriptions => some descriptions
    | _, _ => none

/-- Go `GetWellKnownFuncsByName`. Go ranges over the map `funcDescriptions` in no
fixed order, which may change from call to call: `rangeOrder` is the entries of the map
in the order this call visits them, any permutation of the entries, and the
descriptors come back in that order. -/
def GetWellKnownFuncsByName (rangeOrder : List (String × WellKnownFuncDesc))
    (name : String) : Option (List WellKnownFuncDesc) :=
  wellKnownFuncsByName name rangeOrder

/-- Go `NewFuncSignatureFromString`: the descriptor and the `error` (`none` for
`nil`); `none` stands for a run-time panic. -/
def NewFuncSignatureFromString (funcDescriptionByMethodID : GoMap WellKnownFuncDesc)
    (sig : String) : Option (FuncSig × Option String) :=
  match GetWellKnownFuncBySig funcDescriptionByMethodID sig with
  | some wellKnown =>
    some ({ name := wellKnown.name, inputs := wellKnown.inputs, outputs := wellKnown.outputs,
            unescapedSel := sig }, none)
  | none =>
    match parseFuncSig sig with
    | none => none
    | some fsig => some ({ fsig with unescapedSel := sig }, none)

/-- Go `(*FuncSig).WellKnown`. -/
def FuncSig.WellKnown (funcDescriptions : GoMap WellKnownFuncDesc) (fsig : FuncSig) : Bool :=
  (funcDescriptions fsig.String).isSome

/-- Go `(*FuncSig).Outputs`; `funcDescriptions[key]` of a missing key is a `nil`
pointer, whose field cannot be read: `none` on the outside stands for that panic. -/
def FuncSig.Outputs (funcDescriptions : GoMap WellKnownFuncDesc)
    (unicodeToLower : Char → Char) (fsig : FuncSig) : Option (Option (List FuncParam)) :=
  if fsig.outputs = none ∧ fsig.WellKnown funcDescriptions = true then
    match funcDescriptions (lookupWellKnownKey funcDescriptions unicodeToLower fsig) with
    | none => none
    | some description => some description.outputs
  else some fsig.outputs

/-! ## Package `evmops` (ops.go) and `Results.String`: rendering -/

/-- Go `joinAsHex`: the elements hex-encoded, with `sep` between them. -/
def joinAsHex (elems : List Bytes) (sep : String) : String :=
  match elems with
  | [] => ""
  | [e] => hex.EncodeToString e
  | e :: rest =>
    rest.foldl (fun b s => b ++ sep ++ hex.EncodeToString s) (hex.EncodeToString e)

/-- Go `(*Line).String`. The receiver is a pointer and the method appends to its
`Comment`: the result is the text together with the line as the call leaves it. -/
def Line.String (l : Line) : String × Line :=
  let str := ""
  let str := if l.Inst.Mnemonic ≠ "" then str ++ l.Inst.Mnemonic else str
  let str := if l.Args.length > 0 then str ++ " " ++ joinAsHex l.Args ", " else str
  let l := { l with Comment := l.Comment ++ (" pc=" ++ toString l.ProgramCounter) }
  let str := str ++ " ; " ++ l.Comment
  (str, l)

/-- The loop of Go `(*Results).String`: `for _, line := range r.Lines` copies each
element of the slice into the loop variable `line`, and `line.String()` works on
that copy; what it leaves in the copy is dropped at the end of the iteration. -/
def renderLines : List Line → String → String
  | [], buf => buf
  | line :: rest, buf =>
    let (text, _) := line.String
    renderLines rest (buf ++ text ++ "\n")

/-- Go `(*Results).String`: the text, and `r` as the call leaves it. -/
def Results.String (r : Results) : String × Results :=
  (renderLines r.Lines "", r)

/-! ## The mutex of the selector cache (fourBytesDirectory.go) -/

/-- What a run of `getSigsFromFourBytes` does to the mutex `fourByteCacheMu`, to the
map `fourBytesCache` and to the network, in program order. -/
inductive CacheEvent where
  | RLock
  | RUnlock
  | Lock
  | Unlock
  | readCache (key : String)
  | writeCache (key : String) (sigs : List String)
  | httpGet (fourBytes : Bytes)
  deriving DecidableEq, Repr

/-- Go `getSigsFromFourBytes`, statement by statement, with the events of the run as
a third component; the deferred `Unlock` runs as the function returns. -/
def getSigsFromFourBytesEvents (remote : Remote) (w : World) (fourBytes : Bytes) :
    List String × World × List CacheEvent :=
  let w := { w with calls := w.calls ++ [fourBytes] }
  let events := [CacheEvent.RLock]
  let hexFourBytes := hex.EncodeToString fourBytes
  let events := events ++ [.readCache hexFourBytes]
  match w.fourBytesCache hexFourBytes with
  | some sigs =>
    let events := events ++ [.RUnlock]
    (sigs, w, events)
  | none =>
    let events := events ++ [.RUnlock]
    let events := events ++ [.httpGet fourBytes]
    let sigs : List String :=
      match remote w.requests.length fourBytes with
      | .getFailed => []
      | .decodeFailed => []
      | .reply b4 => b4.Results.map (fun b4rec => b4rec.TextSignature)
    let events := events ++ [.Lock]
    let events := events ++ [.writeCache hexFourBytes sigs]
    let w := { w with fourBytesCache := w.fourBytesCache.set hexFourBytes sigs,
                      requests := w.requests ++ [fourBytes] }
    let events := events ++ [.Unlock]
    (sigs, w, events)

/-- The locks of `fourByteCacheMu` the running call holds. -/
structure Held where
  shared : Nat
  exclusive : Bool
  deriving DecidableEq, Repr

/-- One event under the locking discipline: a lock is released only when held and
not taken twice, the cache is read only under the shared lock and written only
under the exclusive lock, and the network is used with no lock held; `none` is a
breach. -/
def Held.step (h : Held) : CacheEvent → Option Held
  | .RLock => if h.exclusive = false ∧ h.shared = 0 then some { h with shared := 1 } else none
  | .RUnlock => if h.shared = 1 then some { h with shared := 0 } else none
  | .Lock => if h.exclusive = false ∧ h.shared = 0 then some { h with exclusive := true } else none
  | .Unlock => if h.exclusive = true then some { h with exclusive := false } else none
  | .readCache _ => if h.shared = 1 then some h else none
  | .writeCache _ _ => if h.exclusive = true then some h else none
  | .httpGet _ => if h.exclusive = false ∧ h.shared = 0 then some h else none

/-- The locks held after a run of events that starts with the locks `h`; `none` when
the discipline is breached on the way. -/
def Held.run (h : Held) : List CacheEvent → Option Held
  | [] => some h
  | e :: rest =>
    match h.step e with
    | none => none
    | some h => h.run rest

/-- A type text as `parseFuncSig` builds it from a text whose white space is ASCII
spaces: free of `,`, of `)` and of white space. -/
def typeClean (t : String) : Prop :=
  ',' ∉ t.data ∧ ')' ∉ t.data ∧ ∀ c ∈ t.data, unicode.IsSpace c = false

/-! ## Package `evmfuncs` (effect.go): tests on effects -/

/-- Go `Effect.IsUnknown`. -/
def Effect.IsUnknown (e : Effect) : Bool := decide (e = EffectUnknown)

/-- Go `Effect.Is`: `e&effect != 0`. -/
def Effect.Is (e effect : Effect) : Bool := decide (e &&& effect ≠ 0)

/-- The six selectors of the ERC20 interface, each with the signature of `ERC20Iface`
it stands for. -/
def erc20Selectors : List (Bytes × String) :=
  [([0x18, 0x16, 0x0d, 0xdd], "totalSupply()"),
   ([0x70, 0xa0, 0x82, 0x31], "balanceOf(address)"),
   ([0xdd, 0x62, 0xed, 0x3e], "allowance(address,address)"),
   ([0xa9, 0x05, 0x9c, 0xbb], "transfer(address,uint256)"),
   ([0x09, 0x5e, 0xa7, 0xb3], "approve(address,uint256)"),
   ([0x23, 0xb8, 0x72, 0xdd], "transferFrom(address,address,uint256)")]

/-! ## Package `evmops` (ops.go): the text `Line.String` appends -/

/-- The text `s` written `n` times in a row. -/
def repeated : Nat → String → String
  | 0, _ => ""
  | n + 1, s => s ++ repeated n s

/-- The suffix ` pc=<ProgramCounter>` that `Line.String` appends to the comment. -/
def pcSuffix (l : Line) : String := " pc=" ++ toString l.ProgramCounter

/-! # Theorems -/

/-! ## Implements -/

theorem implements_eq_all (r : Results) (iface : List String) :
    r.Implements iface = iface.all (fun sig => r.FoundSignatures.has sig) := by
  induction iface with
  | nil => rfl
  | cons sig rest ih =>
    simp only [Results.Implements, List.all_cons, ih]
    cases r.FoundSignatures.has sig <;> simp

theorem ofKeys_has (keys : List String) (s : String) :
    (GoMap.ofKeys keys).has s = true ↔ s ∈ keys := by
  have key : ∀ (ks : List String) (m : GoMap Unit),
      GoMap.has (ks.foldl (fun m k => m.set k ()) m) s = true ↔ (s ∈ ks ∨ m.has s = true) := by
    intro ks
    induction ks with
    | nil => intro m; simp
    | cons k ks ih =>
      intro m
      rw [List.foldl_cons, ih]
      by_cases h : s = k
      · simp [GoMap.has, GoMap.set, h]
      · simp [GoMap.has, GoMap.set, h]
  rw [GoMap.ofKeys, key]
  simp [GoMap.has, GoMap.empty]

/-- C1. `Implements` is exact-string containment: `r.Implements iface` is true
exactly when every string of `iface` is a key of `r.FoundSignatures` (so the empty
list gives true); when the keys of `FoundSignatures` are the six ERC20 signatures
of the spec's example, `Implements ERC20Iface` is true and `Implements ERC721Iface`
is false. -/
theorem Implements_iff_keys :
    (∀ (r : Results) (iface : List String),
      r.Implements iface = true ↔ ∀ s ∈ iface, r.FoundSignatures.has s = true) ∧
    (∀ r : Results, r.Implements [] = true) ∧
    (∀ (n : Nat) (lines : List Line),
      let r : Results := ⟨n, lines, GoMap.ofKeys
        ["balanceOf(address)", "transfer(address,uint256)", "totalSupply()",
         "allowance(address,address)", "approve(address,uint256)",
         "transferFrom(address,address,uint256)"]⟩
      r.Implements ERC20Iface = true ∧ r.Implements ERC721Iface = false) := by
  refine ⟨?_, ?_, ?_⟩
  · intro r iface
    rw [implements_eq_all, List.all_eq_true]
  · intro r
    rfl
  · intro n lines
    refine ⟨?_, ?_⟩
    · rw [implements_eq_all, List.all_eq_true]
      intro s hs
      rw [ofKeys_has]
      simp only [ERC20Iface, List.mem_cons, List.mem_singleton, List.not_mem_nil, or_false] at hs ⊢
      tauto
    · rw [Bool.eq_false_iff]
      intro h
      rw [implements_eq_all, List.all_eq_true] at h
      have h1 := h "ownerOf(uint256)" (by simp [ERC721Iface])
      rw [ofKeys_has] at h1
      revert h1
      decide

/-! ## MethodID -/

theorem crypto.Keccak256_length (data : Bytes) : (crypto.Keccak256 data).length = 32 := by
  simp [crypto.Keccak256]

set_option maxRecDepth 100000 in
/-- The Keccak-256 digests of the empty text, of `abc`, and of 135 and of 136 letters
`a`: one padded block with both padding bytes, the one padding byte `0x81`, and a
second block that is padding only. -/
theorem crypto.Keccak256_known_answers :
    crypto.Keccak256 [] =
      [0xc5, 0xd2, 0x46, 0x01, 0x86, 0xf7, 0x23, 0x3c, 0x92, 0x7e, 0x7d, 0xb2, 0xdc, 0xc7, 0x03,
       0xc0, 0xe5, 0x00, 0xb6, 0x53, 0xca, 0x82, 0x27, 0x3b, 0x7b, 0xfa, 0xd8, 0x04, 0x5d, 0x85,
       0xa4, 0x70] ∧
    crypto.Keccak256 (stringBytes "abc") =
      [0x4e, 0x03, 0x65, 0x7a, 0xea, 0x45, 0xa9, 0x4f, 0xc7, 0xd4, 0x7b, 0xa8, 0x26, 0xc8, 0xd6,
       0x67, 0xc0, 0xd1, 0xe6, 0xe3, 0x3a, 0x64, 0xa0, 0x36, 0xec, 0x44, 0xf5, 0x8f, 0xa1, 0x2d,
       0x6c, 0x45] ∧
    crypto.Keccak256 (List.replicate 135 0x61) =
      [0x34, 0x36, 0x7d, 0xc2, 0x48, 0xbb, 0xd8, 0x32, 0xf4, 0xe3, 0xe6, 0x9d, 0xfa, 0xac, 0x2f,
       0x92, 0x63, 0x8b, 0xd0, 0xbb, 0xd1, 0x8f, 0x29, 0x12, 0xba, 0x4e, 0xf4, 0x54, 0x91, 0x9c,
       0xf4, 0x46] ∧
    crypto.Keccak256 (List.replicate 136 0x61) =
      [0xa6, 0xc4, 0xd4, 0x03, 0x27, 0x9f, 0xe3, 0xe0, 0xaf, 0x03, 0x72, 0x9c, 0xaa, 0xda, 0x83,
       0x74, 0xb5, 0xca, 0x54, 0xd8, 0x06, 0x53, 0x29, 0xa3, 0xeb, 0xca, 0xeb, 0x4b, 0x60, 0xaa,
       0x38, 0x6e] := by
  decide

set_option maxRecDepth 100000 in
/-- The selector of each of the six ERC20 signatures is the one paired with it in
`erc20Selectors`. -/
theorem MethodID_erc20Selectors : ∀ e ∈ erc20Selectors, MethodID e.2 = e.1 := by
  decide

/-- C2. `MethodID s` is the first four bytes of the Keccak-256 digest of the bytes
of `s`; it always has length 4, it is a function of `s` alone, and
`MethodID "totalSupply()"` is `18 16 0d dd`. The digest is the one of Keccak-256: on
the empty text, on `abc` and on 135 and 136 letters `a` (inputs that end one byte
before and exactly at the end of the first 136-byte block) `crypto.Keccak256` gives
the published 32-byte digests, and `MethodID` gives the other five ERC20 signatures
their selectors 70a08231, dd62ed3e, a9059cbb, 095ea7b3 and 23b872dd. -/
theorem MethodID_eq_keccak_prefix :
    (∀ s : String, MethodID s = (crypto.Keccak256 (stringBytes s)).take 4 ∧
      (MethodID s).length = 4) ∧
    (∀ s t : String, s = t → MethodID s = MethodID t) ∧
    MethodID "totalSupply()" = [0x18, 0x16, 0x0d, 0xdd] ∧
    crypto.Keccak256 [] =
      [0xc5, 0xd2, 0x46, 0x01, 0x86, 0xf7, 0x23, 0x3c, 0x92, 0x7e, 0x7d, 0xb2, 0xdc, 0xc7, 0x03,
       0xc0, 0xe5, 0x00, 0xb6, 0x53, 0xca, 0x82, 0x27, 0x3b, 0x7b, 0xfa, 0xd8, 0x04, 0x5d, 0x85,
       0xa4, 0x70] ∧
    crypto.Keccak256 (stringBytes "abc") =
      [0x4e, 0x03, 0x65, 0x7a, 0xea, 0x45, 0xa9, 0x4f, 0xc7, 0xd4, 0x7b, 0xa8, 0x26, 0xc8, 0xd6,
       0x67, 0xc0, 0xd1, 0xe6, 0xe3, 0x3a, 0x64, 0xa0, 0x36, 0xec, 0x44, 0xf5, 0x8f, 0xa1, 0x2d,
       0x6c, 0x45] ∧
    crypto.Keccak256 (List.replicate 135 0x61) =
      [0x34, 0x36, 0x7d, 0xc2, 0x48, 0xbb, 0xd8, 0x32, 0xf4, 0xe3, 0xe6, 0x9d, 0xfa, 0xac, 0x2f,
       0x92, 0x63, 0x8b, 0xd0, 0xbb, 0xd1, 0x8f, 0x29, 0x12, 0xba, 0x4e, 0xf4, 0x54, 0x91, 0x9c,
       0xf4, 0x46] ∧
    crypto.Keccak256 (List.replicate 136 0x61) =
      [0xa6, 0xc4, 0xd4, 0x03, 0x27, 0x9f, 0xe3, 0xe0, 0xaf, 0x03, 0x72, 0x9c, 0xaa, 0xda, 0x83,
       0x74, 0xb5, 0xca, 0x54, 0xd8, 0x06, 0x53, 0x29, 0xa3, 0xeb, 0xca, 0xeb, 0x4b, 0x60, 0xaa,
       0x38, 0x6e] ∧
    MethodID "balanceOf(address)" = [0x70, 0xa0, 0x82, 0x31] ∧
    MethodID "allowance(address,address)" = [0xdd, 0x62, 0xed, 0x3e] ∧
    MethodID "transfer(address,uint256)" = [0xa9, 0x05, 0x9c, 0xbb] ∧
    MethodID "approve(address,uint256)" = [0x09, 0x5e, 0xa7, 0xb3] ∧
    MethodID "transferFrom(address,address,uint256)" = [0x23, 0xb8, 0x72, 0xdd] := by
  obtain ⟨k0, k3, k135, k136⟩ := crypto.Keccak256_known_answers
  have hsel := MethodID_erc20Selectors
  refine ⟨?_, ?_, hsel ([0x18, 0x16, 0x0d, 0xdd], "totalSupply()") (by decide),
    k0, k3, k135, k136,
    hsel ([0x70, 0xa0, 0x82, 0x31], "balanceOf(address)") (by decide),
    hsel ([0xdd, 0x62, 0xed, 0x3e], "allowance(address,address)") (by decide),
    hsel ([0xa9, 0x05, 0x9c, 0xbb], "transfer(address,uint256)") (by decide),
    hsel ([0x09, 0x5e, 0xa7, 0xb3], "approve(address,uint256)") (by decide),
    hsel ([0x23, 0xb8, 0x72, 0xdd], "transferFrom(address,address,uint256)") (by decide)⟩
  · intro s
    refine ⟨rfl, ?_⟩
    simp [MethodID, crypto.Keccak256_length]
  · intro s t h
    rw [h]

/-! ## The signature grammar -/

theorem indexFrom_bounds (sub : List Char) :
    ∀ (l : List Char) (i j : Nat), indexFrom sub l i = some j →
      i ≤ j ∧ j + sub.length ≤ i + l.length := by
  intro l
  induction l with
  | nil =>
    intro i j h
    simp only [indexFrom] at h
    split at h
    · rename_i hs
      simp only [Option.some.injEq] at h
      subst hs
      simp [h]
    · simp at h
  | cons c cs ih =>
    intro i j h
    simp only [indexFrom] at h
    split at h
    · rename_i hp
      simp only [Option.some.injEq] at h
      have := (List.isPrefixOf_iff_prefix.mp hp).length_le
      subst h
      simp only [List.length_cons] at this ⊢
      omega
    · have := ih (i + 1) j h
      simp only [List.length_cons]
      omega

theorem indexFrom_single (c : Char) (b : List Char) :
    ∀ (a : List Char) (i : Nat), c ∉ a → indexFrom [c] (a ++ c :: b) i = some (i + a.length) := by
  intro a
  induction a with
  | nil => intro i _; simp [indexFrom, List.isPrefixOf]
  | cons x a ih =>
    intro i h
    simp only [List.mem_cons, not_or] at h
    have hx : (c == x) = false := by simpa using h.1
    rw [List.cons_append, indexFrom]
    simp only [List.isPrefixOf, hx, Bool.false_and, Bool.false_eq_true, if_false]
    rw [ih (i + 1) h.2, List.length_cons, Option.some.injEq]
    omega

theorem indexFrom_single_none (c : Char) :
    ∀ (l : List Char) (i : Nat), c ∉ l → indexFrom [c] l i = none := by
  intro l
  induction l with
  | nil => intro i _; simp [indexFrom]
  | cons x l ih =>
    intro i h
    simp only [List.mem_cons, not_or] at h
    have hx : (c == x) = false := by simpa using h.1
    simp only [indexFrom, List.isPrefixOf, hx, Bool.false_and, Bool.false_eq_true, if_false,
      ih (i + 1) h.2]

/-! slices -/

theorem slice_nat (l : List Char) (i j : Nat) (hij : i ≤ j) (hj : j ≤ l.length) :
    slice ⟨l⟩ (i : Int) (j : Int) = some ⟨(l.take j).drop i⟩ := by
  have h : (0 : Int) ≤ i ∧ (i : Int) ≤ j ∧ (j : Int) ≤ ((String.mk l).length : Int) := by
    refine ⟨by omega, by omega, ?_⟩
    show (j : Int) ≤ (l.length : Int)
    omega
  simp only [slice, h, and_self, if_true, Int.toNat_ofNat]

theorem slice_isSome (s : String) (lo hi : Int) (h0 : 0 ≤ lo) (h1 : lo ≤ hi)
    (h2 : hi ≤ (s.length : Int)) : (slice s lo hi).isSome = true := by
  simp [slice, h0, h1, h2]

theorem sliceTo_append (a b : List Char) :
    sliceTo ⟨a ++ b⟩ (a.length : Int) = some ⟨a⟩ := by
  have h := slice_nat (a ++ b) 0 a.length (Nat.zero_le _) (by simp)
  simpa [sliceTo] using h

theorem sliceFrom_append (a b : List Char) :
    sliceFrom ⟨a ++ b⟩ (a.length : Int) = some ⟨b⟩ := by
  have h := slice_nat (a ++ b) a.length (a ++ b).length (by simp) (Nat.le_refl _)
  rw [List.take_length, List.drop_left] at h
  simpa [sliceFrom] using h

theorem sliceFrom_append_succ (a b : List Char) (c : Char) :
    sliceFrom ⟨a ++ c :: b⟩ ((a.length : Int) + 1) = some ⟨b⟩ := by
  have h := sliceFrom_append (a ++ [c]) b
  simp only [List.append_assoc, List.singleton_append, List.length_append, List.length_singleton,
    Nat.cast_add, Nat.cast_one] at h
  exact h

theorem Index_single (c : Char) (a b : List Char) (h : c ∉ a) :
    strings.Index ⟨a ++ c :: b⟩ ⟨[c]⟩ = (a.length : Int) := by
  simp [strings.Index, indexFrom_single c b a 0 h]

theorem Contains_single (c : Char) (a b : List Char) (h : c ∉ a) :
    strings.Contains ⟨a ++ c :: b⟩ ⟨[c]⟩ = true := by
  simp [strings.Contains, Index_single c a b h]

theorem Contains_single_false (c : Char) (s : String) (h : c ∉ s.data) :
    strings.Contains s ⟨[c]⟩ = false := by
  simp [strings.Contains, strings.Index, indexFrom_single_none c s.data 0 h]

theorem Index_bounds (s sub : String) (h : strings.Contains s sub = true) :
    0 ≤ strings.Index s sub ∧ strings.Index s sub + sub.length ≤ s.length := by
  simp only [strings.Contains, decide_eq_true_eq, strings.Index] at h ⊢
  cases hidx : indexFrom sub.data s.data 0 with
  | none => simp [hidx] at h
  | some j =>
    have := indexFrom_bounds sub.data s.data 0 j hidx
    simp only [String.length]
    omega

/-! split -/

theorem splitChars_ne_nil (sep : Char) (l : List Char) : splitChars sep l ≠ [] := by
  induction l with
  | nil => simp [splitChars]
  | cons c cs ih =>
    simp only [splitChars]
    split
    · simp
    · split <;> simp

theorem splitChars_of_not_mem (sep : Char) :
    ∀ (p : List Char), sep ∉ p → splitChars sep p = [p] := by
  intro p
  induction p with
  | nil => intro _; rfl
  | cons c cs ih =>
    intro h
    simp only [List.mem_cons, not_or] at h
    have hc : ¬ c = sep := fun e => h.1 e.symm
    simp [splitChars, hc, ih h.2]

theorem splitChars_append_sep (sep : Char) (rest : List Char) :
    ∀ (p : List Char), sep ∉ p →
      splitChars sep (p ++ sep :: rest) = p :: splitChars sep rest := by
  intro p
  induction p with
  | nil => intro _; simp [splitChars]
  | cons c cs ih =>
    intro h
    simp only [List.mem_cons, not_or] at h
    have hc : ¬ c = sep := fun e => h.1 e.symm
    rw [List.cons_append, splitChars]
    simp [hc, ih h.2]

theorem splitChars_commaJoinChars :
    ∀ (pieces : List (List Char)), pieces ≠ [] → (∀ p ∈ pieces, ',' ∉ p) →
      splitChars ',' (commaJoinChars pieces) = pieces := by
  intro pieces
  induction pieces with
  | nil => intro h; exact absurd rfl h
  | cons a rest ih =>
    intro _ hp
    cases rest with
    | nil =>
      simp only [commaJoinChars]
      exact splitChars_of_not_mem ',' a (hp a (by simp))
    | cons b rest =>
      simp only [commaJoinChars]
      rw [splitChars_append_sep ',' _ a (hp a (by simp)),
        ih (by simp) (fun p hmem => hp p (List.mem_cons_of_mem _ hmem))]

/-! trim -/

theorem dropWhile_replicate_space (n : Nat) (l : List Char) :
    (List.replicate n ' ' ++ l).dropWhile unicode.IsSpace = l.dropWhile unicode.IsSpace := by
  induction n with
  | zero => simp
  | succ n ih =>
    rw [List.replicate_succ, List.cons_append, List.dropWhile_cons_of_pos (by decide), ih]

theorem trim_core (l r : Nat) (c₁ c₂ : Char) (core : List Char)
    (h1 : core.head? = some c₁) (h2 : core.getLast? = some c₂)
    (hc₁ : unicode.IsSpace c₁ = false) (hc₂ : unicode.IsSpace c₂ = false) :
    strings.TrimSpace ⟨List.replicate l ' ' ++ core ++ List.replicate r ' '⟩ = ⟨core⟩ := by
  have e1 : ∃ t, core = c₁ :: t := by
    cases core with
    | nil => simp at h1
    | cons x t => exact ⟨t, by simp at h1; rw [h1]⟩
  have e2 : ∃ t, core.reverse = c₂ :: t := by
    have : core.reverse.head? = some c₂ := by rw [List.head?_reverse]; exact h2
    cases hrev : core.reverse with
    | nil => rw [hrev] at this; simp at this
    | cons x t => rw [hrev] at this; exact ⟨t, by simp at this; rw [this]⟩
  obtain ⟨t1, ht1⟩ := e1
  obtain ⟨t2, ht2⟩ := e2
  unfold strings.TrimSpace
  congr 1
  show (((List.replicate l ' ' ++ core ++ List.replicate r ' ').dropWhile
    unicode.IsSpace).reverse.dropWhile unicode.IsSpace).reverse = core
  rw [List.append_assoc, dropWhile_replicate_space]
  have step1 : (core ++ List.replicate r ' ').dropWhile unicode.IsSpace
      = core ++ List.replicate r ' ' := by
    rw [ht1, List.cons_append, List.dropWhile_cons_of_neg (by simp [hc₁])]
  rw [step1, List.reverse_append, List.reverse_replicate, dropWhile_replicate_space, ht2,
    List.dropWhile_cons_of_neg (by simp [hc₂]), ← ht2, List.reverse_reverse]

theorem parseParam_typed (ty nm : List Char) (h : ' ' ∉ ty) :
    parseParam ⟨ty ++ ' ' :: nm⟩ = some { Name := ⟨nm⟩, Typ := ⟨ty⟩ } := by
  have hc : strings.Contains ⟨ty ++ ' ' :: nm⟩ " " = true := Contains_single ' ' ty nm h
  have hi : strings.Index ⟨ty ++ ' ' :: nm⟩ " " = (ty.length : Int) := Index_single ' ' ty nm h
  simp only [parseParam, hc, if_true, hi, sliceTo_append, sliceFrom_append_succ]
  rfl

theorem parseParam_bare (ty : List Char) (h : ' ' ∉ ty) :
    parseParam ⟨ty⟩ = some { Name := "", Typ := ⟨ty⟩ } := by
  have hc : strings.Contains ⟨ty⟩ " " = false := Contains_single_false ' ' ⟨ty⟩ h
  simp only [parseParam, hc]
  rfl

theorem ParamText.ty_facts (p : ParamText) (h : p.asStated = true) :
    (∃ c t, p.ty.data = c :: t ∧ unicode.IsSpace c = false) ∧
    (∃ c, p.ty.data.getLast? = some c ∧ unicode.IsSpace c = false) ∧
    ' ' ∉ p.ty.data ∧ ',' ∉ p.ty.data ∧ ')' ∉ p.ty.data := by
  simp only [ParamText.asStated, Bool.and_eq_true, decide_eq_true_eq, List.all_eq_true,
    Bool.not_eq_true', bne_iff_ne, ne_eq] at h
  obtain ⟨⟨hne, hall⟩, _⟩ := h
  refine ⟨?_, ?_, ?_, ?_, ?_⟩
  · cases hd : p.ty.data with
    | nil => exact absurd hd hne
    | cons c t => exact ⟨c, t, rfl, (hall c (by rw [hd]; simp)).1.1.1⟩
  · cases hl : p.ty.data.getLast? with
    | none => rw [List.getLast?_eq_none_iff] at hl; exact absurd hl hne
    | some c => exact ⟨c, rfl, (hall c (List.mem_of_getLast?_eq_some hl)).1.1.1⟩
  · intro hm
    have := (hall ' ' hm).1.1.1
    revert this; decide
  · intro hm; exact (hall ',' hm).1.1.2 rfl
  · intro hm; exact (hall ')' hm).2 rfl

theorem ParamText.nm_facts (p : ParamText) (n : String) (hn : p.nm = some n)
    (h : p.asStated = true) : ',' ∉ n.data ∧ ')' ∉ n.data := by
  simp only [ParamText.asStated, hn, Bool.and_eq_true, List.all_eq_true, bne_iff_ne, ne_eq] at h
  obtain ⟨_, hall⟩ := h
  exact ⟨fun hm => (hall ',' hm).1 rfl, fun hm => (hall ')' hm).2 rfl⟩

theorem parseParam_written (p : ParamText) (h : p.asStated = true) (hk : p.nameKept = true) :
    parseParam (strings.TrimSpace p.written) = some p.param := by
  obtain ⟨⟨c₁, t, hty, hc₁⟩, ⟨c₂, hlast, hc₂⟩, hsp, _, _⟩ := p.ty_facts h
  have bare : ∀ r : Nat,
      parseParam (strings.TrimSpace ⟨List.replicate p.padL ' ' ++ p.ty.data ++ List.replicate r ' '⟩)
        = some { Name := "", Typ := p.ty } := by
    intro r
    rw [trim_core p.padL r c₁ c₂ p.ty.data (by rw [hty]; rfl) hlast hc₁ hc₂]
    exact parseParam_bare p.ty.data hsp
  cases hn : p.nm with
  | none =>
    have hw : p.written = ⟨List.replicate p.padL ' ' ++ p.ty.data ++ List.replicate p.padR ' '⟩ := by
      simp only [ParamText.written, hn, spaces]
      apply String.ext
      simp
    rw [hw, bare]
    simp [ParamText.param, hn]
  | some n =>
    cases hl : n.data.getLast? with
    | none =>
      have hnil : n.data = [] := List.getLast?_eq_none_iff.mp hl
      have hw : p.written
          = ⟨List.replicate p.padL ' ' ++ p.ty.data ++ List.replicate (p.padR + 1) ' '⟩ := by
        simp only [ParamText.written, hn, spaces]
        apply String.ext
        simp [hnil, List.replicate_succ]
      rw [hw, bare]
      have : n = "" := String.ext hnil
      simp [ParamText.param, hn, this]
    | some c =>
      have hcs : unicode.IsSpace c = false := by
        simpa [ParamText.nameKept, hn, hl] using hk
      have hw : p.written
          = ⟨List.replicate p.padL ' ' ++ (p.ty.data ++ ' ' :: n.data) ++
              List.replicate p.padR ' '⟩ := by
        simp only [ParamText.written, hn, spaces]
        apply String.ext
        simp
      have hne : n.data ≠ [] := by
        intro e; rw [e] at hl; simp at hl
      rw [hw, trim_core p.padL p.padR c₁ c (p.ty.data ++ ' ' :: n.data)
        (by rw [hty]; rfl)
        (by rw [List.getLast?_append]
            obtain ⟨x, xs, hx⟩ := List.exists_cons_of_ne_nil hne
            rw [hx] at hl ⊢
            rw [List.getLast?_cons_cons, hl]
            rfl) hc₁ hcs]
      rw [parseParam_typed p.ty.data n.data hsp]
      simp [ParamText.param, hn]

/-! totality -/

theorem sliceTo_Index_isSome (s sub : String) (h : strings.Contains s sub = true) :
    (sliceTo s (strings.Index s sub)).isSome = true := by
  have hb := Index_bounds s sub h
  exact slice_isSome s 0 _ (Int.le_refl 0) hb.1 (by omega)

theorem sliceFrom_Index_isSome (s sub : String) (k : Nat) (hk : k ≤ sub.length)
    (h : strings.Contains s sub = true) :
    (sliceFrom s (strings.Index s sub + k)).isSome = true := by
  have hb := Index_bounds s sub h
  exact slice_isSome s _ _ (by omega) (by omega) (Int.le_refl _)

theorem parseParam_isSome (paramStr : String) : (parseParam paramStr).isSome = true := by
  unfold parseParam
  split
  · rename_i hc
    have h1 := sliceTo_Index_isSome paramStr " " hc
    have h2 := sliceFrom_Index_isSome paramStr " " 1 (by decide) hc
    obtain ⟨a, ha⟩ := Option.isSome_iff_exists.mp h1
    obtain ⟨b, hb⟩ := Option.isSome_iff_exists.mp h2
    simp only [Nat.cast_one] at hb
    simp [ha, hb]
  · rfl

theorem parseParamStrs_isSome (l : List String) : (parseParamStrs l).isSome = true := by
  induction l with
  | nil => rfl
  | cons a l ih =>
    obtain ⟨x, hx⟩ := Option.isSome_iff_exists.mp (parseParam_isSome (strings.TrimSpace a))
    obtain ⟨y, hy⟩ := Option.isSome_iff_exists.mp ih
    simp [parseParamStrs, hx, hy]

theorem parseParams_isSome (sig : String) : (parseParams sig).isSome = true :=
  parseParamStrs_isSome _

theorem closeParen_isSome (sig : String) :
    (if strings.Contains sig ")" = true then sliceTo sig (strings.Index sig ")")
      else some sig).isSome = true := by
  split
  · rename_i hc
    exact sliceTo_Index_isSome sig ")" hc
  · rfl

theorem paramsOrNil_isSome (sig : String) :
    (if sig ≠ "" then parseParams sig else some []).isSome = true := by
  split
  · exact parseParams_isSome sig
  · rfl

theorem outputsOrNil_isSome (sig : String) :
    (if sig ≠ "" then (parseParams sig).map some else some none).isSome = true := by
  split
  · simpa using parseParams_isSome sig
  · rfl

theorem parseOutputs_isSome (sig : String) : (parseOutputs sig).isSome = true := by
  unfold parseOutputs
  split
  · rename_i hc
    have h1 := sliceFrom_Index_isSome sig "returns" 7 (by decide) hc
    obtain ⟨a, ha⟩ := Option.isSome_iff_exists.mp h1
    obtain ⟨b, hb⟩ := Option.isSome_iff_exists.mp (closeParen_isSome a)
    obtain ⟨c, hc'⟩ := Option.isSome_iff_exists.mp (outputsOrNil_isSome b)
    simp only [Nat.cast_ofNat] at ha
    simp only [Option.pure_def, Option.bind_eq_bind, ha, Option.some_bind, hb, hc',
      Option.isSome_some]
  · rfl

theorem parseInputs_isSome (sig : String) : (parseInputs sig).isSome = true := by
  unfold parseInputs
  split
  · rename_i hc
    have h1 := sliceFrom_Index_isSome sig "(" 1 (by decide) hc
    obtain ⟨a, ha⟩ := Option.isSome_iff_exists.mp h1
    obtain ⟨b, hb⟩ := Option.isSome_iff_exists.mp (closeParen_isSome a)
    obtain ⟨c, hc'⟩ := Option.isSome_iff_exists.mp (paramsOrNil_isSome b)
    simp only [Nat.cast_one] at ha
    simp only [Option.pure_def, Option.bind_eq_bind, ha, Option.some_bind, hb, hc',
      Option.isSome_some]
  · rfl

theorem parseName_isSome (sig : String) : (parseName sig).isSome = true := by
  unfold parseName
  split
  · rename_i hc
    have h1 := sliceTo_Index_isSome sig "(" hc
    have h2 := sliceFrom_Index_isSome sig "(" 0 (by decide) hc
    obtain ⟨a, ha⟩ := Option.isSome_iff_exists.mp h1
    obtain ⟨b, hb⟩ := Option.isSome_iff_exists.mp h2
    simp only [Nat.cast_zero, add_zero] at hb
    simp [ha, hb]
  · rfl

/-! assembling the signature -/

theorem commaJoin_data (l : List String) :
    (commaJoin l).data = commaJoinChars (l.map String.data) := by
  induction l with
  | nil => rfl
  | cons a rest ih =>
    cases rest with
    | nil => rfl
    | cons b rest =>
      simp only [commaJoin, String.data_append, List.map_cons, commaJoinChars] at ih ⊢
      rw [ih]
      simp

theorem typeList_eq_commaJoin (ps : List FuncParam) :
    typeList ps = commaJoin (ps.map FuncParam.Typ) := by
  induction ps with
  | nil => rfl
  | cons a rest ih =>
    cases rest with
    | nil => rfl
    | cons b rest =>
      simp only [typeList, List.map_cons, commaJoin] at ih ⊢
      rw [ih]

theorem not_mem_commaJoinChars (c : Char) (hc : c ≠ ',') :
    ∀ (pieces : List (List Char)), (∀ p ∈ pieces, c ∉ p) → c ∉ commaJoinChars pieces := by
  intro pieces
  induction pieces with
  | nil => intro _; simp [commaJoinChars]
  | cons a rest ih =>
    intro h
    cases rest with
    | nil => simpa [commaJoinChars] using h a (by simp)
    | cons b rest =>
      simp only [commaJoinChars, List.mem_append, List.mem_cons, not_or]
      exact ⟨h a (by simp), hc, ih (fun p hp => h p (List.mem_cons_of_mem _ hp))⟩

theorem not_mem_replicate_space (c : Char) (hc : c ≠ ' ') (n : Nat) :
    c ∉ List.replicate n ' ' := by
  intro h
  exact hc (List.eq_of_mem_replicate h)

theorem ParamText.written_data (p : ParamText) :
    p.written.data = List.replicate p.padL ' ' ++ p.ty.data ++
      (match p.nm with | none => [] | some n => ' ' :: n.data) ++ List.replicate p.padR ' ' := by
  cases hn : p.nm <;> simp [ParamText.written, hn, spaces]

theorem ParamText.written_facts (p : ParamText) (h : p.asStated = true) :
    ',' ∉ p.written.data ∧ ')' ∉ p.written.data ∧ p.written.data ≠ [] := by
  obtain ⟨⟨c₁, t, hty, _⟩, _, _, hcomma, hparen⟩ := p.ty_facts h
  rw [p.written_data]
  have hs1 := not_mem_replicate_space ',' (by decide)
  have hs2 := not_mem_replicate_space ')' (by decide)
  cases hn : p.nm with
  | none =>
    simp only [List.append_nil, List.mem_append, not_or, ne_eq, List.append_eq_nil, not_and]
    exact ⟨⟨⟨hs1 _, hcomma⟩, hs1 _⟩, ⟨⟨hs2 _, hparen⟩, hs2 _⟩, fun h1 => by simp [hty] at h1⟩
  | some n =>
    obtain ⟨hn1, hn2⟩ := p.nm_facts n hn h
    simp only [List.mem_append, List.mem_cons, not_or, ne_eq, List.append_eq_nil, not_and]
    exact ⟨⟨⟨⟨hs1 _, hcomma⟩, by decide, hn1⟩, hs1 _⟩, ⟨⟨⟨hs2 _, hparen⟩, by decide, hn2⟩, hs2 _⟩,
      fun h1 => by simp [hty] at h1⟩

theorem parseParamStrs_written (ps : List ParamText)
    (h : ∀ p ∈ ps, p.asStated = true ∧ p.nameKept = true) :
    parseParamStrs (ps.map ParamText.written) = some (ps.map ParamText.param) := by
  induction ps with
  | nil => rfl
  | cons p ps ih =>
    have hp := h p (by simp)
    simp only [List.map_cons, parseParamStrs, parseParam_written p hp.1 hp.2,
      ih (fun q hq => h q (List.mem_cons_of_mem _ hq)), Option.bind_eq_bind, Option.some_bind,
      Option.pure_def]

theorem parseParams_written (ps : List ParamText) (hne : ps ≠ [])
    (h : ∀ p ∈ ps, p.asStated = true ∧ p.nameKept = true) :
    parseParams (commaJoin (ps.map ParamText.written)) = some (ps.map ParamText.param) := by
  have hsplit : strings.Split (commaJoin (ps.map ParamText.written)) ','
      = ps.map ParamText.written := by
    simp only [strings.Split, commaJoin_data]
    rw [splitChars_commaJoinChars _ (by simpa using hne)]
    · simp [Function.comp_def]
    · intro q hq
      simp only [List.map_map, List.mem_map, Function.comp_apply] at hq
      obtain ⟨p, hp, rfl⟩ := hq
      exact (p.written_facts (h p hp).1).1
  rw [parseParams, hsplit, parseParamStrs_written ps h]

theorem inner_facts (ps : List ParamText) (hne : ps ≠ [])
    (h : ∀ p ∈ ps, p.asStated = true ∧ p.nameKept = true) :
    ')' ∉ (commaJoin (ps.map ParamText.written)).data ∧
      commaJoin (ps.map ParamText.written) ≠ "" := by
  refine ⟨?_, ?_⟩
  · rw [commaJoin_data]
    apply not_mem_commaJoinChars ')' (by decide)
    intro q hq
    simp only [List.map_map, List.mem_map, Function.comp_apply] at hq
    obtain ⟨p, hp, rfl⟩ := hq
    exact (p.written_facts (h p hp).1).2.1
  · intro e
    have hd : (commaJoin (ps.map ParamText.written)).data = [] := by rw [e]
    rw [commaJoin_data] at hd
    obtain ⟨p, rest, hps⟩ := List.exists_cons_of_ne_nil hne
    have hw := (p.written_facts (h p (by rw [hps]; simp)).1).2.2
    rw [hps] at hd
    cases rest with
    | nil => exact hw (by simpa [commaJoinChars] using hd)
    | cons b rest => simp [commaJoinChars] at hd

theorem signatureText_data (name : String) (ps : List ParamText) :
    signatureText name ps
      = ⟨name.data ++ '(' :: ((commaJoin (ps.map ParamText.written)).data ++ ')' :: [])⟩ := by
  apply String.ext
  simp [signatureText]

theorem parseName_signature (name : List Char) (rest : List Char) (h : '(' ∉ name) :
    parseName ⟨name ++ '(' :: rest⟩ = some (⟨name⟩, ⟨'(' :: rest⟩) := by
  have hc : strings.Contains ⟨name ++ '(' :: rest⟩ "(" = true := Contains_single '(' name rest h
  have hi : strings.Index ⟨name ++ '(' :: rest⟩ "(" = (name.length : Int) :=
    Index_single '(' name rest h
  simp only [parseName, hc, if_true, hi, sliceTo_append, sliceFrom_append, Option.bind_eq_bind,
    Option.some_bind, Option.pure_def]

theorem parseInputs_signature (ps : List ParamText) (tail : List Char) (hne : ps ≠ [])
    (h : ∀ p ∈ ps, p.asStated = true ∧ p.nameKept = true) :
    parseInputs ⟨'(' :: ((commaJoin (ps.map ParamText.written)).data ++ ')' :: tail)⟩
      = some (ps.map ParamText.param, commaJoin (ps.map ParamText.written)) := by
  obtain ⟨hparen, hnonempty⟩ := inner_facts ps hne h
  have hc : strings.Contains
      ⟨'(' :: ((commaJoin (ps.map ParamText.written)).data ++ ')' :: tail)⟩ "(" = true :=
    Contains_single '(' [] _ (by simp)
  have hi : strings.Index
      ⟨'(' :: ((commaJoin (ps.map ParamText.written)).data ++ ')' :: tail)⟩ "(" = 0 :=
    Index_single '(' [] _ (by simp)
  have hs : sliceFrom
      ⟨'(' :: ((commaJoin (ps.map ParamText.written)).data ++ ')' :: tail)⟩ (0 + 1)
      = some ⟨(commaJoin (ps.map ParamText.written)).data ++ ')' :: tail⟩ :=
    sliceFrom_append_succ [] _ '('
  have hc2 : strings.Contains
      ⟨(commaJoin (ps.map ParamText.written)).data ++ ')' :: tail⟩ ")" = true :=
    Contains_single ')' _ tail hparen
  have hi2 : strings.Index
      ⟨(commaJoin (ps.map ParamText.written)).data ++ ')' :: tail⟩ ")"
      = ((commaJoin (ps.map ParamText.written)).data.length : Int) :=
    Index_single ')' _ tail hparen
  simp only [parseInputs, hc, if_true, hi, hs, Option.bind_eq_bind, Option.some_bind, hc2, hi2,
    sliceTo_append, Option.pure_def, ne_eq, hnonempty, not_false_eq_true,
    parseParams_written ps hne h]

theorem funcSigString_of_written (name raw : String) (ps : List ParamText)
    (outs : Option (List FuncParam)) :
    FuncSig.String ⟨name, ps.map ParamText.param, outs, raw⟩
      = name ++ "(" ++ commaJoin (ps.map ParamText.ty) ++ ")" := by
  simp [FuncSig.String, FuncSig.Name, FuncSig.Inputs, typeList_eq_commaJoin, ParamText.param,
    Function.comp_def]

/-- C6 (amended). For every name without `(` and every non-empty list of
parameters, each a non-empty type free of white space, `,`, `(` and `)`, optionally
followed by one space and a name that is free of `,` and `)` and does not end in a
white-space character, written as `name(p1,...,pk)` with any number of spaces around
each parameter: `parseFuncSig` returns a descriptor with that name, with inputs equal
to the `(type, name)` pairs in order (the name empty when absent), and with `String()`
equal to `name(type1,...,typek)`. -/
theorem parseFuncSig_signatureText (name : String) (ps : List ParamText)
    (hname : '(' ∉ name.data) (hps : ps ≠ [])
    (hwf : ∀ p ∈ ps, p.asStated = true ∧ p.nameKept = true) :
    ∃ fsig, parseFuncSig (signatureText name ps) = some fsig ∧
      fsig.name = name ∧
      fsig.inputs = ps.map ParamText.param ∧
      fsig.String = name ++ "(" ++ commaJoin (ps.map ParamText.ty) ++ ")" := by
  obtain ⟨o, ho⟩ := Option.isSome_iff_exists.mp
    (parseOutputs_isSome (commaJoin (ps.map ParamText.written)))
  refine ⟨⟨name, ps.map ParamText.param, o.1, signatureText name ps⟩, ?_, rfl, rfl,
    funcSigString_of_written _ _ _ _⟩
  rw [parseFuncSig, signatureText_data, parseName_signature name.data _ hname]
  simp only [Option.bind_eq_bind, Option.some_bind, parseInputs_signature ps [] hps hwf, ho,
    Option.pure_def]

/-- C6, witness: `"transfer(address to, uint256 amount)"` and
`"transfer(address, uint256)"` are instances of the theorem, and both have the
canonical form `"transfer(address,uint256)"`. -/
theorem parseFuncSig_signatureText_witness :
    (∃ fsig, parseFuncSig "transfer(address to, uint256 amount)" = some fsig ∧
      fsig.name = "transfer" ∧
      fsig.inputs = [{ Name := "to", Typ := "address" }, { Name := "amount", Typ := "uint256" }] ∧
      fsig.String = "transfer(address,uint256)") ∧
    (∃ fsig, parseFuncSig "transfer(address, uint256)" = some fsig ∧
      fsig.name = "transfer" ∧
      fsig.inputs = [{ Name := "", Typ := "address" }, { Name := "", Typ := "uint256" }] ∧
      fsig.String = "transfer(address,uint256)") :=
  ⟨parseFuncSig_signatureText "transfer"
      [⟨"address", some "to", 0, 0⟩, ⟨"uint256", some "amount", 1, 0⟩]
      (by decide) (by decide) (by decide),
   parseFuncSig_signatureText "transfer"
      [⟨"address", none, 0, 0⟩, ⟨"uint256", none, 1, 0⟩]
      (by decide) (by decide) (by decide)⟩

/-- C6, counterexample to the claim as stated: the parameter `uint256 x⇥`, whose
name `x⇥` (an `x` and a tab) holds neither `,` nor `)`, is within the claim's words,
yet `parseFuncSig "f(uint256 x⇥)"` gives the name `x`: `strings.TrimSpace` removes
the tab before the parameter is split. -/
theorem parseFuncSig_name_trailing_tab :
    (ParamText.mk "uint256" (some "x\t") 0 0).asStated = true ∧
    signatureText "f" [ParamText.mk "uint256" (some "x\t") 0 0] = "f(uint256 x\t)" ∧
    (parseFuncSig "f(uint256 x\t)").map FuncSig.inputs
      = some [{ Name := "x", Typ := "uint256" }] ∧
    (parseFuncSig "f(uint256 x\t)").map FuncSig.inputs
      ≠ some ([ParamText.mk "uint256" (some "x\t") 0 0].map ParamText.param) := by
  decide

/-- C7, evaluation at the failing input: for
`"balanceOf(address owner) returns (uint256 balance)"` the descriptor has no outputs.
`parseInputs` hands on the text between the parentheses, `"address owner"`, so
`parseOutputs` never sees the `returns` clause; and on a text that does hold the
clause it would take `"(uint256"` for the type. -/
theorem parseFuncSig_returns_clause_dropped :
    parseFuncSig "balanceOf(address owner) returns (uint256 balance)"
      = some { name := "balanceOf", inputs := [{ Name := "owner", Typ := "address" }],
               outputs := none,
               unescapedSel := "balanceOf(address owner) returns (uint256 balance)" } ∧
    parseInputs "(address owner) returns (uint256 balance)"
      = some ([{ Name := "owner", Typ := "address" }], "address owner") ∧
    parseOutputs " returns (uint256 balance)"
      = some (some [{ Name := "balance", Typ := "(uint256" }], " (uint256 balance") := by
  decide

/-! ## Decoding call data -/

theorem bigEndian_append_singleton (l : Bytes) (x : Nat) :
    bigEndian (l ++ [x]) = bigEndian l * 256 + x := by
  simp [bigEndian, List.foldl_append]

theorem bigEndianBytes_length (n v : Nat) : (bigEndianBytes n v).length = n := by
  induction n generalizing v with
  | zero => rfl
  | succ n ih => simp [bigEndianBytes, ih]

theorem bigEndian_bigEndianBytes (n v : Nat) :
    bigEndian (bigEndianBytes n v) = v % 256 ^ n := by
  induction n generalizing v with
  | zero => simp [bigEndianBytes, bigEndian, Nat.mod_one]
  | succ n ih =>
    rw [bigEndianBytes, bigEndian_append_singleton, ih, pow_succ', Nat.mod_mul]
    ring

set_option maxRecDepth 100000 in
theorem MethodID_transfer : MethodID "transfer(address,uint256)" = [0xa9, 0x05, 0x9c, 0xbb] := by
  decide

theorem MethodID_length (s : String) : (MethodID s).length = 4 := by
  simp [MethodID, crypto.Keccak256]

theorem HasPrefix_iff_take (s m : Bytes) (hm : m.length = 4) :
    bytes.HasPrefix s m = true ↔ s.take 4 = m := by
  simp only [bytes.HasPrefix, hm, ge_iff_le, Bool.and_eq_true, decide_eq_true_eq]
  constructor
  · exact fun h => h.2
  · intro h
    refine ⟨?_, h⟩
    have := congrArg List.length h
    rw [List.length_take, hm] at this
    omega

theorem abiArguments_ok (l : List FuncParam)
    (h : ∀ p ∈ l, ∃ t, abi.NewType p.Typ = .ok t) : ∃ args, abiArguments l = .ok args := by
  induction l with
  | nil => exact ⟨[], rfl⟩
  | cons p l ih =>
    obtain ⟨t, ht⟩ := h p (by simp)
    obtain ⟨args, hargs⟩ := ih (fun q hq => h q (List.mem_cons_of_mem _ hq))
    exact ⟨{ Name := p.Name, Typ := t, Indexed := false } :: args,
      by simp [abiArguments, ht, hargs]⟩

theorem abiArguments_length (l : List FuncParam) (args : abi.Arguments)
    (h : abiArguments l = .ok args) : args.length = l.length ∧ ∀ a ∈ args, a.Indexed = false := by
  induction l generalizing args with
  | nil =>
    simp only [abiArguments, Except.ok.injEq] at h
    subst h
    simp
  | cons p l ih =>
    simp only [abiArguments] at h
    split at h
    · simp at h
    · split at h
      · simp at h
      · rename_i args' hargs'
        simp only [Except.ok.injEq] at h
        subst h
        obtain ⟨h1, h2⟩ := ih args' hargs'
        refine ⟨by simp [h1], ?_⟩
        intro a ha
        rcases List.mem_cons.mp ha with rfl | ha
        · rfl
        · exact h2 a ha

theorem unpackLoop_shape (data : Bytes) (rest : abi.Arguments) :
    ∀ (index : Nat) (retval : List abi.Value),
      (∃ vs, abi.unpackLoop data rest index retval = (some vs, none)) ∨
      (∃ e, abi.unpackLoop data rest index retval = (none, some e)) := by
  induction rest with
  | nil => intro index retval; exact Or.inl ⟨retval, rfl⟩
  | cons arg rest ih =>
    intro index retval
    simp only [abi.unpackLoop]
    split
    · exact Or.inr ⟨_, rfl⟩
    · exact ih _ _

theorem UnpackValues_shape (args : abi.Arguments) (data : Bytes) :
    (∃ vs, args.UnpackValues data = (some vs, none)) ∨
    (∃ e, args.UnpackValues data = (none, some e)) :=
  unpackLoop_shape data _ 0 []

theorem unpackArgs_nonempty (fsig : FuncSig) (args : abi.Arguments) (data : Bytes)
    (strip : Bool) (hdata : data ≠ []) :
    fsig.unpackArgs args data strip =
      if strip = true ∧ data.take 4 = MethodID fsig.removeParamNamesFromSelector then
        args.UnpackValues (data.drop 4)
      else args.UnpackValues data := by
  have hlen : data.length ≠ 0 := by
    intro h; exact hdata (List.length_eq_zero.mp h)
  have hp := HasPrefix_iff_take data (MethodID fsig.removeParamNamesFromSelector)
    (MethodID_length _)
  unfold FuncSig.unpackArgs
  simp only [hlen, if_false]
  by_cases hs : strip = true
  · by_cases ht : data.take 4 = MethodID fsig.removeParamNamesFromSelector
    · have hpre := hp.mpr ht
      simp only [hs, hpre, Bool.not_true, Bool.or_self, Bool.false_eq_true, if_false, ht,
        and_self, if_true]
      rcases UnpackValues_shape args (data.drop 4) with ⟨vs, h⟩ | ⟨e, h⟩ <;> rw [h]
    · have hpre : bytes.HasPrefix data (MethodID fsig.removeParamNamesFromSelector) = false := by
        rw [Bool.eq_false_iff]; exact fun h => ht (hp.mp h)
      simp [hs, hpre, ht]
  · simp [hs]

theorem removeParamNames_eq_String (fsig : FuncSig) :
    fsig.removeParamNamesFromSelector = fsig.String := rfl

theorem method_of_ABI (funcDescriptions : GoMap WellKnownFuncDesc) (fsig : FuncSig)
    (ins outs : abi.Arguments) (hin : abiArguments fsig.inputs = .ok ins)
    (hout : abiArguments (fsig.outputs.getD []) = .ok outs) :
    ∃ fsigABI, fsig.ABI funcDescriptions = .ok fsigABI ∧
      (fsigABI.method fsig.Name).Inputs = ins ∧ (fsigABI.method fsig.Name).Outputs = outs := by
  refine ⟨_, by simp only [FuncSig.ABI, hin, hout]; rfl, ?_, ?_⟩ <;>
    simp [abi.ABI.method, GoMap.set]

theorem UnpackInput_of_arguments (funcDescriptions : GoMap WellKnownFuncDesc) (fsig : FuncSig)
    (ins outs : abi.Arguments) (data : Bytes) (hin : abiArguments fsig.inputs = .ok ins)
    (hout : abiArguments (fsig.outputs.getD []) = .ok outs) :
    fsig.UnpackInput funcDescriptions data = fsig.unpackArgs ins data true ∧
    fsig.UnpackOutput funcDescriptions data = fsig.unpackArgs outs data false := by
  obtain ⟨fsigABI, hABI, h1, h2⟩ := method_of_ABI funcDescriptions fsig ins outs hin hout
  exact ⟨by simp only [FuncSig.UnpackInput, hABI, h1],
    by simp only [FuncSig.UnpackOutput, hABI, h2]⟩

/-- C4. For every descriptor, argument list and non-empty data: with the strip flag
set, `unpackArgs` decodes `data[4:]` when the first 4 bytes of `data` are `MethodID`
of the canonical signature `name(type,...,type)`, and decodes `data` from byte 0
otherwise; with the flag clear it always decodes `data` from byte 0. `UnpackInput`
is `unpackArgs` on the inputs with the flag set, `UnpackOutput` decodes the outputs
from byte 0, whenever `ABI` builds both argument lists. -/
theorem unpackArgs_strips_own_selector (funcDescriptions : GoMap WellKnownFuncDesc)
    (fsig : FuncSig) (args : abi.Arguments) (data : Bytes) (hdata : data ≠ []) :
    (data.take 4 = MethodID fsig.String →
      fsig.unpackArgs args data true = args.UnpackValues (data.drop 4)) ∧
    (data.take 4 ≠ MethodID fsig.String →
      fsig.unpackArgs args data true = args.UnpackValues data) ∧
    fsig.unpackArgs args data false = args.UnpackValues data ∧
    (∀ ins outs, abiArguments fsig.inputs = .ok ins →
      abiArguments (fsig.outputs.getD []) = .ok outs →
      fsig.UnpackInput funcDescriptions data = fsig.unpackArgs ins data true ∧
      fsig.UnpackOutput funcDescriptions data = outs.UnpackValues data) := by
  have key := fun strip => unpackArgs_nonempty fsig args data strip hdata
  rw [removeParamNames_eq_String] at key
  refine ⟨?_, ?_, ?_, ?_⟩
  · intro h
    rw [key true]; simp [h]
  · intro h
    rw [key true]; simp [h]
  · rw [key false]; simp
  · intro ins outs hin hout
    obtain ⟨h1, h2⟩ := UnpackInput_of_arguments funcDescriptions fsig ins outs data hin hout
    refine ⟨h1, ?_⟩
    rw [h2, unpackArgs_nonempty fsig outs data false hdata]; simp

theorem toGoType_ok_length (index : Nat) (t : abi.Ty) (output : Bytes) (v : abi.Value)
    (h : abi.toGoType index t output = .ok v) : index + 32 ≤ output.length := by
  unfold abi.toGoType at h
  split at h
  · simp at h
  · omega

theorem unpackLoop_short (data : Bytes) (rest : abi.Arguments) :
    ∀ (index : Nat) (retval : List abi.Value), rest ≠ [] →
      data.length < 32 * (index + rest.length) →
      ∃ e, abi.unpackLoop data rest index retval = (none, some e) := by
  induction rest with
  | nil => intro _ _ h; exact absurd rfl h
  | cons arg rest ih =>
    intro index retval _ hlen
    simp only [abi.unpackLoop]
    split
    · exact ⟨_, rfl⟩
    · rename_i v hv
      have hok := toGoType_ok_length _ _ _ _ hv
      by_cases hr : rest = []
      · subst hr
        simp only [List.length_cons, List.length_nil] at hlen
        omega
      · apply ih _ _ hr
        simp only [List.length_cons] at hlen
        omega

theorem UnpackValues_short (args : abi.Arguments) (data : Bytes)
    (hidx : ∀ a ∈ args, a.Indexed = false) (hne : args ≠ [])
    (hlen : data.length < 32 * args.length) :
    ∃ e, args.UnpackValues data = (none, some e) := by
  have hf : args.filter (fun a => !a.Indexed) = args := by
    rw [List.filter_eq_self]
    intro a ha
    simp [hidx a ha]
  unfold abi.Arguments.UnpackValues
  rw [hf]
  exact unpackLoop_short data args 0 [] hne (by simpa using hlen)

/-- C5 (amended). For every descriptor whose inputs are `k ≥ 1` static one-word
parameters and every non-empty call data whose length, after removing a matching
selector prefix, is less than `32 * k`, `UnpackInput` returns a decode error and no
values. -/
theorem UnpackInput_short_data (funcDescriptions : GoMap WellKnownFuncDesc) (fsig : FuncSig)
    (data : Bytes) (hk : fsig.inputs ≠ [])
    (hstatic : ∀ p ∈ fsig.inputs, ∃ t, abi.NewType p.Typ = .ok t ∧ t.requiresLengthPrefix = false)
    (hdata : data ≠ [])
    (hshort : (if data.take 4 = MethodID fsig.String then data.drop 4 else data).length
      < 32 * fsig.inputs.length) :
    ∃ err, fsig.UnpackInput funcDescriptions data = (none, some err) := by
  obtain ⟨ins, hins⟩ := abiArguments_ok fsig.inputs
    (fun p hp => let ⟨t, ht, _⟩ := hstatic p hp; ⟨t, ht⟩)
  obtain ⟨hl, hidx⟩ := abiArguments_length _ _ hins
  have hne : ins ≠ [] := by
    intro e; rw [e] at hl; exact hk (List.length_eq_zero.mp hl.symm)
  cases hout : abiArguments (fsig.outputs.getD []) with
  | error e => exact ⟨e, by simp only [FuncSig.UnpackInput, FuncSig.ABI, hins, hout]⟩
  | ok outs =>
    obtain ⟨fsigABI, hABI, h1, _⟩ := method_of_ABI funcDescriptions fsig ins outs hins hout
    simp only [FuncSig.UnpackInput, hABI, h1]
    rw [unpackArgs_nonempty fsig ins data true hdata, removeParamNames_eq_String]
    by_cases ht : data.take 4 = MethodID fsig.String
    · simp only [ht, and_self, if_true] at hshort ⊢
      exact UnpackValues_short ins _ hidx hne (by rw [hl]; exact hshort)
    · simp only [ht, and_false, if_false] at hshort ⊢
      exact UnpackValues_short ins _ hidx hne (by rw [hl]; exact hshort)

theorem NewType_address : abi.NewType "address" = .ok ⟨.AddressTy, 20, "address"⟩ := by rfl

theorem NewType_uint256 : abi.NewType "uint256" = .ok ⟨.UintTy, 256, "uint256"⟩ := by rfl

theorem UnpackValues_address_uint256 (n₁ n₂ : String) (a : Bytes) (v : Nat)
    (ha : a.length = 20) (hv : v < 2 ^ 256) :
    abi.Arguments.UnpackValues
      [⟨n₁, ⟨.AddressTy, 20, "address"⟩, false⟩, ⟨n₂, ⟨.UintTy, 256, "uint256"⟩, false⟩]
      (List.replicate 12 0 ++ a ++ bigEndianBytes 32 v)
      = (some [.address a, .bigInt v], none) := by
  have hlen : (List.replicate 12 0 ++ a ++ bigEndianBytes 32 v).length = 64 := by
    simp [ha, bigEndianBytes_length]
  have hw1 : byteRange (List.replicate 12 0 ++ a ++ bigEndianBytes 32 v) 0 32
      = List.replicate 12 0 ++ a := by
    have : (List.replicate 12 0 ++ a).length = 32 := by simp [ha]
    simp only [byteRange, List.drop_zero]
    rw [← this, List.take_left]
  have hw2 : byteRange (List.replicate 12 0 ++ a ++ bigEndianBytes 32 v) 32 64
      = bigEndianBytes 32 v := by
    have h32 : (List.replicate 12 (0 : Nat) ++ a).length = 32 := by simp [ha]
    simp only [byteRange]
    rw [← hlen, List.take_length, ← h32, List.drop_left]
  have haddr : common.BytesToAddress (List.replicate 12 0 ++ a) = a := by
    have h12 : (List.replicate 12 (0 : Nat)).length = 12 := by simp
    simp only [common.BytesToAddress, List.length_append, List.length_replicate, ha]
    simp only [show 12 + 20 > 20 from by decide, if_true, show 12 + 20 - 20 = 12 from rfl]
    rw [show List.drop 12 (List.replicate 12 0 ++ a) = a from by
      conv => lhs; rw [← h12]
      exact List.drop_left _ _]
    simp [ha]
  have hval : bigEndian (bigEndianBytes 32 v) = v := by
    rw [bigEndian_bigEndianBytes]
    exact Nat.mod_eq_of_lt (by simpa using hv)
  simp only [abi.Arguments.UnpackValues, List.filter, Bool.not_false, abi.unpackLoop,
    abi.toGoType, hlen, Nat.zero_mul, Nat.zero_add, Nat.one_mul, Nat.reduceAdd,
    abi.Ty.requiresLengthPrefix, hw1, hw2, haddr, abi.ReadInteger, hval]
  simp

/-- C3. For every descriptor with the canonical signature
`transfer(address,uint256)`, every 20-byte address `a` and every `v < 2^256`:
`UnpackInput` of the 64 bytes (12 zero bytes, `a`, `v` as a 32-byte big-endian word)
returns `[a, v]` and no error, and so does `UnpackInput` of the selector `a9059cbb`
followed by the same 64 bytes. -/
theorem UnpackInput_transfer (funcDescriptions : GoMap WellKnownFuncDesc) (fsig : FuncSig)
    (a : Bytes) (v : Nat)
    (hname : fsig.name = "transfer")
    (hin : fsig.inputs.map FuncParam.Typ = ["address", "uint256"])
    (hout : ∀ p ∈ fsig.outputs.getD [], ∃ t, abi.NewType p.Typ = .ok t)
    (ha : a.length = 20) (hv : v < 2 ^ 256) :
    fsig.String = "transfer(address,uint256)" ∧
    fsig.UnpackInput funcDescriptions (List.replicate 12 0 ++ a ++ bigEndianBytes 32 v)
      = (some [.address a, .bigInt v], none) ∧
    fsig.UnpackInput funcDescriptions
        ([0xa9, 0x05, 0x9c, 0xbb] ++ (List.replicate 12 0 ++ a ++ bigEndianBytes 32 v))
      = (some [.address a, .bigInt v], none) := by
  obtain ⟨p₁, p₂, hps, hp₁, hp₂⟩ : ∃ p₁ p₂, fsig.inputs = [p₁, p₂] ∧ p₁.Typ = "address" ∧
      p₂.Typ = "uint256" := by
    match hi : fsig.inputs, hin with
    | [p₁, p₂], h =>
      simp only [List.map_cons, List.map_nil, List.cons.injEq, and_true] at h
      exact ⟨p₁, p₂, rfl, h.1, h.2⟩
    | [], h => simp at h
    | [_], h => simp at h
    | _ :: _ :: _ :: _, h => simp at h
  have hstr : fsig.String = "transfer(address,uint256)" := by
    simp only [FuncSig.String, FuncSig.Name, FuncSig.Inputs, hname, hps, typeList, hp₁, hp₂]
    decide
  have hins : abiArguments fsig.inputs
      = .ok [⟨p₁.Name, ⟨.AddressTy, 20, "address"⟩, false⟩,
             ⟨p₂.Name, ⟨.UintTy, 256, "uint256"⟩, false⟩] := by
    simp only [hps, abiArguments, hp₁, hp₂, NewType_address, NewType_uint256]
  obtain ⟨outs, houts⟩ := abiArguments_ok _ hout
  have hne : ∀ d : Bytes, (0 :: d : Bytes) ≠ [] := fun d => List.cons_ne_nil _ _
  have hdec := UnpackValues_address_uint256 p₁.Name p₂.Name a v ha hv
  refine ⟨hstr, ?_, ?_⟩
  · have h := UnpackInput_of_arguments funcDescriptions fsig _ outs
      (List.replicate 12 0 ++ a ++ bigEndianBytes 32 v) hins houts
    rw [h.1, unpackArgs_nonempty _ _ _ _ (by simp [List.replicate_succ]),
      removeParamNames_eq_String, hstr, MethodID_transfer]
    simp only [List.replicate_succ, List.cons_append, List.take_succ_cons, List.cons.injEq,
      OfNat.zero_ne_ofNat, false_and, and_false, if_false]
    simpa [List.replicate_succ] using hdec
  · have h := UnpackInput_of_arguments funcDescriptions fsig _ outs
      ([0xa9, 0x05, 0x9c, 0xbb] ++ (List.replicate 12 0 ++ a ++ bigEndianBytes 32 v)) hins houts
    rw [h.1, unpackArgs_nonempty _ _ _ _ (by simp),
      removeParamNames_eq_String, hstr, MethodID_transfer]
    simp only [List.cons_append, List.nil_append, List.take_succ_cons, List.take_zero, true_and,
      if_true, List.drop_succ_cons, List.drop_zero]
    simpa using hdec

/-- C3, witness: the address `5A5b644FB1A3ca046317fE82BC695FfF7bACF30C` and the amount
`12496000000000000000000` of the tests, without and with the selector. -/
theorem UnpackInput_transfer_witness :
    transferSig.UnpackInput GoMap.empty transferPayload
      = (some [.address [0x5a, 0x5b, 0x64, 0x4f, 0xb1, 0xa3, 0xca, 0x04, 0x63, 0x17,
                         0xfe, 0x82, 0xbc, 0x69, 0x5f, 0xff, 0x7b, 0xac, 0xf3, 0x0c],
               .bigInt 12496000000000000000000], none) ∧
    transferSig.UnpackInput GoMap.empty ([0xa9, 0x05, 0x9c, 0xbb] ++ transferPayload)
      = (some [.address [0x5a, 0x5b, 0x64, 0x4f, 0xb1, 0xa3, 0xca, 0x04, 0x63, 0x17,
                         0xfe, 0x82, 0xbc, 0x69, 0x5f, 0xff, 0x7b, 0xac, 0xf3, 0x0c],
               .bigInt 12496000000000000000000], none) :=
  (UnpackInput_transfer GoMap.empty transferSig
    [0x5a, 0x5b, 0x64, 0x4f, 0xb1, 0xa3, 0xca, 0x04, 0x63, 0x17,
     0xfe, 0x82, 0xbc, 0x69, 0x5f, 0xff, 0x7b, 0xac, 0xf3, 0x0c]
    12496000000000000000000 rfl rfl (fun _ hp => absurd hp (List.not_mem_nil _)) rfl
    (by decide)).2

set_option maxRecDepth 100000 in
/-- C4, witness: the call data of the tests begins with the selector of
`transfer(address,uint256)`; with the flag set the 64 bytes after it are decoded,
with the flag clear all 68 bytes are. -/
theorem unpackArgs_strips_own_selector_witness :
    ([0xa9, 0x05, 0x9c, 0xbb] ++ transferPayload).take 4 = MethodID transferSig.String ∧
    transferSig.unpackArgs transferArgs ([0xa9, 0x05, 0x9c, 0xbb] ++ transferPayload) true
      = transferArgs.UnpackValues transferPayload ∧
    transferSig.unpackArgs transferArgs ([0xa9, 0x05, 0x9c, 0xbb] ++ transferPayload) false
      = transferArgs.UnpackValues ([0xa9, 0x05, 0x9c, 0xbb] ++ transferPayload) :=
  have h := unpackArgs_strips_own_selector GoMap.empty transferSig transferArgs
    ([0xa9, 0x05, 0x9c, 0xbb] ++ transferPayload) (by decide)
  ⟨by decide, h.1 (by decide), h.2.2.1⟩

set_option maxRecDepth 100000 in
/-- C5, witness: call data that is just the selector of `transfer(address,uint256)`. -/
theorem UnpackInput_short_data_witness :
    ∃ err, transferSig.UnpackInput GoMap.empty [0xa9, 0x05, 0x9c, 0xbb] = (none, some err) :=
  UnpackInput_short_data GoMap.empty transferSig [0xa9, 0x05, 0x9c, 0xbb] (by decide)
    (by
      intro p hp
      simp only [transferSig, List.mem_cons, List.mem_singleton, List.not_mem_nil, or_false] at hp
      rcases hp with rfl | rfl
      · exact ⟨_, NewType_address, rfl⟩
      · exact ⟨_, NewType_uint256, rfl⟩)
    (by decide) (by decide)

/-- C5, counterexample to the claim as stated: on empty call data `UnpackInput` of
`transfer(address,uint256)` (two static one-word inputs, `0 < 64`) returns no error:
`unpackArgs` starts with `if len(data) == 0 { return nil, nil }`. -/
theorem UnpackInput_empty_data :
    transferSig.inputs.length = 2 ∧
    ([] : Bytes).length < 32 * transferSig.inputs.length ∧
    transferSig.UnpackInput GoMap.empty [] = (none, none) := by
  decide

/-! ## Disassemble -/

theorem hex_Decode_ok_iff (bs : Bytes) :
    (∃ out, hex.Decode bs = .ok out) ↔
      bs.length % 2 = 0 ∧ ∀ b ∈ bs, (fromHexChar b).isSome = true := by
  induction bs using hex.Decode.induct with
  | case1 => simp [hex.Decode]
  | case2 p hp => simp [hex.Decode, hp]
  | case3 p x hp => simp [hex.Decode, hp]
  | case4 p q rest hp => simp [hex.Decode, hp]
  | case5 p q rest a ha hq => simp [hex.Decode, ha, hq]
  | case6 p q rest a ha b hb e he ih =>
    have : ¬ ∃ out, hex.Decode rest = .ok out := by simp [he]
    rw [ih] at this
    simp only [hex.Decode, ha, hb, he, List.length_cons, List.mem_cons, forall_eq_or_imp,
      Option.isSome_some, true_and]
    constructor
    · rintro ⟨_, h⟩; simp at h
    · rintro ⟨h1, h2⟩
      exact absurd ⟨by omega, h2⟩ this
  | case7 p q rest a ha b hb out hout ih =>
    have : ∃ out, hex.Decode rest = .ok out := ⟨out, hout⟩
    rw [ih] at this
    simp only [hex.Decode, ha, hb, hout, List.length_cons, List.mem_cons, forall_eq_or_imp,
      Option.isSome_some, true_and]
    constructor
    · intro _; exact ⟨by omega, this.2⟩
    · intro _; exact ⟨_, rfl⟩

theorem isHexDigit_iff (c : Char) : isHexDigit c = true ↔ (fromHexChar c.toNat).isSome = true := by
  have h0 : '0'.toNat = 48 := rfl
  have h9 : '9'.toNat = 57 := rfl
  have ha : 'a'.toNat = 97 := rfl
  have hf : 'f'.toNat = 102 := rfl
  have hA : 'A'.toNat = 65 := rfl
  have hF : 'F'.toNat = 70 := rfl
  simp only [isHexDigit, h0, h9, ha, hf, hA, hF, fromHexChar, Bool.or_eq_true, Bool.and_eq_true,
    decide_eq_true_eq]
  split
  · simp; omega
  · split
    · simp; omega
    · split
      · simp; omega
      · simp; omega

theorem utf8EncodeChar_hex (v : Nat) :
    (∀ b ∈ utf8EncodeChar v, (fromHexChar b).isSome = true) ↔ (fromHexChar v).isSome = true := by
  unfold utf8EncodeChar
  split
  · simp
  · rename_i h1
    have hv : (fromHexChar v).isSome = false := by
      simp only [fromHexChar]
      split
      · omega
      · split
        · omega
        · split
          · omega
          · rfl
    have hb : ∀ x, 0xC0 ≤ x → (fromHexChar x).isSome = false := by
      intro x hx
      simp only [fromHexChar]
      split
      · omega
      · split
        · omega
        · split
          · omega
          · rfl
    rw [hv]
    simp only [Bool.false_eq_true, iff_false, not_forall]
    split
    · exact ⟨_, List.mem_cons_self _ _, by rw [hb _ (by omega)]; simp⟩
    · split
      · exact ⟨_, List.mem_cons_self _ _, by rw [hb _ (by omega)]; simp⟩
      · exact ⟨_, List.mem_cons_self _ _, by rw [hb _ (by omega)]; simp⟩

theorem utf8EncodeChar_of_hex (v : Nat) (h : (fromHexChar v).isSome = true) :
    utf8EncodeChar v = [v] := by
  have : v < 0x80 := by
    simp only [fromHexChar] at h
    split at h
    · omega
    · split at h
      · omega
      · split at h
        · omega
        · simp at h
  simp [utf8EncodeChar, this]

theorem stringBytes_hex_iff (code : String) :
    (stringBytes code).length % 2 = 0 ∧ (∀ b ∈ stringBytes code, (fromHexChar b).isSome = true)
      ↔ IsHexString code = true := by
  have hall : (∀ b ∈ stringBytes code, (fromHexChar b).isSome = true) ↔
      ∀ c ∈ code.data, isHexDigit c = true := by
    simp only [stringBytes, List.mem_flatMap, forall_exists_index, and_imp]
    constructor
    · intro h c hc
      rw [isHexDigit_iff, ← utf8EncodeChar_hex]
      exact fun b hb => h b c hc hb
    · intro h b c hc hb
      exact (utf8EncodeChar_hex c.toNat).mpr ((isHexDigit_iff c).mp (h c hc)) b hb
  have hlen : (∀ c ∈ code.data, isHexDigit c = true) →
      (stringBytes code).length = code.length := by
    have key : ∀ l : List Char, (∀ c ∈ l, isHexDigit c = true) →
        (l.flatMap (fun c => utf8EncodeChar c.toNat)).length = l.length := by
      intro l h
      induction l with
      | nil => rfl
      | cons c l ih =>
        rw [List.flatMap_cons, List.length_append,
          utf8EncodeChar_of_hex _ ((isHexDigit_iff c).mp (h c (by simp))),
          ih (fun d hd => h d (List.mem_cons_of_mem _ hd))]
        simp only [List.length_singleton, List.length_cons, List.length_nil]
        omega
    exact key code.data
  simp only [IsHexString, Bool.and_eq_true, decide_eq_true_eq, List.all_eq_true]
  rw [hall]
  constructor
  · rintro ⟨h1, h2⟩
    exact ⟨by rw [← hlen h2]; exact h1, h2⟩
  · rintro ⟨h1, h2⟩
    exact ⟨by rw [hlen h2]; exact h1, h2⟩

theorem DecodeString_ok_iff (code : String) :
    (∃ script, hex.DecodeString code = .ok script) ↔ IsHexString code = true := by
  rw [hex.DecodeString, hex_Decode_ok_iff, stringBytes_hex_iff]

/-- C8. `Disassemble code` returns no result together with an error exactly when
`code` is not a valid hexadecimal string (odd length, or a character outside `0-9`,
`a-f`, `A-F`); for every valid hexadecimal string, whatever bytes it encodes, the
result is not `nil`. So `"6"` and `"6g"` give no result, `""` and `"7F"` give one. -/
theorem Disassemble_nil_iff_not_hex (InstructionSet : Nat → Instruction) (remote : Remote)
    (w : World) (code : String) :
    (((Disassemble InstructionSet remote w code).result = none ∧
        (Disassemble InstructionSet remote w code).err ≠ none) ↔ IsHexString code = false) ∧
    (IsHexString code = true → (Disassemble InstructionSet remote w code).result ≠ none) ∧
    (Disassemble exampleInstructionSet offlineRemote World.initial "6").result.isSome = false ∧
    (Disassemble exampleInstructionSet offlineRemote World.initial "6g").result.isSome = false ∧
    (Disassemble exampleInstructionSet offlineRemote World.initial "").result.isSome = true ∧
    (Disassemble exampleInstructionSet offlineRemote World.initial "7F").result.isSome = true := by
  have key :
      (((Disassemble InstructionSet remote w code).result = none ∧
          (Disassemble InstructionSet remote w code).err ≠ none) ↔
        ¬ ∃ script, hex.DecodeString code = .ok script) ∧
      ((∃ script, hex.DecodeString code = .ok script) →
        (Disassemble InstructionSet remote w code).result ≠ none) := by
    unfold Disassemble
    cases h : hex.DecodeString code with
    | error e => simp
    | ok script =>
      simp only [Except.ok.injEq, exists_eq', not_true_eq_false, iff_false, not_and, ne_eq,
        not_not, forall_const]
      constructor
      · intro h1
        split at h1 <;> simp at h1
      · split <;> simp
  refine ⟨?_, ?_, by decide, by decide, by decide, by decide⟩
  · rw [key.1, DecodeString_ok_iff]; simp
  · intro h
    exact key.2 ((DecodeString_ok_iff code).mpr h)

theorem pushWidth_of_push (op : Nat) (h : vm.IsPush op = true) :
    pushWidth op = op - vm.PUSH1 + 1 ∧ 1 ≤ pushWidth op := by
  simp only [pushWidth, h, if_true, vm.PUSH1]
  simp only [vm.IsPush, vm.PUSH1, vm.PUSH32, Bool.and_eq_true, decide_eq_true_eq] at h
  omega

theorem Next_of_poised (it : instructionIterator) (code : Bytes) (q : Nat)
    (h : Poised it code q) :
    it.Next =
      if code.length ≤ q then
        (false, { it with pc := q, started := true })
      else if vm.IsPush (code.getD q 0) then
        if code.length < q + 1 + pushWidth (code.getD q 0) then
          (false, { it with pc := q, started := true, op := code.getD q 0, error := some q })
        else
          (true, { it with pc := q, started := true, op := code.getD q 0,
                           arg := some (byteRange code (q + 1) (q + 1 + pushWidth (code.getD q 0))) })
      else (true, { it with pc := q, started := true, op := code.getD q 0, arg := none }) := by
  obtain ⟨hc, he, hpc, hq⟩ := h
  obtain ⟨code', pc, arg, op, error, started⟩ := it
  simp only at hc he hpc hq
  subst hc he
  have h1 : ¬ code'.length ≤ pc := by omega
  have hstep : instructionIterator.Next ⟨code', pc, arg, op, none, started⟩ =
      if code'.length ≤ q then
        (false, ⟨code', q, arg, op, none, true⟩)
      else if vm.IsPush (code'.getD q 0) then
        if code'.length ≤ q ∨ code'.length < q + 1 + (code'.getD q 0 - vm.PUSH1 + 1) then
          (false, ⟨code', q, arg, code'.getD q 0, some q, true⟩)
        else
          (true, ⟨code', q, some (byteRange code' (q + 1)
            (q + 1 + (code'.getD q 0 - vm.PUSH1 + 1))), code'.getD q 0, none, true⟩)
      else (true, ⟨code', q, none, code'.getD q 0, none, true⟩) := by
    cases started with
    | false =>
      simp only [Bool.false_eq_true, if_false] at hq
      subst hq
      simp only [instructionIterator.Next, Option.isSome_none, Bool.false_or, decide_eq_true_eq,
        h1, if_false, Bool.false_eq_true]
    | true =>
      simp only [if_true] at hq
      subst hq
      simp only [instructionIterator.Next, Option.isSome_none, Bool.false_or, decide_eq_true_eq,
        h1, if_false, if_true]
  rw [hstep]
  by_cases hA : code'.length ≤ q
  · simp only [hA, if_true]
  · simp only [hA, if_false, false_or]
    by_cases hP : vm.IsPush (code'.getD q 0) = true
    · simp only [hP, if_true, (pushWidth_of_push _ hP).1]
    · simp only [hP, if_false, Bool.false_eq_true]

theorem getD_append_cons (pre rest : Bytes) (x d : Nat) :
    (pre ++ x :: rest).getD pre.length d = x := by
  induction pre with
  | nil => rfl
  | cons a pre ih => simpa using ih

theorem byteRange_mid (pre args post : Bytes) (x : Nat) :
    byteRange (pre ++ x :: (args ++ post)) (pre.length + 1) (pre.length + 1 + args.length)
      = args := by
  have e : pre ++ x :: (args ++ post) = ((pre ++ [x]) ++ args) ++ post := by simp
  have l1 : pre.length + 1 = (pre ++ [x]).length := by simp
  have l2 : pre.length + 1 + args.length = ((pre ++ [x]) ++ args).length := by
    simp only [List.length_append, List.length_singleton]
  rw [byteRange, e, l2, List.take_left, l1, List.drop_left]

theorem Instr.bytes_length (i : Instr) : i.bytes.length = 1 + i.args.length := by
  simp [Instr.bytes]; omega

theorem Instr.complete_cases (i : Instr) (h : i.complete = true) :
    (vm.IsPush i.op = true ∧ i.args.length = pushWidth i.op) ∨
    (vm.IsPush i.op = false ∧ i.args = []) := by
  simp only [Instr.complete, decide_eq_true_eq] at h
  cases hp : vm.IsPush i.op with
  | true => exact Or.inl ⟨rfl, h⟩
  | false =>
    right
    refine ⟨rfl, ?_⟩
    simp only [pushWidth, hp, Bool.false_eq_true, if_false] at h
    exact List.length_eq_zero.mp h

theorem Next_complete (it : instructionIterator) (pre post : Bytes) (i : Instr)
    (h : Poised it (pre ++ i.bytes ++ post) pre.length) (hi : i.complete = true) :
    it.Next = (true, i.iterator (pre ++ i.bytes ++ post) pre.length) := by
  rw [Next_of_poised it _ _ h]
  obtain ⟨hc, he, _, _⟩ := h
  obtain ⟨code', pc, arg, op, error, started⟩ := it
  simp only at hc he
  subst hc he
  have hcode : pre ++ i.bytes ++ post = pre ++ i.op :: (i.args ++ post) := by
    simp [Instr.bytes]
  have hlen : (pre ++ i.bytes ++ post).length = pre.length + (1 + i.args.length) + post.length := by
    simp [Instr.bytes]; omega
  have hop : (pre ++ i.bytes ++ post).getD pre.length 0 = i.op := by
    rw [hcode]; exact getD_append_cons _ _ _ _
  have h1 : ¬ (pre ++ i.bytes ++ post).length ≤ pre.length := by omega
  simp only [h1, if_false, hop]
  rcases i.complete_cases hi with ⟨hp, hw⟩ | ⟨hp, hnil⟩
  · have h2 : ¬ (pre ++ i.op :: (i.args ++ post)).length < pre.length + 1 + i.args.length := by
      rw [← hcode]; omega
    simp only [hp, if_true, Instr.iterator, ← hw]
    rw [hcode, if_neg h2, byteRange_mid]
  · simp only [hp, Bool.false_eq_true, if_false, Instr.iterator]

theorem Poised_iterator (pre post : Bytes) (i : Instr) (hi : i.complete = true) :
    Poised (i.iterator (pre ++ i.bytes ++ post) pre.length) (pre ++ i.bytes ++ post)
      (pre ++ i.bytes).length := by
  have hlen : (pre ++ i.bytes ++ post).length = pre.length + (1 + i.args.length) + post.length := by
    simp [Instr.bytes]; omega
  refine ⟨rfl, rfl, by simp only [Instr.iterator]; omega, ?_⟩
  rcases i.complete_cases hi with ⟨hp, _⟩ | ⟨hp, hnil⟩
  · simp [Instr.iterator, hp, Instr.bytes]; omega
  · simp [Instr.iterator, hp, Instr.bytes, hnil]

theorem disassembleBody_iterator (InstructionSet : Nat → Instruction) (remote : Remote)
    (i : Instr) (code : Bytes) (pc : Nat) (st : DisState) :
    disassembleBody InstructionSet remote (i.iterator code pc) st
      = disassembleBody InstructionSet remote (i.iterator [] pc) st := rfl

theorem assemble_cons (i : Instr) (is : List Instr) :
    assemble (i :: is) = i.bytes ++ assemble is := by
  simp [assemble]

theorem disassembleLoop_complete (InstructionSet : Nat → Instruction) (remote : Remote)
    (is : List Instr) :
    ∀ (pre post : Bytes) (it : instructionIterator) (st : DisState) (fuel : Nat),
      Poised it (pre ++ assemble is ++ post) pre.length →
      (∀ i ∈ is, i.complete = true) → is.length ≤ fuel →
      ∃ it', disassembleLoop InstructionSet remote fuel it st
          = disassembleLoop InstructionSet remote (fuel - is.length) it'
              (runInstrs InstructionSet remote pre.length is st) ∧
        Poised it' (pre ++ assemble is ++ post) (pre ++ assemble is).length := by
  induction is with
  | nil =>
    intro pre post it st fuel h _ _
    exact ⟨it, rfl, by simpa [assemble] using h⟩
  | cons i is ih =>
    intro pre post it st fuel h hall hfuel
    have hi := hall i (by simp)
    have hcode : pre ++ assemble (i :: is) ++ post = pre ++ i.bytes ++ (assemble is ++ post) := by
      simp [assemble_cons]
    have hcode' : pre ++ assemble (i :: is) ++ post = (pre ++ i.bytes) ++ assemble is ++ post := by
      simp [assemble_cons]
    obtain ⟨f, rfl⟩ : ∃ f, fuel = f + 1 := ⟨fuel - 1, by simp at hfuel; omega⟩
    rw [hcode] at h
    have hnext := Next_complete it pre _ i h hi
    have hp := Poised_iterator pre (assemble is ++ post) i hi
    rw [← hcode, hcode'] at hp
    obtain ⟨it', hloop, hp'⟩ := ih (pre ++ i.bytes) post _
      (disassembleBody InstructionSet remote (i.iterator [] pre.length) st) f hp
      (fun j hj => hall j (List.mem_cons_of_mem _ hj)) (by simp at hfuel; omega)
    refine ⟨it', ?_, ?_⟩
    · rw [disassembleLoop, hnext]
      simp only
      rw [← hcode, hcode', disassembleBody_iterator, hloop]
      have e1 : (pre ++ i.bytes).length = pre.length + 1 + i.args.length := by
        simp [Instr.bytes]; omega
      simp only [runInstrs, e1, List.length_cons, Nat.add_sub_add_right]
    · rw [hcode']
      simpa [assemble_cons] using hp'

theorem assemble_length_ge (is : List Instr) : is.length ≤ (assemble is).length := by
  induction is with
  | nil => simp
  | cons i is ih =>
    rw [assemble_cons, List.length_append, Instr.bytes_length, List.length_cons]
    omega

theorem disassembleLoop_end (InstructionSet : Nat → Instruction) (remote : Remote)
    (it : instructionIterator) (code : Bytes) (st : DisState) (f : Nat)
    (h : Poised it code code.length) :
    ∃ it', disassembleLoop InstructionSet remote (f + 1) it st = (it', st) ∧
      it'.Error = none := by
  have he := h.2.1
  refine ⟨{ it with pc := code.length, started := true }, ?_, he⟩
  rw [disassembleLoop, Next_of_poised it _ _ h]
  simp

theorem disassembleLoop_truncated (InstructionSet : Nat → Instruction) (remote : Remote)
    (it : instructionIterator) (pre suffix : Bytes) (st : DisState) (f : Nat)
    (h : Poised it (pre ++ suffix) pre.length) (hs : truncatedPush suffix = true) :
    ∃ it', disassembleLoop InstructionSet remote (f + 1) it st = (it', st) ∧
      it'.Error = some pre.length := by
  cases suffix with
  | nil => simp [truncatedPush] at hs
  | cons op tail =>
    simp only [truncatedPush, Bool.and_eq_true, decide_eq_true_eq] at hs
    have hop : (pre ++ op :: tail).getD pre.length 0 = op := getD_append_cons _ _ _ _
    refine ⟨{ it with pc := pre.length, started := true, op := op, error := some pre.length },
      ?_, rfl⟩
    rw [disassembleLoop, Next_of_poised it _ _ h]
    have h1 : ¬ (pre ++ op :: tail).length ≤ pre.length := by simp
    have h2 : (pre ++ op :: tail).length < pre.length + 1 + pushWidth op := by
      simp only [List.length_append, List.length_cons]; omega
    simp only [h1, if_false, hop, hs.1, if_true, h2]

theorem Disassemble_assemble (InstructionSet : Nat → Instruction) (remote : Remote) (w : World)
    (code : String) (is : List Instr) (suffix : Bytes)
    (hdec : hex.DecodeString code = .ok (assemble is ++ suffix))
    (hall : ∀ i ∈ is, i.complete = true)
    (hsuf : suffix = [] ∨ truncatedPush suffix = true) :
    (Disassemble InstructionSet remote w code).result
      = some { CompiledLen := hex.DecodedLen (stringBytes code).length,
               Lines := (runInstrs InstructionSet remote 0 is (DisState.start w)).lines,
               FoundSignatures := (runInstrs InstructionSet remote 0 is (DisState.start w)).sigs } ∧
    (Disassemble InstructionSet remote w code).err
      = (if suffix = [] then none else some (.incompletePush (assemble is).length)) ∧
    (Disassemble InstructionSet remote w code).world
      = (runInstrs InstructionSet remote 0 is (DisState.start w)).world := by
  have key : ∃ it', disassembleLoop InstructionSet remote ((assemble is ++ suffix).length + 1)
      (asm.NewInstructionIterator (assemble is ++ suffix)) (DisState.start w)
        = (it', runInstrs InstructionSet remote 0 is (DisState.start w)) ∧
      it'.Error = (if suffix = [] then none else some (assemble is).length) := by
    by_cases hempty : assemble is ++ suffix = []
    · have his : is = [] := by
        cases is with
        | nil => rfl
        | cons i is => simp [assemble_cons, Instr.bytes] at hempty
      have hs : suffix = [] := (List.append_eq_nil.mp hempty).2
      subst his hs
      exact ⟨asm.NewInstructionIterator [], rfl, rfl⟩
    · have hpos : 0 < (assemble is ++ suffix).length := List.length_pos.mpr hempty
      have hp0 : Poised (asm.NewInstructionIterator (assemble is ++ suffix))
          ([] ++ assemble is ++ suffix) ([] : Bytes).length :=
        ⟨rfl, rfl, by simpa [asm.NewInstructionIterator] using hpos, rfl⟩
      have hfuel : is.length ≤ (assemble is ++ suffix).length + 1 := by
        have := assemble_length_ge is
        simp only [List.length_append]; omega
      obtain ⟨it₁, hloop, hp₁⟩ := disassembleLoop_complete InstructionSet remote is [] suffix _
        (DisState.start w) _ hp0 hall hfuel
      simp only [List.nil_append, List.length_nil] at hloop hp₁
      obtain ⟨f, hf⟩ : ∃ f, (assemble is ++ suffix).length + 1 - is.length = f + 1 :=
        ⟨(assemble is ++ suffix).length - is.length, by
          have := assemble_length_ge is
          simp only [List.length_append] at *; omega⟩
      rw [hloop, hf]
      rcases hsuf with hs | hs
      · subst hs
        simp only [List.append_nil] at hp₁ ⊢
        obtain ⟨it', h1, h2⟩ := disassembleLoop_end InstructionSet remote it₁ _
          (runInstrs InstructionSet remote 0 is (DisState.start w)) f hp₁
        exact ⟨it', h1, by simpa using h2⟩
      · obtain ⟨it', h1, h2⟩ := disassembleLoop_truncated InstructionSet remote it₁ _ _
          (runInstrs InstructionSet remote 0 is (DisState.start w)) f hp₁ hs
        have hne : suffix ≠ [] := by
          intro e; rw [e] at hs; simp [truncatedPush] at hs
        exact ⟨it', h1, by simp [hne, h2]⟩
  obtain ⟨it', hloop, herr⟩ := key
  simp only [Disassemble, hdec, hloop, herr]
  by_cases hs : suffix = [] <;> simp [hs]

theorem recordSignatures_lines (hexArg : String) (sigs : List String) :
    ∀ (comment : String) (st : DisState),
      (recordSignatures hexArg sigs (comment, st)).2.lines = st.lines := by
  induction sigs with
  | nil => intro _ _; rfl
  | cons sig rest ih =>
    intro comment st
    rw [recordSignatures, ih]

theorem disassembleBody_lines (InstructionSet : Nat → Instruction) (remote : Remote)
    (it : instructionIterator) (st : DisState) :
    ∃ l, (disassembleBody InstructionSet remote it st).lines = st.lines ++ [l] ∧
      l.ProgramCounter = it.PC ∧ l.Inst = InstructionSet it.Op := by
  unfold disassembleBody
  cases it.Arg with
  | none => exact ⟨_, rfl, rfl, rfl⟩
  | some arg =>
    simp only
    by_cases h0 : 0 < arg.length
    · rw [if_pos h0]
      by_cases h4 : arg.length = 4 ∧ it.Op = vm.PUSH4
      · rw [if_pos h4]
        by_cases hh : (!(st.fourBytesToSigs.has (hex.EncodeToString arg))) = true
        · rw [if_pos hh]
          refine ⟨{ Inst := InstructionSet it.Op, ProgramCounter := it.PC, Args := [arg],
                    Comment := (recordSignatures (hex.EncodeToString arg)
                      (getSigsFromFourBytes remote st.world arg).1
                      ("", { st with world := (getSigsFromFourBytes remote st.world arg).2 })).1 },
            ?_, rfl, rfl⟩
          simp only [recordSignatures_lines]
        · rw [if_neg hh]
          exact ⟨_, rfl, rfl, rfl⟩
      · rw [if_neg h4]
        split
        · exact ⟨_, rfl, rfl, rfl⟩
        · exact ⟨_, rfl, rfl, rfl⟩
    · rw [if_neg h0]
      exact ⟨_, rfl, rfl, rfl⟩

theorem runInstrs_lines (InstructionSet : Nat → Instruction) (remote : Remote)
    (is : List Instr) :
    ∀ (pre post : Bytes) (st : DisState), (∀ i ∈ is, i.complete = true) →
      ∃ L : List Line,
        (runInstrs InstructionSet remote pre.length is st).lines = st.lines ++ L ∧
        L.map Line.ProgramCounter = pcsFrom pre.length is ∧
        (∀ l ∈ L, pre.length ≤ l.ProgramCounter ∧
          l.ProgramCounter < (pre ++ assemble is).length ∧
          l.Inst = InstructionSet ((pre ++ assemble is ++ post).getD l.ProgramCounter 0)) ∧
        List.Chain' (fun l l' : Line => l'.ProgramCounter = l.ProgramCounter + 1 +
          pushWidth ((pre ++ assemble is ++ post).getD l.ProgramCounter 0)) L ∧
        List.Pairwise (fun l l' : Line => l.ProgramCounter +
          pushWidth ((pre ++ assemble is ++ post).getD l.ProgramCounter 0) < l'.ProgramCounter) L
        := by
  induction is with
  | nil =>
    intro pre post st _
    exact ⟨[], by simp [runInstrs], rfl, by simp, List.chain'_nil, List.Pairwise.nil⟩
  | cons i is ih =>
    intro pre post st hall
    have hi := hall i (by simp)
    obtain ⟨l, hl, hpc, hinst⟩ := disassembleBody_lines InstructionSet remote
      (i.iterator [] pre.length) st
    have hcode : pre ++ assemble (i :: is) ++ post = (pre ++ i.bytes) ++ assemble is ++ post := by
      simp [assemble_cons]
    have hcode2 : pre ++ assemble (i :: is) = (pre ++ i.bytes) ++ assemble is := by
      simp [assemble_cons]
    have hplen : (pre ++ i.bytes).length = pre.length + 1 + i.args.length := by
      simp [Instr.bytes]; omega
    have hop : (pre ++ assemble (i :: is) ++ post).getD pre.length 0 = i.op := by
      have : pre ++ assemble (i :: is) ++ post = pre ++ i.op :: (i.args ++ assemble is ++ post) := by
        simp [assemble_cons, Instr.bytes]
      rw [this]; exact getD_append_cons _ _ _ _
    have hw : pushWidth i.op = i.args.length := by
      have := hi
      simp only [Instr.complete, decide_eq_true_eq] at this
      exact this.symm
    obtain ⟨L, hL, hpcs, hmem, hchain, hpair⟩ := ih (pre ++ i.bytes) post
      (disassembleBody InstructionSet remote (i.iterator [] pre.length) st)
      (fun j hj => hall j (List.mem_cons_of_mem _ hj))
    rw [← hcode] at hmem hchain hpair
    rw [← hcode2] at hmem
    rw [hplen] at hL hpcs hmem
    have hl_pc : l.ProgramCounter = pre.length := hpc
    have hl_inst : l.Inst = InstructionSet i.op := hinst
    refine ⟨l :: L, ?_, ?_, ?_, ?_, ?_⟩
    · rw [runInstrs, hL, hl]; simp
    · simp [pcsFrom, hpcs, hl_pc]
    · intro x hx
      rcases List.mem_cons.mp hx with rfl | hx
      · refine ⟨by omega, ?_, by rw [hl_pc, hop, hl_inst]⟩
        rw [hl_pc, hcode2, List.length_append, hplen]; omega
      · have := hmem x hx
        exact ⟨by omega, this.2.1, this.2.2⟩
    · rw [List.chain'_cons']
      refine ⟨?_, hchain⟩
      intro y hy
      have hy' : y ∈ L := List.mem_of_mem_head? hy
      have hyhead : y.ProgramCounter = pre.length + 1 + i.args.length := by
        cases L with
        | nil => simp at hy
        | cons z L' =>
          simp only [List.head?_cons, Option.mem_def, Option.some.injEq] at hy
          subst hy
          simp only [List.map_cons] at hpcs
          cases is with
          | nil => simp [pcsFrom] at hpcs
          | cons j is' =>
            simp only [pcsFrom, List.cons.injEq] at hpcs
            exact hpcs.1
      rw [hyhead, hl_pc, hop, hw]
    · rw [List.pairwise_cons]
      refine ⟨?_, hpair⟩
      intro y hy
      have := (hmem y hy).1
      rw [hl_pc, hop, hw]
      omega

theorem pcsFrom_length (is : List Instr) : ∀ pc, (pcsFrom pc is).length = is.length := by
  induction is with
  | nil => intro _; rfl
  | cons i is ih => intro pc; simp [pcsFrom, ih]

theorem exists_instructions_aux (n : Nat) :
    ∀ b : Bytes, b.length ≤ n →
      ∃ is suffix, b = assemble is ++ suffix ∧ (∀ i ∈ is, i.complete = true) ∧
        (suffix = [] ∨ truncatedPush suffix = true) := by
  induction n with
  | zero =>
    intro b hb
    have : b = [] := List.length_eq_zero.mp (Nat.le_zero.mp hb)
    subst this
    exact ⟨[], [], rfl, by simp, Or.inl rfl⟩
  | succ n ih =>
    intro b hb
    cases b with
    | nil => exact ⟨[], [], rfl, by simp, Or.inl rfl⟩
    | cons op rest =>
      by_cases hshort : vm.IsPush op = true ∧ rest.length < pushWidth op
      · exact ⟨[], op :: rest, rfl, by simp, Or.inr (by simp [truncatedPush, hshort.1, hshort.2])⟩
      · have hlen : pushWidth op ≤ rest.length := by
          by_cases hp : vm.IsPush op = true
          · exact Nat.le_of_not_lt (fun h => hshort ⟨hp, h⟩)
          · simp [pushWidth, hp]
        obtain ⟨is, suffix, hb', hall, hsuf⟩ := ih (rest.drop (pushWidth op))
          (by
            have := hb
            simp only [List.length_cons] at this
            simp only [List.length_drop]
            omega)
        refine ⟨⟨op, rest.take (pushWidth op)⟩ :: is, suffix, ?_, ?_, hsuf⟩
        · simp only [assemble_cons, Instr.bytes, List.cons_append, List.append_assoc, ← hb',
            List.take_append_drop]
        · intro i hi
          rcases List.mem_cons.mp hi with rfl | hi
          · simp [Instr.complete, List.length_take, hlen]
          · exact hall i hi

theorem exists_instructions (b : Bytes) :
    ∃ is suffix, b = assemble is ++ suffix ∧ (∀ i ∈ is, i.complete = true) ∧
      (suffix = [] ∨ truncatedPush suffix = true) :=
  exists_instructions_aux b.length b (Nat.le_refl _)

theorem Disassemble_lines (InstructionSet : Nat → Instruction) (remote : Remote) (w : World)
    (code : String) (is : List Instr) (suffix : Bytes)
    (hdec : hex.DecodeString code = .ok (assemble is ++ suffix))
    (hall : ∀ i ∈ is, i.complete = true)
    (hsuf : suffix = [] ∨ truncatedPush suffix = true) :
    ∃ r, (Disassemble InstructionSet remote w code).result = some r ∧
      r.Lines = (runInstrs InstructionSet remote 0 is (DisState.start w)).lines ∧
      r.FoundSignatures = (runInstrs InstructionSet remote 0 is (DisState.start w)).sigs ∧
      r.Lines.map Line.ProgramCounter = pcsFrom 0 is ∧
      (∀ l ∈ r.Lines, l.ProgramCounter < (assemble is ++ suffix).length ∧
        l.Inst = InstructionSet ((assemble is ++ suffix).getD l.ProgramCounter 0)) ∧
      List.Chain' (fun l l' : Line => l'.ProgramCounter = l.ProgramCounter + 1 +
        pushWidth ((assemble is ++ suffix).getD l.ProgramCounter 0)) r.Lines ∧
      List.Pairwise (fun l l' : Line => l.ProgramCounter +
        pushWidth ((assemble is ++ suffix).getD l.ProgramCounter 0) < l'.ProgramCounter) r.Lines
      := by
  obtain ⟨hres, _, _⟩ := Disassemble_assemble InstructionSet remote w code is suffix hdec hall hsuf
  obtain ⟨L, hL, hpcs, hmem, hchain, hpair⟩ := runInstrs_lines InstructionSet remote is [] suffix
    (DisState.start w) hall
  simp only [List.nil_append, List.length_nil] at hL hpcs hmem hchain hpair
  have hL' : (runInstrs InstructionSet remote 0 is (DisState.start w)).lines = L := by
    rw [hL]; rfl
  refine ⟨_, hres, rfl, rfl, ?_, ?_, ?_, ?_⟩
  · show ((runInstrs InstructionSet remote 0 is (DisState.start w)).lines).map _ = _
    rw [hL', hpcs]
  · show ∀ l ∈ (runInstrs InstructionSet remote 0 is (DisState.start w)).lines, _
    rw [hL']
    intro l hl
    have := hmem l hl
    exact ⟨by rw [List.length_append]; omega, this.2.2⟩
  · show List.Chain' _ (runInstrs InstructionSet remote 0 is (DisState.start w)).lines
    rw [hL']; exact hchain
  · show List.Pairwise _ (runInstrs InstructionSet remote 0 is (DisState.start w)).lines
    rw [hL']; exact hpair

/-- C9. For every bytecode made of complete instructions followed by one push opcode
with fewer trailing bytes than it declares, `Disassemble` returns an error together
with a result whose `Lines` and `FoundSignatures` are those of disassembling the
complete-instruction part alone (from the same process state); and for the bytecode
made only of the complete instructions the returned error is `nil`. -/
theorem Disassemble_truncated_push (InstructionSet : Nat → Instruction) (remote : Remote)
    (w : World) (code codePrefix : String) (is : List Instr) (suffix : Bytes)
    (hall : ∀ i ∈ is, i.complete = true) (hsuf : truncatedPush suffix = true)
    (hcode : hex.DecodeString code = .ok (assemble is ++ suffix))
    (hpart : hex.DecodeString codePrefix = .ok (assemble is)) :
    (Disassemble InstructionSet remote w code).err ≠ none ∧
    (∃ r r', (Disassemble InstructionSet remote w code).result = some r ∧
      (Disassemble InstructionSet remote w codePrefix).result = some r' ∧
      r.Lines = r'.Lines ∧ r.FoundSignatures = r'.FoundSignatures) ∧
    (Disassemble InstructionSet remote w codePrefix).err = none := by
  have hne : suffix ≠ [] := by
    intro e; rw [e] at hsuf; simp [truncatedPush] at hsuf
  obtain ⟨h1, h2, _⟩ := Disassemble_assemble InstructionSet remote w code is suffix hcode hall
    (Or.inr hsuf)
  obtain ⟨h1', h2', _⟩ := Disassemble_assemble InstructionSet remote w codePrefix is []
    (by simpa using hpart) hall (Or.inl rfl)
  refine ⟨by rw [h2]; simp [hne], ⟨_, _, h1, h1', rfl, rfl⟩, by rw [h2']; simp⟩

/-- C9, witness: `PUSH1 80`, `PUSH4 18160ddd`, then a `PUSH32` with one byte. -/
theorem Disassemble_truncated_push_witness :
    (Disassemble exampleInstructionSet offlineRemote World.initial "60806318160ddd7f00").err
      ≠ none ∧
    (∃ r r',
      (Disassemble exampleInstructionSet offlineRemote World.initial
        "60806318160ddd7f00").result = some r ∧
      (Disassemble exampleInstructionSet offlineRemote World.initial
        "60806318160ddd").result = some r' ∧
      r.Lines = r'.Lines ∧ r.FoundSignatures = r'.FoundSignatures) ∧
    (Disassemble exampleInstructionSet offlineRemote World.initial "60806318160ddd").err
      = none :=
  Disassemble_truncated_push exampleInstructionSet offlineRemote World.initial
    "60806318160ddd7f00" "60806318160ddd"
    [⟨0x60, [0x80]⟩, ⟨0x63, [0x18, 0x16, 0x0d, 0xdd]⟩] [0x7f, 0x00]
    (by decide) (by decide) rfl rfl

/-- C10. For every bytecode `b`: the first line's `ProgramCounter` is 0; each line's
`ProgramCounter` is a position of `b` and its instruction is the table entry for the
byte there; the next line's `ProgramCounter` is `ProgramCounter + 1 + n` with `n` the
push width of that byte (`opcode - 0x5f` for `0x60..0x7f`, else 0); a later line's
`ProgramCounter` lies beyond the argument bytes of every earlier line, so program
counters are strictly increasing and never point at an argument byte; and there is
one line per complete instruction, in bytecode order, at that instruction's offset. -/
theorem Disassemble_program_counters (InstructionSet : Nat → Instruction) (remote : Remote)
    (w : World) (code : String) (b : Bytes) (hdec : hex.DecodeString code = .ok b) :
    ∃ r, (Disassemble InstructionSet remote w code).result = some r ∧
      (∀ l, r.Lines.head? = some l → l.ProgramCounter = 0) ∧
      (∀ l ∈ r.Lines, l.ProgramCounter < b.length ∧
        l.Inst = InstructionSet (b.getD l.ProgramCounter 0)) ∧
      List.Chain' (fun l l' : Line => l'.ProgramCounter = l.ProgramCounter + 1 +
        pushWidth (b.getD l.ProgramCounter 0)) r.Lines ∧
      List.Pairwise (fun l l' : Line => l.ProgramCounter +
        pushWidth (b.getD l.ProgramCounter 0) < l'.ProgramCounter) r.Lines ∧
      List.Pairwise (fun l l' : Line => l.ProgramCounter < l'.ProgramCounter) r.Lines ∧
      (∀ (is : List Instr) (suffix : Bytes), b = assemble is ++ suffix →
        (∀ i ∈ is, i.complete = true) → (suffix = [] ∨ truncatedPush suffix = true) →
        r.Lines.length = is.length ∧ r.Lines.map Line.ProgramCounter = pcsFrom 0 is) := by
  obtain ⟨is, suffix, hb, hall, hsuf⟩ := exists_instructions b
  subst hb
  obtain ⟨r, hr, _, _, hpcs, hmem, hchain, hpair⟩ :=
    Disassemble_lines InstructionSet remote w code is suffix hdec hall hsuf
  refine ⟨r, hr, ?_, hmem, hchain, hpair, hpair.imp (fun h => by omega), ?_⟩
  · intro l hl
    have : (r.Lines.map Line.ProgramCounter).head? = some l.ProgramCounter := by
      rw [List.head?_map, hl]; rfl
    rw [hpcs] at this
    cases is with
    | nil => simp [pcsFrom] at this
    | cons i is =>
      simp only [pcsFrom, List.head?_cons, Option.some.injEq] at this
      exact this.symm
  · intro is' suffix' hb' hall' hsuf'
    obtain ⟨r', hr', _, _, hpcs', _⟩ :=
      Disassemble_lines InstructionSet remote w code is' suffix' (by rw [← hb']; exact hdec)
        hall' hsuf'
    have : r = r' := Option.some.inj (hr.symm.trans hr')
    subst this
    refine ⟨?_, hpcs'⟩
    rw [← List.length_map r.Lines Line.ProgramCounter, hpcs', pcsFrom_length]

/-- C10, witness: `PUSH1 80`, `PUSH4 18160ddd`, `STOP` give lines at 0, 2 and 7. -/
theorem Disassemble_program_counters_witness :
    ∃ r, (Disassemble exampleInstructionSet offlineRemote World.initial
        "60806318160ddd00").result = some r ∧
      r.Lines.map Line.ProgramCounter = [0, 2, 7] ∧
      (∀ l ∈ r.Lines, l.Inst = exampleInstructionSet
        (([0x60, 0x80, 0x63, 0x18, 0x16, 0x0d, 0xdd, 0x00] : Bytes).getD l.ProgramCounter 0)) :=
  let ⟨r, hr, _, hmem, _, _, _, hall⟩ :=
    Disassemble_program_counters exampleInstructionSet offlineRemote World.initial
      "60806318160ddd00" [0x60, 0x80, 0x63, 0x18, 0x16, 0x0d, 0xdd, 0x00] rfl
  ⟨r, hr,
    (hall [⟨0x60, [0x80]⟩, ⟨0x63, [0x18, 0x16, 0x0d, 0xdd]⟩, ⟨0x00, []⟩] [] rfl (by decide)
      (Or.inl rfl)).2,
    fun l hl => (hmem l hl).2⟩

/-! ## Disassemble: push arguments -/


theorem runInstrs_append (InstructionSet : Nat → Instruction) (remote : Remote)
    (a b : List Instr) :
    ∀ (pc : Nat) (st : DisState),
      runInstrs InstructionSet remote pc (a ++ b) st
        = runInstrs InstructionSet remote (pc + (assemble a).length) b
            (runInstrs InstructionSet remote pc a st) := by
  induction a with
  | nil => intro pc st; simp [runInstrs, assemble]
  | cons i a ih =>
    intro pc st
    have e : pc + (assemble (i :: a)).length = pc + 1 + i.args.length + (assemble a).length := by
      rw [assemble_cons, List.length_append, Instr.bytes_length]; omega
    rw [List.cons_append, runInstrs, ih, runInstrs, e]

theorem runInstrs_lines_length (InstructionSet : Nat → Instruction) (remote : Remote)
    (is : List Instr) :
    ∀ (pc : Nat) (st : DisState),
      ∃ L : List Line, (runInstrs InstructionSet remote pc is st).lines = st.lines ++ L ∧
        L.length = is.length := by
  induction is with
  | nil => intro pc st; exact ⟨[], by simp [runInstrs], rfl⟩
  | cons i is ih =>
    intro pc st
    obtain ⟨l, hl, _, _⟩ := disassembleBody_lines InstructionSet remote (i.iterator [] pc) st
    obtain ⟨L, hL, hlen⟩ := ih (pc + 1 + i.args.length)
      (disassembleBody InstructionSet remote (i.iterator [] pc) st)
    exact ⟨l :: L, by rw [runInstrs, hL, hl]; simp, by simp [hlen]⟩

/-- The line of the instruction that follows `pre` is the one its loop body appends. -/
theorem Disassemble_line_at (InstructionSet : Nat → Instruction) (remote : Remote) (w : World)
    (code : String) (pre : List Instr) (i : Instr) (post : List Instr) (suffix : Bytes) (l : Line)
    (hdec : hex.DecodeString code = .ok (assemble (pre ++ i :: post) ++ suffix))
    (hall : ∀ j ∈ pre ++ i :: post, j.complete = true)
    (hsuf : suffix = [] ∨ truncatedPush suffix = true)
    (hl : ∀ st : DisState,
      (disassembleBody InstructionSet remote (i.iterator [] (assemble pre).length) st).lines
        = st.lines ++ [l]) :
    ∃ r, (Disassemble InstructionSet remote w code).result = some r ∧
      r.Lines[pre.length]? = some l := by
  obtain ⟨hres, _, _⟩ := Disassemble_assemble InstructionSet remote w code _ suffix hdec hall hsuf
  refine ⟨_, hres, ?_⟩
  show (runInstrs InstructionSet remote 0 (pre ++ i :: post) (DisState.start w)).lines[pre.length]?
    = some l
  rw [runInstrs_append, runInstrs]
  obtain ⟨L₁, h₁, hlen₁⟩ := runInstrs_lines_length InstructionSet remote pre 0 (DisState.start w)
  obtain ⟨L₂, h₂, _⟩ := runInstrs_lines_length InstructionSet remote post
    (0 + (assemble pre).length + 1 + i.args.length)
    (disassembleBody InstructionSet remote (i.iterator [] (0 + (assemble pre).length))
      (runInstrs InstructionSet remote 0 pre (DisState.start w)))
  rw [h₂]
  have := hl (runInstrs InstructionSet remote 0 pre (DisState.start w))
  rw [Nat.zero_add] at *
  rw [this, h₁]
  simp [DisState.start, ← hlen₁]
  exact List.getElem_append_right (Nat.le_refl _) |>.trans (by simp)

theorem foldl_and_range (p : Nat → Bool) (n : Nat) :
    (List.range n).foldl (fun ok i => ok && p i) true = true ↔ ∀ i < n, p i = true := by
  induction n with
  | zero => simp
  | succ n ih =>
    rw [List.range_succ, List.foldl_append]
    simp only [List.foldl_cons, List.foldl_nil, Bool.and_eq_true, ih]
    constructor
    · rintro ⟨h1, h2⟩ i hi
      rcases Nat.lt_succ_iff_lt_or_eq.mp hi with h | rfl
      · exact h1 i h
      · exact h2
    · intro h
      exact ⟨fun i hi => h i (Nat.lt_succ_of_lt hi), h n (Nat.lt_succ_self n)⟩

theorem take_indexOf_zero (arg : Bytes) :
    arg.take (arg.indexOf 0) = arg.takeWhile (fun b => b != 0) := by
  induction arg with
  | nil => rfl
  | cons x xs ih =>
    by_cases hx : x = 0
    · subst hx; simp [List.indexOf_cons]
    · have : (x == 0) = false := by simpa using hx
      simp [List.indexOf_cons, this, hx, ih]

theorem getD_lt_iff_take (arg : Bytes) (n : Nat) (hn : n ≤ arg.length) :
    (∀ i < n, decide (arg.getD i 0 < 0x80) = true) ↔ ∀ b ∈ arg.take n, b < 0x80 := by
  constructor
  · intro h b hb
    obtain ⟨i, hi, rfl⟩ := List.getElem_of_mem hb
    have hi' : i < n := by
      rw [List.length_take] at hi; omega
    have := h i hi'
    rw [List.getElem_take]
    have hlt : i < arg.length := by omega
    simpa [List.getD_eq_getElem?_getD, List.getElem?_eq_getElem hlt] using this
  · intro h i hi
    have hlt : i < arg.length := by omega
    have hmem : arg[i] ∈ arg.take n := by
      rw [List.mem_iff_getElem]
      exact ⟨i, by rw [List.length_take]; omega, by rw [List.getElem_take]⟩
    simpa [List.getD_eq_getElem?_getD, List.getElem?_eq_getElem hlt] using h _ hmem

theorem push32Text_no_zero (arg : Bytes) (h0 : 0 ∉ arg) : push32Text arg = arg := by
  have hpos : bytes.IndexByte arg 0 = -1 := by simp [bytes.IndexByte, h0]
  simp [push32Text, hpos]

theorem push32Text_printable (arg : Bytes) (h0 : 0 ∈ arg)
    (hlt : ∀ b ∈ arg.takeWhile (fun b => b != 0), b < 0x80) :
    push32Text arg = arg.takeWhile (fun b => b != 0) := by
  have hpos : bytes.IndexByte arg 0 = (arg.indexOf 0 : Int) := by simp [bytes.IndexByte, h0]
  have hle : arg.indexOf 0 ≤ arg.length := List.indexOf_le_length
  have hok := (foldl_and_range (fun i => decide (arg.getD i 0 < 0x80)) (arg.indexOf 0)).mpr
    ((getD_lt_iff_take arg _ hle).mpr (by rw [take_indexOf_zero]; exact hlt))
  simp only [push32Text, hpos, Int.toNat_ofNat, hok, if_true, take_indexOf_zero]
  simp

theorem push32Text_high_bit (arg : Bytes) (h0 : 0 ∈ arg)
    (hhi : ∃ b ∈ arg.takeWhile (fun b => b != 0), 0x80 ≤ b) :
    push32Text arg = [] := by
  have hpos : bytes.IndexByte arg 0 = (arg.indexOf 0 : Int) := by simp [bytes.IndexByte, h0]
  have hle : arg.indexOf 0 ≤ arg.length := List.indexOf_le_length
  have hok : ¬ (List.range (arg.indexOf 0)).foldl
      (fun ok i => ok && decide (arg.getD i 0 < 0x80)) true = true := by
    intro h
    have := (getD_lt_iff_take arg _ hle).mp
      ((foldl_and_range (fun i => decide (arg.getD i 0 < 0x80)) (arg.indexOf 0)).mp h)
    rw [take_indexOf_zero] at this
    obtain ⟨b, hb, hge⟩ := hhi
    have := this b hb
    omega
  unfold push32Text
  rw [hpos, Int.toNat_ofNat, if_neg hok]

theorem disassembleBody_PUSH32 (InstructionSet : Nat → Instruction) (remote : Remote)
    (arg : Bytes) (pc : Nat) (st : DisState) (h0 : 0 < arg.length) :
    (disassembleBody InstructionSet remote (Instr.iterator ⟨vm.PUSH32, arg⟩ [] pc) st).lines
      = st.lines ++ [{ Inst := InstructionSet vm.PUSH32, ProgramCounter := pc,
                       Args := [stringBytes (hex.EncodeToString (push32Text arg))],
                       Comment := "" }] := by
  have hne : ¬ (arg.length = 4 ∧ vm.PUSH32 = vm.PUSH4) := by
    intro h; exact absurd h.2 (by decide)
  simp only [disassembleBody, Instr.iterator, instructionIterator.Arg, instructionIterator.Op,
    instructionIterator.PC, show vm.IsPush vm.PUSH32 = true from by decide, if_true, h0, hne,
    if_false, push32Text]

theorem disassembleBody_other_push (InstructionSet : Nat → Instruction) (remote : Remote)
    (i : Instr) (pc : Nat) (st : DisState) (h4 : i.op ≠ vm.PUSH4) (h32 : i.op ≠ vm.PUSH32) :
    (disassembleBody InstructionSet remote (i.iterator [] pc) st).lines
      = st.lines ++ [{ Inst := InstructionSet i.op, ProgramCounter := pc, Args := [],
                       Comment := "" }] := by
  simp only [disassembleBody, Instr.iterator, instructionIterator.Arg, instructionIterator.Op,
    instructionIterator.PC]
  split
  · rfl
  · split
    · rw [if_neg (fun h => h4 h.2)]
    · rfl


theorem EncodeToString_hextable (src : Bytes) :
    ∀ c ∈ (hex.EncodeToString src).data, c ∈ hextable := by
  have hget : ∀ n : Nat, hextable.getD n '0' ∈ hextable := by
    intro n
    rw [List.getD_eq_getElem?_getD]
    cases h : hextable[n]? with
    | none => decide
    | some x => exact List.mem_iff_getElem?.mpr ⟨n, h⟩
  intro c hc
  simp only [hex.EncodeToString, List.mem_flatMap, List.mem_cons, List.mem_singleton,
    List.not_mem_nil, or_false] at hc
  obtain ⟨v, _, rfl | rfl⟩ := hc
  · exact hget _
  · exact hget _

theorem DecodeString_of_toOption (s : String) (b : Bytes)
    (h : (hex.DecodeString s).toOption = some b) : hex.DecodeString s = .ok b := by
  cases hd : hex.DecodeString s with
  | error e => rw [hd] at h; simp [Except.toOption] at h
  | ok x => rw [hd] at h; simp [Except.toOption] at h; rw [h]

theorem complete_PUSH32 (arg : Bytes) (h : Instr.complete ⟨vm.PUSH32, arg⟩ = true) :
    arg.length = 32 := by
  simpa [Instr.complete, pushWidth, vm.IsPush, vm.PUSH32, vm.PUSH1] using h



theorem EncodeToString_length (src : Bytes) :
    (hex.EncodeToString src).length = 2 * src.length := by
  show (src.flatMap (fun v => [hextable.getD (v / 16) '0', hextable.getD (v % 16) '0'])).length
    = 2 * src.length
  induction src with
  | nil => rfl
  | cons x xs ih =>
    rw [List.flatMap_cons, List.length_append, ih]
    simp only [List.length_cons, List.length_nil]
    omega


/-- C11 (amended). For every 32-byte `PUSH32` argument that contains no zero byte,
whatever its bytes are, `Disassemble` takes the whole argument as text: the decoded
line has exactly one argument, the lower-case hexadecimal encoding of all 32 bytes,
and an empty annotation. -/
theorem Disassemble_PUSH32_no_zero (InstructionSet : Nat → Instruction) (remote : Remote)
    (w : World) (code : String) (pre : List Instr) (arg : Bytes) (post : List Instr)
    (suffix : Bytes)
    (hdec : hex.DecodeString code = .ok (assemble (pre ++ ⟨vm.PUSH32, arg⟩ :: post) ++ suffix))
    (hall : ∀ j ∈ pre ++ ⟨vm.PUSH32, arg⟩ :: post, j.complete = true)
    (hsuf : suffix = [] ∨ truncatedPush suffix = true)
    (h0 : 0 ∉ arg) :
    arg.length = 32 ∧
    (∃ r, (Disassemble InstructionSet remote w code).result = some r ∧
      r.Lines[pre.length]? = some
        { Inst := InstructionSet vm.PUSH32, ProgramCounter := (assemble pre).length,
          Args := [stringBytes (hex.EncodeToString arg)], Comment := "" }) ∧
    (hex.EncodeToString arg).length = 64 ∧
    (∀ c ∈ (hex.EncodeToString arg).data, c ∈ "0123456789abcdef".data) := by
  have hlen := complete_PUSH32 arg (hall _ (by simp))
  refine ⟨hlen, ?_, ?_, EncodeToString_hextable _⟩
  · refine Disassemble_line_at InstructionSet remote w code pre _ post suffix _ hdec hall hsuf ?_
    intro st
    rw [disassembleBody_PUSH32 InstructionSet remote arg _ st (by omega),
      push32Text_no_zero arg h0]
  · rw [EncodeToString_length, hlen]

/-- C11, witness: `PUSH1 7f` followed by a `PUSH32` of thirty-two bytes `0x41`. -/
theorem Disassemble_PUSH32_no_zero_witness :
    (List.replicate 32 0x41 : Bytes).length = 32 ∧
    (∃ r, (Disassemble exampleInstructionSet offlineRemote World.initial
        "607f7f4141414141414141414141414141414141414141414141414141414141414141").result = some r ∧
      r.Lines[1]? = some
        { Inst := exampleInstructionSet vm.PUSH32, ProgramCounter := 2,
          Args := [stringBytes (hex.EncodeToString (List.replicate 32 0x41))],
          Comment := "" }) :=
  let h := Disassemble_PUSH32_no_zero exampleInstructionSet offlineRemote World.initial
    "607f7f4141414141414141414141414141414141414141414141414141414141414141"
    [⟨0x60, [0x7f]⟩] (List.replicate 32 0x41) [] []
    (DecodeString_of_toOption _ _ (by decide)) (by decide) (Or.inl rfl) (by decide)
  ⟨h.1, h.2.1⟩

/-- C11, counterexample: the `PUSH32` argument of thirty-two bytes `0x41` has no zero
byte, yet its line carries the hexadecimal encoding of the whole argument taken as
text. -/
theorem PUSH32_without_zero_is_encoded :
    (0 : Nat) ∉ List.replicate 32 0x41 ∧
    (Disassemble exampleInstructionSet offlineRemote World.initial
        "7f4141414141414141414141414141414141414141414141414141414141414141").result.map (fun r => r.Lines.map Line.Args)
      = some [[stringBytes "4141414141414141414141414141414141414141414141414141414141414141"]] := by
  decide

/-- What the `PUSH32` branch does in general where it should keep the raw bytes: for
every 32-byte `PUSH32` argument in which some byte before the first zero byte has its
high bit set (is >= 0x80), the decoded line has exactly one argument, the empty
string, and an empty annotation. -/
theorem Disassemble_PUSH32_high_bit (InstructionSet : Nat → Instruction) (remote : Remote)
    (w : World) (code : String) (pre : List Instr) (arg : Bytes) (post : List Instr)
    (suffix : Bytes)
    (hdec : hex.DecodeString code = .ok (assemble (pre ++ ⟨vm.PUSH32, arg⟩ :: post) ++ suffix))
    (hall : ∀ j ∈ pre ++ ⟨vm.PUSH32, arg⟩ :: post, j.complete = true)
    (hsuf : suffix = [] ∨ truncatedPush suffix = true)
    (h0 : 0 ∈ arg) (hhi : ∃ b ∈ arg.takeWhile (fun b => b != 0), 0x80 ≤ b) :
    arg.length = 32 ∧
    ∃ r, (Disassemble InstructionSet remote w code).result = some r ∧
      r.Lines[pre.length]? = some
        { Inst := InstructionSet vm.PUSH32, ProgramCounter := (assemble pre).length,
          Args := [stringBytes ""], Comment := "" } := by
  have hlen := complete_PUSH32 arg (hall _ (by simp))
  refine ⟨hlen, ?_⟩
  refine Disassemble_line_at InstructionSet remote w code pre _ post suffix _ hdec hall hsuf ?_
  intro st
  rw [disassembleBody_PUSH32 InstructionSet remote arg _ st (by omega),
    push32Text_high_bit arg h0 hhi]
  rfl

/-- An instance: `PUSH1 7f` followed by a `PUSH32` of `0x80` and thirty-one zero bytes. -/
theorem Disassemble_PUSH32_high_bit_witness :
    (0x80 :: List.replicate 31 0 : Bytes).length = 32 ∧
    ∃ r, (Disassemble exampleInstructionSet offlineRemote World.initial
        "607f7f8000000000000000000000000000000000000000000000000000000000000000").result = some r ∧
      r.Lines[1]? = some
        { Inst := exampleInstructionSet vm.PUSH32, ProgramCounter := 2,
          Args := [stringBytes ""], Comment := "" } :=
  Disassemble_PUSH32_high_bit exampleInstructionSet offlineRemote World.initial
    "607f7f8000000000000000000000000000000000000000000000000000000000000000"
    [⟨0x60, [0x7f]⟩] (0x80 :: List.replicate 31 0) [] []
    (DecodeString_of_toOption _ _ (by decide)) (by decide) (Or.inl rfl) (by decide)
    ⟨0x80, by decide, by decide⟩

/-- C12. The code loses the raw bytes the claim says are kept: the `PUSH32` arguments
`80 00 … 00` and `81 00 … 00` differ and each has a byte >= 0x80 before its first zero
byte, yet `Disassemble` gives both lines the same single argument, the empty string,
and none of the 32 bytes; a `PUSH32` argument without a zero byte, by contrast, keeps
all its 32 bytes, hex-encoded. -/
theorem PUSH32_raw_bytes_dropped :
    (0x80 :: List.replicate 31 0 : Bytes) ≠ 0x81 :: List.replicate 31 0 ∧
    (Disassemble exampleInstructionSet offlineRemote World.initial
        "7f8000000000000000000000000000000000000000000000000000000000000000").result.map (fun r => r.Lines.map Line.Args)
      = some [[stringBytes ""]] ∧
    (Disassemble exampleInstructionSet offlineRemote World.initial
        "7f8100000000000000000000000000000000000000000000000000000000000000").result.map (fun r => r.Lines.map Line.Args)
      = some [[stringBytes ""]] ∧
    (Disassemble exampleInstructionSet offlineRemote World.initial
        "7f4141414141414141414141414141414141414141414141414141414141414141").result.map (fun r => r.Lines.map Line.Args)
      = some [[stringBytes "4141414141414141414141414141414141414141414141414141414141414141"]] := by
  decide


/-- C13. For every 32-byte `PUSH32` argument that contains a zero byte and whose bytes
before the first zero byte are all below 0x80, the decoded line has exactly one
argument, the lower-case hexadecimal encoding of the bytes before the first zero byte
(the empty string when the first byte is zero), and an empty annotation. -/
theorem Disassemble_PUSH32_printable (InstructionSet : Nat → Instruction) (remote : Remote)
    (w : World) (code : String) (pre : List Instr) (arg : Bytes) (post : List Instr)
    (suffix : Bytes)
    (hdec : hex.DecodeString code = .ok (assemble (pre ++ ⟨vm.PUSH32, arg⟩ :: post) ++ suffix))
    (hall : ∀ j ∈ pre ++ ⟨vm.PUSH32, arg⟩ :: post, j.complete = true)
    (hsuf : suffix = [] ∨ truncatedPush suffix = true)
    (h0 : 0 ∈ arg) (hlt : ∀ b ∈ arg.takeWhile (fun b => b != 0), b < 0x80) :
    arg.length = 32 ∧
    (∃ r, (Disassemble InstructionSet remote w code).result = some r ∧
      r.Lines[pre.length]? = some
        { Inst := InstructionSet vm.PUSH32, ProgramCounter := (assemble pre).length,
          Args := [stringBytes (hex.EncodeToString (arg.takeWhile (fun b => b != 0)))],
          Comment := "" }) ∧
    (∀ c ∈ (hex.EncodeToString (arg.takeWhile (fun b => b != 0))).data,
      c ∈ "0123456789abcdef".data) ∧
    (arg.head? = some 0 → hex.EncodeToString (arg.takeWhile (fun b => b != 0)) = "") := by
  have hlen := complete_PUSH32 arg (hall _ (by simp))
  refine ⟨hlen, ?_, EncodeToString_hextable _, ?_⟩
  · refine Disassemble_line_at InstructionSet remote w code pre _ post suffix _ hdec hall hsuf ?_
    intro st
    rw [disassembleBody_PUSH32 InstructionSet remote arg _ st (by omega),
      push32Text_printable arg h0 hlt]
  · intro hhead
    cases arg with
    | nil => simp at hhead
    | cons x xs =>
      simp only [List.head?_cons, Option.some.injEq] at hhead
      subst hhead
      rfl

/-- C13, witness: `PUSH1 7f` followed by a `PUSH32` of `48 69` and thirty zero bytes. -/
theorem Disassemble_PUSH32_printable_witness :
    ([0x48, 0x69] ++ List.replicate 30 0 : Bytes).length = 32 ∧
    (∃ r, (Disassemble exampleInstructionSet offlineRemote World.initial
        "607f7f4869000000000000000000000000000000000000000000000000000000000000").result
          = some r ∧
      r.Lines[1]? = some
        { Inst := exampleInstructionSet vm.PUSH32, ProgramCounter := 2,
          Args := [stringBytes "4869"], Comment := "" }) :=
  let h := Disassemble_PUSH32_printable exampleInstructionSet offlineRemote World.initial
    "607f7f4869000000000000000000000000000000000000000000000000000000000000"
    [⟨0x60, [0x7f]⟩] ([0x48, 0x69] ++ List.replicate 30 0) [] []
    (DecodeString_of_toOption _ _ (by decide)) (by decide) (Or.inl rfl)
    (by decide) (by decide)
  ⟨h.1, h.2.1⟩

/-- What `Disassemble` does in general where it should record the trailing bytes: for
every push instruction other than PUSH4 and PUSH32 (PUSH1..PUSH3 and PUSH5..PUSH31) in
a decoded bytecode, the decoded line's argument list is empty, although the
instruction has `opcode - 0x5f` trailing bytes, and its annotation is empty. -/
theorem Disassemble_other_push (InstructionSet : Nat → Instruction) (remote : Remote)
    (w : World) (code : String) (pre : List Instr) (i : Instr) (post : List Instr)
    (suffix : Bytes)
    (hdec : hex.DecodeString code = .ok (assemble (pre ++ i :: post) ++ suffix))
    (hall : ∀ j ∈ pre ++ i :: post, j.complete = true)
    (hsuf : suffix = [] ∨ truncatedPush suffix = true)
    (hpush : vm.IsPush i.op = true) (h4 : i.op ≠ vm.PUSH4) (h32 : i.op ≠ vm.PUSH32) :
    i.args.length = i.op - 0x5f ∧ i.args ≠ [] ∧
    ∃ r, (Disassemble InstructionSet remote w code).result = some r ∧
      r.Lines[pre.length]? = some
        { Inst := InstructionSet i.op, ProgramCounter := (assemble pre).length,
          Args := [], Comment := "" } := by
  have hlen : i.args.length = i.op - 0x5f := by
    have := hall i (by simp)
    simpa [Instr.complete, pushWidth, hpush] using this
  have hop : 0x60 ≤ i.op := by
    simp only [vm.IsPush, vm.PUSH1, Bool.and_eq_true, decide_eq_true_eq] at hpush
    exact hpush.1
  refine ⟨hlen, ?_, ?_⟩
  · intro h
    rw [h] at hlen
    simp only [List.length_nil] at hlen
    omega
  · exact Disassemble_line_at InstructionSet remote w code pre _ post suffix _ hdec hall hsuf
      (fun st => disassembleBody_other_push InstructionSet remote i _ st h4 h32)

/-- An instance: `PUSH4 18160ddd` followed by `PUSH1 80`. -/
theorem Disassemble_other_push_witness :
    ([0x80] : Bytes).length = 0x60 - 0x5f ∧ ([0x80] : Bytes) ≠ [] ∧
    ∃ r, (Disassemble exampleInstructionSet offlineRemote World.initial
        "6318160ddd6080").result = some r ∧
      r.Lines[1]? = some
        { Inst := exampleInstructionSet 0x60, ProgramCounter := 5, Args := [], Comment := "" } :=
  Disassemble_other_push exampleInstructionSet offlineRemote World.initial "6318160ddd6080"
    [⟨0x63, [0x18, 0x16, 0x0d, 0xdd]⟩] ⟨0x60, [0x80]⟩ [] []
    (DecodeString_of_toOption _ _ (by decide)) (by decide) (Or.inl rfl) (by decide) (by decide)
    (by decide)

/-- C14. The code loses the trailing bytes the claim says are recorded: in the
bytecode `60 80 61 01 02` the lines of `PUSH1 80` and `PUSH2 0102` have no argument at
all, not the trailing bytes `80` and `01 02`, while the line of a `PUSH4` in
`63 18 16 0d dd` carries its four bytes verbatim. -/
theorem PUSH1_PUSH2_without_args :
    (Disassemble exampleInstructionSet offlineRemote World.initial
        "6080610102").result.map (fun r => r.Lines.map Line.Args) = some [[], []] ∧
    (Disassemble exampleInstructionSet offlineRemote World.initial
        "6080610102").result.map (fun r => r.Lines.map Line.ProgramCounter) = some [0, 2] ∧
    (Disassemble exampleInstructionSet offlineRemote World.initial
        "6318160ddd").result.map (fun r => r.Lines.map Line.Args)
      = some [[[0x18, 0x16, 0x0d, 0xdd]]] := by
  decide

/-! ## The selector cache -/

theorem getSigs_hit (remote : Remote) (w : World) (fourBytes : Bytes) (sigs : List String)
    (h : w.fourBytesCache (hex.EncodeToString fourBytes) = some sigs) :
    getSigsFromFourBytes remote w fourBytes
      = (sigs, { w with calls := w.calls ++ [fourBytes] }) := by
  simp only [getSigsFromFourBytes, h]

theorem getSigs_miss (remote : Remote) (w : World) (fourBytes : Bytes)
    (h : w.fourBytesCache (hex.EncodeToString fourBytes) = none) :
    ∃ sigs : List String,
      getSigsFromFourBytes remote w fourBytes
        = (sigs, { fourBytesCache := w.fourBytesCache.set (hex.EncodeToString fourBytes) sigs,
                   requests := w.requests ++ [fourBytes],
                   calls := w.calls ++ [fourBytes] }) ∧
      ((remote w.requests.length fourBytes = .getFailed ∨
          remote w.requests.length fourBytes = .decodeFailed) → sigs = []) ∧
      (∀ b4 : fourByteDirectoryResponse, remote w.requests.length fourBytes = .reply b4 →
        sigs = b4.Results.map (fun b4rec => b4rec.TextSignature)) := by
  simp only [getSigsFromFourBytes, h]
  cases remote w.requests.length fourBytes with
  | getFailed => exact ⟨[], rfl, fun _ => rfl, fun b4 hb => by cases hb⟩
  | decodeFailed => exact ⟨[], rfl, fun _ => rfl, fun b4 hb => by cases hb⟩
  | reply b4 =>
    refine ⟨_, rfl, ?_, ?_⟩
    · rintro (hb | hb) <;> cases hb
    · intro b hb
      cases hb
      rfl

theorem getSigs_stored (remote : Remote) (w : World) (fourBytes : Bytes) :
    (getSigsFromFourBytes remote w fourBytes).2.fourBytesCache (hex.EncodeToString fourBytes)
      = some (getSigsFromFourBytes remote w fourBytes).1 := by
  cases h : w.fourBytesCache (hex.EncodeToString fourBytes) with
  | some sigs => rw [getSigs_hit remote w fourBytes sigs h]; exact h
  | none =>
    obtain ⟨sigs, hs, _⟩ := getSigs_miss remote w fourBytes h
    rw [hs]; simp [GoMap.set]

theorem getSigs_other (remote : Remote) (w : World) (fourBytes : Bytes) (k : String)
    (hk : k ≠ hex.EncodeToString fourBytes) :
    (getSigsFromFourBytes remote w fourBytes).2.fourBytesCache k = w.fourBytesCache k := by
  cases h : w.fourBytesCache (hex.EncodeToString fourBytes) with
  | some sigs => rw [getSigs_hit remote w fourBytes sigs h]
  | none =>
    obtain ⟨sigs, hs, _⟩ := getSigs_miss remote w fourBytes h
    rw [hs]; simp [GoMap.set, hk]

theorem getSigs_kept (remote : Remote) (w : World) (fourBytes : Bytes) (k : String)
    (sigs : List String) (hk : w.fourBytesCache k = some sigs) :
    (getSigsFromFourBytes remote w fourBytes).2.fourBytesCache k = some sigs := by
  by_cases e : k = hex.EncodeToString fourBytes
  · subst e
    rw [getSigs_hit remote w fourBytes sigs hk]; exact hk
  · rw [getSigs_other remote w fourBytes k e, hk]

theorem Reachable_builtin (w : World) (h : Reachable w) :
    ∀ (k : String) (sigs : List String), Evmtools.fourBytesCache k = some sigs →
      w.fourBytesCache k = some sigs := by
  induction h with
  | initial => intro k sigs hk; exact hk
  | call remote w fourBytes _ ih =>
    intro k sigs hk
    exact getSigs_kept remote w fourBytes k sigs (ih k sigs hk)


/-! ## Disassemble: signatures found -/

theorem recordSignatures_world (hexArg : String) (sigs : List String) :
    ∀ (comment : String) (st : DisState),
      (recordSignatures hexArg sigs (comment, st)).2.world = st.world := by
  induction sigs with
  | nil => intro _ _; rfl
  | cons sig rest ih => intro comment st; rw [recordSignatures, ih]

theorem recordSignatures_sigs (hexArg : String) (sigs : List String) (s : String) :
    ∀ (comment : String) (st : DisState),
      (recordSignatures hexArg sigs (comment, st)).2.sigs.has s = true
        ↔ (st.sigs.has s = true ∨ s ∈ sigs) := by
  induction sigs with
  | nil => intro _ _; simp [recordSignatures]
  | cons sig rest ih =>
    intro comment st
    rw [recordSignatures, ih]
    by_cases e : s = sig
    · simp [GoMap.has, GoMap.set, e]
    · simp [GoMap.has, GoMap.set, e]

theorem recordSignatures_memo_other (hexArg : String) (sigs : List String) (k : String)
    (hk : k ≠ hexArg) :
    ∀ (comment : String) (st : DisState),
      (recordSignatures hexArg sigs (comment, st)).2.fourBytesToSigs k
        = st.fourBytesToSigs k := by
  induction sigs with
  | nil => intro _ _; rfl
  | cons sig rest ih =>
    intro comment st
    rw [recordSignatures, ih]
    simp [GoMap.set, hk]

theorem recordSignatures_memo_self (hexArg : String) (sigs : List String) :
    ∀ (comment : String) (st : DisState), sigs ≠ [] →
      (recordSignatures hexArg sigs (comment, st)).2.fourBytesToSigs hexArg
        = some ((st.fourBytesToSigs hexArg).getD [] ++ sigs) := by
  induction sigs with
  | nil => intro _ _ h; exact absurd rfl h
  | cons sig rest ih =>
    intro comment st _
    rw [recordSignatures]
    by_cases hr : rest = []
    · subst hr
      simp [recordSignatures, GoMap.set]
    · rw [ih _ _ hr]
      simp [GoMap.set]

theorem disassembleBody_not_PUSH4 (InstructionSet : Nat → Instruction) (remote : Remote)
    (i : Instr) (pc : Nat) (st : DisState) (h : ¬ (i.op = vm.PUSH4 ∧ i.args.length = 4)) :
    (disassembleBody InstructionSet remote (i.iterator [] pc) st).sigs = st.sigs ∧
    (disassembleBody InstructionSet remote (i.iterator [] pc) st).fourBytesToSigs
      = st.fourBytesToSigs ∧
    (disassembleBody InstructionSet remote (i.iterator [] pc) st).world = st.world := by
  simp only [disassembleBody, Instr.iterator, instructionIterator.Arg, instructionIterator.Op,
    instructionIterator.PC]
  split
  · exact ⟨rfl, rfl, rfl⟩
  · rename_i arg harg
    have harg' : arg = i.args := by
      by_cases hp : vm.IsPush i.op = true
      · simp [hp] at harg; exact harg.symm
      · simp [hp] at harg
    subst harg'
    split
    · rw [if_neg (fun hh => h ⟨hh.2, hh.1⟩)]
      split <;> exact ⟨rfl, rfl, rfl⟩
    · exact ⟨rfl, rfl, rfl⟩

theorem disassembleBody_PUSH4_known (InstructionSet : Nat → Instruction) (remote : Remote)
    (i : Instr) (pc : Nat) (st : DisState) (hop : i.op = vm.PUSH4) (hlen : i.args.length = 4)
    (hm : st.fourBytesToSigs.has (hex.EncodeToString i.args) = true) :
    (disassembleBody InstructionSet remote (i.iterator [] pc) st).sigs = st.sigs ∧
    (disassembleBody InstructionSet remote (i.iterator [] pc) st).fourBytesToSigs
      = st.fourBytesToSigs ∧
    (disassembleBody InstructionSet remote (i.iterator [] pc) st).world = st.world ∧
    (disassembleBody InstructionSet remote (i.iterator [] pc) st).lines
      = st.lines ++ [{ Inst := InstructionSet i.op, ProgramCounter := pc, Args := [i.args],
                       Comment := strings.Join
                         ((st.fourBytesToSigs (hex.EncodeToString i.args)).getD []) ", " }] := by
  have hpush : vm.IsPush vm.PUSH4 = true := by decide
  simp only [disassembleBody, Instr.iterator, instructionIterator.Arg, instructionIterator.Op,
    instructionIterator.PC, hpush, if_true, hlen, hop, hm]
  simp

theorem disassembleBody_PUSH4_fresh (InstructionSet : Nat → Instruction) (remote : Remote)
    (i : Instr) (pc : Nat) (st : DisState) (hop : i.op = vm.PUSH4) (hlen : i.args.length = 4)
    (hm : st.fourBytesToSigs.has (hex.EncodeToString i.args) = false) :
    (disassembleBody InstructionSet remote (i.iterator [] pc) st).sigs
      = (recordSignatures (hex.EncodeToString i.args)
          (getSigsFromFourBytes remote st.world i.args).1
          ("", { st with world := (getSigsFromFourBytes remote st.world i.args).2 })).2.sigs ∧
    (disassembleBody InstructionSet remote (i.iterator [] pc) st).fourBytesToSigs
      = (recordSignatures (hex.EncodeToString i.args)
          (getSigsFromFourBytes remote st.world i.args).1
          ("", { st with world := (getSigsFromFourBytes remote st.world i.args).2
            })).2.fourBytesToSigs ∧
    (disassembleBody InstructionSet remote (i.iterator [] pc) st).world
      = (getSigsFromFourBytes remote st.world i.args).2 ∧
    (disassembleBody InstructionSet remote (i.iterator [] pc) st).lines
      = st.lines ++ [{ Inst := InstructionSet i.op, ProgramCounter := pc, Args := [i.args],
                       Comment := (recordSignatures (hex.EncodeToString i.args)
                         (getSigsFromFourBytes remote st.world i.args).1
                         ("", { st with world :=
                            (getSigsFromFourBytes remote st.world i.args).2 })).1 }] := by
  have hpush : vm.IsPush vm.PUSH4 = true := by decide
  simp only [disassembleBody, Instr.iterator, instructionIterator.Arg, instructionIterator.Op,
    instructionIterator.PC, hpush, if_true, hlen, hop, hm]
  simp [recordSignatures_world, recordSignatures_lines]

theorem FoundInv_step (InstructionSet : Nat → Instruction) (remote : Remote)
    (i : Instr) (pc : Nat) (st : DisState) (seen : List Instr) (h : FoundInv st seen) :
    FoundInv (disassembleBody InstructionSet remote (i.iterator [] pc) st) (seen ++ [i]) := by
  obtain ⟨h1, h2, h3⟩ := h
  by_cases h4 : i.op = vm.PUSH4 ∧ i.args.length = 4
  · obtain ⟨hop, hlen⟩ := h4
    cases hm : st.fourBytesToSigs.has (hex.EncodeToString i.args) with
    | true =>
      obtain ⟨es, em, ew, _⟩ :=
        disassembleBody_PUSH4_known InstructionSet remote i pc st hop hlen hm
      obtain ⟨L, hL⟩ : ∃ L, st.fourBytesToSigs (hex.EncodeToString i.args) = some L :=
        Option.isSome_iff_exists.mp hm
      refine ⟨?_, ?_, ?_⟩
      · rw [es, em, ew]; exact h1
      · rw [es, ew]
        intro s hs
        obtain ⟨j, hj, r⟩ := h2 s hs
        exact ⟨j, List.mem_append_left _ hj, r⟩
      · rw [es, ew]
        intro j hj hjop hjlen
        rcases List.mem_append.mp hj with hj | hj
        · exact h3 j hj hjop hjlen
        · rw [List.mem_singleton] at hj
          subst hj
          exact ⟨L, (h1 _ L hL).1, (h1 _ L hL).2⟩
    | false =>
      obtain ⟨es, em, ew, _⟩ :=
        disassembleBody_PUSH4_fresh InstructionSet remote i pc st hop hlen hm
      have hnone : st.fourBytesToSigs (hex.EncodeToString i.args) = none := by
        simpa [GoMap.has] using hm
      have hstored := getSigs_stored remote st.world i.args
      have hmono : ∀ s, st.sigs.has s = true →
          (disassembleBody InstructionSet remote (i.iterator [] pc) st).sigs.has s = true := by
        intro s hs
        rw [es, recordSignatures_sigs]
        exact Or.inl hs
      have hnew : ∀ s ∈ (getSigsFromFourBytes remote st.world i.args).1,
          (disassembleBody InstructionSet remote (i.iterator [] pc) st).sigs.has s = true := by
        intro s hs
        rw [es, recordSignatures_sigs]
        exact Or.inr hs
      refine ⟨?_, ?_, ?_⟩
      · intro k L hk
        rw [em] at hk
        rw [ew]
        by_cases e : k = hex.EncodeToString i.args
        · subst e
          by_cases hempty : (getSigsFromFourBytes remote st.world i.args).1 = []
          · rw [hempty] at hk
            simp only [recordSignatures] at hk
            rw [hnone] at hk
            cases hk
          · rw [recordSignatures_memo_self _ _ _ _ hempty] at hk
            simp only [hnone, Option.getD_none, List.nil_append, Option.some.injEq] at hk
            subst hk
            exact ⟨hstored, hnew⟩
        · rw [recordSignatures_memo_other _ _ _ e] at hk
          obtain ⟨hc, hs⟩ := h1 k L hk
          exact ⟨getSigs_kept remote st.world i.args k L hc, fun s hsL => hmono s (hs s hsL)⟩
      · intro s hs
        rw [es, recordSignatures_sigs] at hs
        rw [ew]
        rcases hs with hs | hs
        · obtain ⟨j, hj, hjop, hjlen, L, hL, hsL⟩ := h2 s hs
          exact ⟨j, List.mem_append_left _ hj, hjop, hjlen, L,
            getSigs_kept remote st.world i.args _ L hL, hsL⟩
        · exact ⟨i, by simp, hop, hlen, _, hstored, hs⟩
      · intro j hj hjop hjlen
        rw [ew]
        rcases List.mem_append.mp hj with hj | hj
        · obtain ⟨L, hL, hs⟩ := h3 j hj hjop hjlen
          exact ⟨L, getSigs_kept remote st.world i.args _ L hL, fun s hsL => hmono s (hs s hsL)⟩
        · rw [List.mem_singleton] at hj
          subst hj
          exact ⟨_, hstored, hnew⟩
  · obtain ⟨es, em, ew⟩ := disassembleBody_not_PUSH4 InstructionSet remote i pc st h4
    refine ⟨?_, ?_, ?_⟩
    · rw [es, em, ew]; exact h1
    · rw [es, ew]
      intro s hs
      obtain ⟨j, hj, r⟩ := h2 s hs
      exact ⟨j, List.mem_append_left _ hj, r⟩
    · rw [es, ew]
      intro j hj hjop hjlen
      rcases List.mem_append.mp hj with hj | hj
      · exact h3 j hj hjop hjlen
      · rw [List.mem_singleton] at hj
        subst hj
        exact absurd ⟨hjop, hjlen⟩ h4

theorem FoundInv_runInstrs (InstructionSet : Nat → Instruction) (remote : Remote)
    (is : List Instr) :
    ∀ (pc : Nat) (st : DisState) (seen : List Instr), FoundInv st seen →
      FoundInv (runInstrs InstructionSet remote pc is st) (seen ++ is) := by
  induction is with
  | nil => intro pc st seen h; simpa [runInstrs] using h
  | cons i is ih =>
    intro pc st seen h
    have := ih (pc + 1 + i.args.length) _ _ (FoundInv_step InstructionSet remote i pc st seen h)
    rw [runInstrs]
    simpa using this

theorem FoundInv_start (w : World) : FoundInv (DisState.start w) [] := by
  refine ⟨?_, ?_, ?_⟩
  · intro k L hk; simp [DisState.start, GoMap.empty] at hk
  · intro s hs; simp [DisState.start, GoMap.empty, GoMap.has] at hs
  · intro i hi; simp at hi

theorem complete_PUSH4 (i : Instr) (hop : i.op = vm.PUSH4) (h : i.complete = true) :
    i.args.length = 4 := by
  simpa [Instr.complete, pushWidth, vm.IsPush, vm.PUSH32, vm.PUSH1, vm.PUSH4, hop] using h

theorem Reachable_disassembleBody (InstructionSet : Nat → Instruction) (remote : Remote)
    (i : Instr) (pc : Nat) (st : DisState) (h : Reachable st.world) :
    Reachable (disassembleBody InstructionSet remote (i.iterator [] pc) st).world := by
  by_cases h4 : i.op = vm.PUSH4 ∧ i.args.length = 4
  · cases hm : st.fourBytesToSigs.has (hex.EncodeToString i.args) with
    | true =>
      rw [(disassembleBody_PUSH4_known InstructionSet remote i pc st h4.1 h4.2 hm).2.2.1]
      exact h
    | false =>
      rw [(disassembleBody_PUSH4_fresh InstructionSet remote i pc st h4.1 h4.2 hm).2.2.1]
      exact Reachable.call remote st.world i.args h
  · rw [(disassembleBody_not_PUSH4 InstructionSet remote i pc st h4).2.2]
    exact h

theorem Reachable_runInstrs (InstructionSet : Nat → Instruction) (remote : Remote)
    (is : List Instr) :
    ∀ (pc : Nat) (st : DisState), Reachable st.world →
      Reachable (runInstrs InstructionSet remote pc is st).world := by
  induction is with
  | nil => intro pc st h; exact h
  | cons i is ih =>
    intro pc st h
    rw [runInstrs]
    exact ih _ _ (Reachable_disassembleBody InstructionSet remote i pc st h)

theorem Reachable_Disassemble (InstructionSet : Nat → Instruction) (remote : Remote)
    (w : World) (code : String) (h : Reachable w) :
    Reachable (Disassemble InstructionSet remote w code).world := by
  cases hd : hex.DecodeString code with
  | error e =>
    have : (Disassemble InstructionSet remote w code).world = w := by
      simp only [Disassemble, hd]
    rw [this]; exact h
  | ok b =>
    obtain ⟨is, suffix, hb, hall, hsuf⟩ := exists_instructions b
    subst hb
    rw [(Disassemble_assemble InstructionSet remote w code is suffix hd hall hsuf).2.2]
    exact Reachable_runInstrs InstructionSet remote is 0 (DisState.start w) h

theorem Disassemble_line_where (InstructionSet : Nat → Instruction) (remote : Remote)
    (w : World) (code : String) (pre : List Instr) (i : Instr) (post : List Instr)
    (suffix : Bytes) (P : Line → Prop)
    (hdec : hex.DecodeString code = .ok (assemble (pre ++ i :: post) ++ suffix))
    (hall : ∀ j ∈ pre ++ i :: post, j.complete = true)
    (hsuf : suffix = [] ∨ truncatedPush suffix = true)
    (hl : ∀ st : DisState, ∃ l,
      (disassembleBody InstructionSet remote (i.iterator [] (assemble pre).length) st).lines
        = st.lines ++ [l] ∧ P l) :
    ∃ r, (Disassemble InstructionSet remote w code).result = some r ∧
      ∃ l, r.Lines[pre.length]? = some l ∧ P l := by
  obtain ⟨hres, _, _⟩ := Disassemble_assemble InstructionSet remote w code _ suffix hdec hall hsuf
  refine ⟨_, hres, ?_⟩
  show ∃ l, (runInstrs InstructionSet remote 0 (pre ++ i :: post)
    (DisState.start w)).lines[pre.length]? = some l ∧ P l
  rw [runInstrs_append, runInstrs]
  obtain ⟨L₁, h₁, hlen₁⟩ := runInstrs_lines_length InstructionSet remote pre 0 (DisState.start w)
  obtain ⟨L₂, h₂, _⟩ := runInstrs_lines_length InstructionSet remote post
    (0 + (assemble pre).length + 1 + i.args.length)
    (disassembleBody InstructionSet remote (i.iterator [] (0 + (assemble pre).length))
      (runInstrs InstructionSet remote 0 pre (DisState.start w)))
  rw [h₂]
  obtain ⟨l, hl', hP⟩ := hl (runInstrs InstructionSet remote 0 pre (DisState.start w))
  rw [Nat.zero_add] at *
  refine ⟨l, ?_, hP⟩
  rw [hl', h₁]
  simp [DisState.start, ← hlen₁]
  exact List.getElem_append_right (Nat.le_refl _) |>.trans (by simp)

theorem disassembleBody_PUSH4_args (InstructionSet : Nat → Instruction) (remote : Remote)
    (i : Instr) (pc : Nat) (st : DisState) (hop : i.op = vm.PUSH4) (hlen : i.args.length = 4) :
    ∃ l, (disassembleBody InstructionSet remote (i.iterator [] pc) st).lines = st.lines ++ [l] ∧
      l.Args = [i.args] := by
  cases hm : st.fourBytesToSigs.has (hex.EncodeToString i.args) with
  | true =>
    exact ⟨_, (disassembleBody_PUSH4_known InstructionSet remote i pc st hop hlen hm).2.2.2, rfl⟩
  | false =>
    exact ⟨_, (disassembleBody_PUSH4_fresh InstructionSet remote i pc st hop hlen hm).2.2.2, rfl⟩


/-- C15. Evaluation at the failing input: with a remote that yields no candidates, the
bytecode `PUSH4 deadbeef`, `PUSH4 deadbeef` makes `Disassemble` call
`getSigsFromFourBytes` twice for the one selector `deadbeef` (one remote lookup, then
one answer from the cache), because an empty candidate list leaves no entry in the
per-call memo `fourBytesToSigs`. -/
theorem Disassemble_empty_candidates_resolved_twice :
    (Disassemble exampleInstructionSet offlineRemote World.initial
        "63deadbeef63deadbeef").world.calls
      = [[0xde, 0xad, 0xbe, 0xef], [0xde, 0xad, 0xbe, 0xef]] ∧
    (Disassemble exampleInstructionSet offlineRemote World.initial
        "63deadbeef63deadbeef").world.requests = [[0xde, 0xad, 0xbe, 0xef]] ∧
    (Disassemble exampleInstructionSet offlineRemote World.initial
        "6318160ddd6318160ddd").world.calls = [[0x18, 0x16, 0x0d, 0xdd]] := by
  decide

/-- C16. For every bytecode, the result's `FoundSignatures` is exactly the set of all
candidate signatures that the selector resolution returns for the `PUSH4` arguments of
the decoded lines: a signature is in the set exactly when it is a candidate of the
argument of some decoded `PUSH4` instruction, so every candidate of every decoded
`PUSH4` argument is in the set and no other instruction adds a signature. The
candidates of an argument are the list stored for it in the cache when the call
returns, which `getSigsFromFourBytes` answers from then on; and the line of each
decoded `PUSH4` instruction carries that argument. -/
theorem Disassemble_FoundSignatures (InstructionSet : Nat → Instruction) (remote : Remote)
    (w : World) (code : String) (is : List Instr) (suffix : Bytes)
    (hdec : hex.DecodeString code = .ok (assemble is ++ suffix))
    (hall : ∀ i ∈ is, i.complete = true)
    (hsuf : suffix = [] ∨ truncatedPush suffix = true) :
    ∃ r, (Disassemble InstructionSet remote w code).result = some r ∧
      (∀ s : String, r.FoundSignatures.has s = true ↔
        ∃ i ∈ is, i.op = vm.PUSH4 ∧
          s ∈ (getSigsFromFourBytes remote (Disassemble InstructionSet remote w code).world
                i.args).1) ∧
      (∀ i ∈ is, i.op = vm.PUSH4 →
        (Disassemble InstructionSet remote w code).world.fourBytesCache
            (hex.EncodeToString i.args)
          = some (getSigsFromFourBytes remote (Disassemble InstructionSet remote w code).world
                i.args).1) ∧
      (∀ (pre : List Instr) (i : Instr) (post : List Instr), is = pre ++ i :: post →
        i.op = vm.PUSH4 → ∃ l, r.Lines[pre.length]? = some l ∧ l.Args = [i.args]) := by
  obtain ⟨hres, _, hworld⟩ :=
    Disassemble_assemble InstructionSet remote w code is suffix hdec hall hsuf
  obtain ⟨_, h2, h3⟩ := FoundInv_runInstrs InstructionSet remote is 0 (DisState.start w) []
    (FoundInv_start w)
  simp only [List.nil_append] at h2 h3
  rw [← hworld] at h2 h3
  have hget : ∀ i ∈ is, i.op = vm.PUSH4 →
      (Disassemble InstructionSet remote w code).world.fourBytesCache
          (hex.EncodeToString i.args)
        = some (getSigsFromFourBytes remote (Disassemble InstructionSet remote w code).world
              i.args).1 ∧
      ∀ s ∈ (getSigsFromFourBytes remote (Disassemble InstructionSet remote w code).world
              i.args).1,
        (runInstrs InstructionSet remote 0 is (DisState.start w)).sigs.has s = true := by
    intro i hi hop
    obtain ⟨L, hL, hs⟩ := h3 i hi hop (complete_PUSH4 i hop (hall i hi))
    rw [getSigs_hit remote _ i.args L hL]
    exact ⟨hL, hs⟩
  refine ⟨_, hres, ?_, fun i hi hop => (hget i hi hop).1, ?_⟩
  · intro s
    constructor
    · intro hs
      obtain ⟨i, hi, hop, _, L, hL, hsL⟩ := h2 s hs
      refine ⟨i, hi, hop, ?_⟩
      rw [getSigs_hit remote _ i.args L hL]
      exact hsL
    · rintro ⟨i, hi, hop, hs⟩
      exact (hget i hi hop).2 s hs
  · intro pre i post his hop
    subst his
    obtain ⟨r', hr', l, hl, hP⟩ := Disassemble_line_where InstructionSet remote w code pre i
      post suffix (fun l => l.Args = [i.args]) hdec hall hsuf
      (fun st => disassembleBody_PUSH4_args InstructionSet remote i _ st hop
        (complete_PUSH4 i hop (hall i (by simp))))
    rw [hres] at hr'
    cases hr'
    exact ⟨l, hl, hP⟩

/-- C16, witness: in `PUSH4 18160ddd`, `PUSH1 80` the signature `totalSupply()` is found
exactly because it is a candidate of the one `PUSH4` argument. -/
theorem Disassemble_FoundSignatures_witness :
    ∃ r, (Disassemble exampleInstructionSet offlineRemote World.initial
        "6318160ddd6080").result = some r ∧
      (r.FoundSignatures.has "totalSupply()" = true ↔
        ∃ i ∈ ([⟨0x63, [0x18, 0x16, 0x0d, 0xdd]⟩, ⟨0x60, [0x80]⟩] : List Instr),
          i.op = vm.PUSH4 ∧
          "totalSupply()" ∈ (getSigsFromFourBytes offlineRemote
            (Disassemble exampleInstructionSet offlineRemote World.initial
              "6318160ddd6080").world i.args).1) :=
  let ⟨r, hr, hiff, _⟩ := Disassemble_FoundSignatures exampleInstructionSet offlineRemote
    World.initial "6318160ddd6080" [⟨0x63, [0x18, 0x16, 0x0d, 0xdd]⟩, ⟨0x60, [0x80]⟩] []
    (DecodeString_of_toOption _ _ (by decide)) (by decide) (Or.inl rfl)
  ⟨r, hr, hiff "totalSupply()"⟩


/-- C17. For every selector and every cache state, in sequential use, calling
`getSigsFromFourBytes` twice on that selector returns the same list both times, and
the second call performs no remote lookup and leaves the cache unchanged, whatever the
remote collaborator would answer the second time. -/
theorem getSigsFromFourBytes_twice (remote remote' : Remote) (w : World) (fourBytes : Bytes) :
    (getSigsFromFourBytes remote' (getSigsFromFourBytes remote w fourBytes).2 fourBytes).1
      = (getSigsFromFourBytes remote w fourBytes).1 ∧
    (getSigsFromFourBytes remote' (getSigsFromFourBytes remote w fourBytes).2 fourBytes).2.requests
      = (getSigsFromFourBytes remote w fourBytes).2.requests ∧
    (getSigsFromFourBytes remote' (getSigsFromFourBytes remote w fourBytes).2
        fourBytes).2.fourBytesCache
      = (getSigsFromFourBytes remote w fourBytes).2.fourBytesCache := by
  rw [getSigs_hit remote' _ fourBytes _ (getSigs_stored remote w fourBytes)]
  exact ⟨rfl, rfl, rfl⟩

/-- C18. For every selector absent from the cache: when the remote request fails or
its reply does not parse, `getSigsFromFourBytes` returns the empty list and stores the
empty list under that selector; when the reply parses, it returns and stores the text
signatures of the reply's records in reply order (the empty list for zero records);
either way exactly one remote lookup, for that selector, is made. A selector present
in the cache, built-in or cached earlier, is answered from the cache without a remote
lookup and without a change of the cache. -/
theorem getSigsFromFourBytes_outcomes (remote : Remote) (w : World) (fourBytes : Bytes) :
    (w.fourBytesCache (hex.EncodeToString fourBytes) = none →
      (getSigsFromFourBytes remote w fourBytes).2.requests = w.requests ++ [fourBytes] ∧
      ((remote w.requests.length fourBytes = .getFailed ∨
          remote w.requests.length fourBytes = .decodeFailed) →
        (getSigsFromFourBytes remote w fourBytes).1 = [] ∧
        (getSigsFromFourBytes remote w fourBytes).2.fourBytesCache
          = w.fourBytesCache.set (hex.EncodeToString fourBytes) []) ∧
      (∀ b4 : fourByteDirectoryResponse, remote w.requests.length fourBytes = .reply b4 →
        (getSigsFromFourBytes remote w fourBytes).1
          = b4.Results.map (fun b4rec => b4rec.TextSignature) ∧
        (getSigsFromFourBytes remote w fourBytes).2.fourBytesCache
          = w.fourBytesCache.set (hex.EncodeToString fourBytes)
              (b4.Results.map (fun b4rec => b4rec.TextSignature)) ∧
        (b4.Results = [] → (getSigsFromFourBytes remote w fourBytes).1 = []))) ∧
    (∀ sigs : List String, w.fourBytesCache (hex.EncodeToString fourBytes) = some sigs →
      (getSigsFromFourBytes remote w fourBytes).1 = sigs ∧
      (getSigsFromFourBytes remote w fourBytes).2.requests = w.requests ∧
      (getSigsFromFourBytes remote w fourBytes).2.fourBytesCache = w.fourBytesCache) := by
  constructor
  · intro hmiss
    obtain ⟨sigs, hs, hfail, hreply⟩ := getSigs_miss remote w fourBytes hmiss
    rw [hs]
    refine ⟨rfl, ?_, ?_⟩
    · intro h
      rw [hfail h]
      exact ⟨rfl, rfl⟩
    · intro b4 h
      rw [hreply b4 h]
      exact ⟨rfl, rfl, fun e => by simp [e]⟩
  · intro sigs hhit
    rw [getSigs_hit remote w fourBytes sigs hhit]
    exact ⟨rfl, rfl, rfl⟩


/-- C19. For every cache state and every selector, in sequential use,
`getSigsFromFourBytes` changes no entry that is already present and removes none: the
cache after the call is the cache before it plus at most one new entry, for the
queried selector. Hence in every state reachable from the initial one, each built-in
selector still maps to its built-in list; the states a `Disassemble` call leaves
behind are among them. -/
theorem getSigsFromFourBytes_cache_grows (remote : Remote) (w : World) (fourBytes : Bytes) :
    (∀ (k : String) (sigs : List String), w.fourBytesCache k = some sigs →
      (getSigsFromFourBytes remote w fourBytes).2.fourBytesCache k = some sigs) ∧
    (∀ k : String, k ≠ hex.EncodeToString fourBytes →
      (getSigsFromFourBytes remote w fourBytes).2.fourBytesCache k = w.fourBytesCache k) ∧
    (∀ w' : World, Reachable w' → ∀ (k : String) (sigs : List String),
      World.initial.fourBytesCache k = some sigs → w'.fourBytesCache k = some sigs) ∧
    (∀ (InstructionSet : Nat → Instruction) (code : String) (w' : World), Reachable w' →
      Reachable (Disassemble InstructionSet remote w' code).world) := by
  refine ⟨getSigs_kept remote w fourBytes, getSigs_other remote w fourBytes, ?_, ?_⟩
  · intro w' hw' k sigs hmem
    exact Reachable_builtin w' hw' k sigs hmem
  · intro InstructionSet code w' hw'
    exact Reachable_Disassemble InstructionSet remote w' code hw'

/-! ## lookupWellKnownKey -/

/-- C20 (amended). For every descriptor, `lookupWellKnownKey` returns the first of these
candidates whose text, with surrounding white space trimmed, is a key of the
well-known registry, tried in this order: the canonical form `name(type,...,type)`,
the verbatim source string, the whitespace-collapsed canonical form, and otherwise
the lower-cased bare name. So for the descriptor parsed from
"transfer(address to, uint256 amount)", a string that is itself a registry key, the
result is the canonical "transfer(address,uint256)" whenever that is a registry key
as well, as it is in the shipped registry. -/
theorem lookupWellKnownKey_first_hit (funcDescriptions : GoMap WellKnownFuncDesc)
    (unicodeToLower : Char → Char) (fsig : FuncSig) :
    lookupWellKnownKey funcDescriptions unicodeToLower fsig
      = (match [fsig.String, fsig.unescapedSel,
                strings.Join (strings.Fields fsig.String) " "].find?
            (fun s => (funcDescriptions (strings.TrimSpace s)).isSome) with
         | some candidate => candidate
         | none => strings.ToLower unicodeToLower fsig.name) ∧
    ∃ transfer : FuncSig,
      parseFuncSig "transfer(address to, uint256 amount)" = some transfer ∧
      ((funcDescriptions "transfer(address,uint256)").isSome = true →
        lookupWellKnownKey funcDescriptions unicodeToLower transfer
          = "transfer(address,uint256)") := by
  constructor
  · simp only [lookupWellKnownKey, removeParamNames_eq_String, List.find?_cons, List.find?_nil]
    cases h1 : (funcDescriptions (strings.TrimSpace fsig.String)).isSome with
    | true => simp
    | false =>
      cases h2 : (funcDescriptions (strings.TrimSpace fsig.unescapedSel)).isSome with
      | true => simp
      | false =>
        cases h3 : (funcDescriptions (strings.TrimSpace
            (strings.Join (strings.Fields fsig.String) " "))).isSome with
        | true => simp
        | false => simp
  · refine ⟨{ name := "transfer",
              inputs := [{ Name := "to", Typ := "address" }, { Name := "amount", Typ := "uint256" }],
              outputs := none,
              unescapedSel := "transfer(address to, uint256 amount)" }, by decide, ?_⟩
    intro h
    have hs : strings.TrimSpace "transfer(address,uint256)" = "transfer(address,uint256)" := by
      decide
    have hs' : FuncSig.String
        { name := "transfer",
          inputs := [{ Name := "to", Typ := "address" }, { Name := "amount", Typ := "uint256" }],
          outputs := none,
          unescapedSel := "transfer(address to, uint256 amount)" }
        = "transfer(address,uint256)" := by decide
    simp only [lookupWellKnownKey, hs', hs, h, if_true]

/-- C20, counterexample: with the registry as declared, "transfer(address to, uint256 amount)"
is a key, yet the descriptor parsed from it is looked up as "transfer(address,uint256)":
the canonical form is tried before the verbatim string. And the descriptor parsed from
" name()" is looked up as " name()", which is no key: only its trimmed text is. -/
theorem lookupWellKnownKey_canonical_first :
    (funcDescriptionsDeclared "transfer(address to, uint256 amount)").isSome = true ∧
    (parseFuncSig "transfer(address to, uint256 amount)").map
        (lookupWellKnownKey funcDescriptionsDeclared (fun c => c))
      = some "transfer(address,uint256)" ∧
    (parseFuncSig " name()").map (lookupWellKnownKey funcDescriptionsDeclared (fun c => c))
      = some " name()" ∧
    (funcDescriptionsDeclared " name()").isSome = false := by
  decide

/-! ## The registry after `init` -/

theorem initIndex_keys : ∀ (l : List (String × WellKnownFuncDesc)) (m : GoMap WellKnownFuncDesc)
    (entries : List (String × WellKnownFuncDesc)) (m' : GoMap WellKnownFuncDesc),
    initIndex l m = some (entries, m') → ∀ key : String, (m' key).isSome = true →
      (m key).isSome = true ∨ ∃ b : Bytes, key = hex.EncodeToString b := by
  intro l
  induction l with
  | nil =>
    intro m entries m' h key hk
    simp only [initIndex, Option.some.injEq, Prod.mk.injEq] at h
    rw [← h.2] at hk
    exact Or.inl hk
  | cons e rest ih =>
    intro m entries m' h key hk
    obtain ⟨k, v⟩ := e
    simp only [initIndex] at h
    split at h
    · cases hr : initIndex rest (m.set (hex.EncodeToString
          (MethodID ({ v with knownMethodKey := k } : WellKnownFuncDesc).sig))
          { v with knownMethodKey := k,
                   methodIDHex := hex.EncodeToString
                     (MethodID ({ v with knownMethodKey := k } : WellKnownFuncDesc).sig) }) with
      | none => rw [hr] at h; cases h
      | some p =>
        rw [hr] at h
        obtain ⟨entries', m''⟩ := p
        simp only [Option.some.injEq, Prod.mk.injEq] at h
        rw [← h.2] at hk
        rcases ih _ _ _ hr key hk with h1 | h1
        · by_cases e : key = hex.EncodeToString
              (MethodID ({ v with knownMethodKey := k } : WellKnownFuncDesc).sig)
          · exact Or.inr ⟨_, e⟩
          · left
            simpa [GoMap.set, e] using h1
        · exact Or.inr h1
    · split at h
      · cases h
      · cases hr : initIndex rest m with
        | none => rw [hr] at h; cases h
        | some p =>
          rw [hr] at h
          obtain ⟨entries', m''⟩ := p
          simp only [Option.some.injEq, Prod.mk.injEq] at h
          rw [← h.2] at hk
          exact ih _ _ _ hr key hk

theorem init_byMethodID_keys (r : Registry) (h : init = some r) (key : String)
    (hk : (r.funcDescriptionByMethodID key).isSome = true) :
    ∃ b : Bytes, key = hex.EncodeToString b := by
  unfold init at h
  cases h1 : wellKnownRBACFuncs with
  | none => rw [h1] at h; cases h
  | some rbac =>
    rw [h1] at h
    simp only at h
    cases h2 : initAdd rbac funcDescriptionsLiteral with
    | none => rw [h2] at h; cases h
    | some fd =>
      rw [h2] at h
      simp only at h
      cases h3 : initIndex fd GoMap.empty with
      | none => rw [h3] at h; cases h
      | some p =>
        rw [h3] at h
        obtain ⟨entries, byID⟩ := p
        simp only [Option.some.injEq] at h
        subst h
        rcases initIndex_keys fd GoMap.empty entries byID h3 key hk with h4 | h4
        · simp [GoMap.empty] at h4
        · exact h4

theorem hex_ne_of_paren (key : String) (hp : '(' ∈ key.data) (b : Bytes) :
    key ≠ hex.EncodeToString b := by
  intro e
  have := EncodeToString_hextable b '(' (by rw [← e]; exact hp)
  revert this
  decide

theorem hextable_digit (n : Nat) (hn : n < 16) :
    utf8EncodeChar (hextable.getD n '0').toNat = [(hextable.getD n '0').toNat] ∧
    fromHexChar (hextable.getD n '0').toNat = some n := by
  interval_cases n <;> decide

theorem Decode_EncodeToString (b : Bytes) (hb : ∀ v ∈ b, v < 256) :
    hex.DecodeString (hex.EncodeToString b) = .ok b := by
  unfold hex.DecodeString hex.EncodeToString stringBytes
  induction b with
  | nil => rfl
  | cons v rest ih =>
    have hv : v < 256 := hb v (by simp)
    have h1 := hextable_digit (v / 16) (by omega)
    have h2 := hextable_digit (v % 16) (by omega)
    have ih' := ih (fun x hx => hb x (List.mem_cons_of_mem _ hx))
    simp only [List.flatMap_cons, List.cons_append, List.nil_append, List.singleton_append,
      h1.1, h2.1, hex.Decode, h1.2, h2.2] at ih' ⊢
    rw [ih']
    have : v / 16 * 16 + v % 16 = v := by omega
    simp [this]

theorem MethodID_bytes (s : String) : ∀ v ∈ MethodID s, v < 256 := by
  intro v hv
  have hv' := List.mem_of_mem_take hv
  simp only [crypto.Keccak256, List.mem_map, List.mem_range] at hv'
  obtain ⟨i, _, rfl⟩ := hv'
  exact Nat.mod_lt _ (by decide)

theorem MethodID_of_hex (desc : WellKnownFuncDesc)
    (h : desc.methodIDHex = hex.EncodeToString (MethodID desc.sig)) :
    desc.MethodID = MethodID desc.sig := by
  unfold WellKnownFuncDesc.MethodID
  rw [h, Decode_EncodeToString _ (MethodID_bytes _)]

theorem MethodID_of_empty (desc : WellKnownFuncDesc) (h : desc.methodIDHex = "") :
    desc.MethodID = [] := by
  unfold WellKnownFuncDesc.MethodID
  rw [h]
  rfl

theorem init_unfold (r : Registry) (h : init = some r) :
    ∃ rbac fd, wellKnownRBACFuncs = some rbac ∧
      initAdd rbac funcDescriptionsLiteral = some fd ∧
      initIndex fd GoMap.empty = some (r.funcDescriptions, r.funcDescriptionByMethodID) := by
  unfold init at h
  cases h1 : wellKnownRBACFuncs with
  | none => rw [h1] at h; cases h
  | some rbac =>
    rw [h1] at h
    simp only at h
    cases h2 : initAdd rbac funcDescriptionsLiteral with
    | none => rw [h2] at h; cases h
    | some fd =>
      rw [h2] at h
      simp only at h
      cases h3 : initIndex fd GoMap.empty with
      | none => rw [h3] at h; cases h
      | some p =>
        rw [h3] at h
        obtain ⟨entries, byID⟩ := p
        simp only [Option.some.injEq] at h
        subst h
        exact ⟨rbac, fd, rfl, h2, h3⟩

theorem initIndex_desc : ∀ (l : List (String × WellKnownFuncDesc)) (m : GoMap WellKnownFuncDesc)
    (entries : List (String × WellKnownFuncDesc)) (m' : GoMap WellKnownFuncDesc),
    initIndex l m = some (entries, m') →
    ∀ e ∈ entries, ∃ v : WellKnownFuncDesc, (e.1, v) ∈ l ∧ e.2.sig = v.sig ∧
      e.2.knownMethodKey = e.1 ∧
      ((e.1 = v.sig ∧ e.2.methodIDHex = hex.EncodeToString (MethodID v.sig)) ∨
       (e.1 ≠ v.sig ∧ e.2.methodIDHex = v.methodIDHex)) := by
  intro l
  induction l with
  | nil =>
    intro m entries m' h e he
    simp only [initIndex, Option.some.injEq, Prod.mk.injEq] at h
    rw [← h.1] at he
    cases he
  | cons e0 rest ih =>
    intro m entries m' h e he
    obtain ⟨k, v⟩ := e0
    simp only [initIndex] at h
    split at h
    · rename_i hk
      cases hr : initIndex rest (m.set (hex.EncodeToString
          (MethodID ({ v with knownMethodKey := k } : WellKnownFuncDesc).sig))
          { v with knownMethodKey := k,
                   methodIDHex := hex.EncodeToString
                     (MethodID ({ v with knownMethodKey := k } : WellKnownFuncDesc).sig) }) with
      | none => rw [hr] at h; cases h
      | some p =>
        rw [hr] at h
        obtain ⟨entries', m''⟩ := p
        simp only [Option.some.injEq, Prod.mk.injEq] at h
        rw [← h.1] at he
        rcases List.mem_cons.mp he with rfl | he
        · exact ⟨v, by simp, rfl, rfl, Or.inl ⟨hk, rfl⟩⟩
        · obtain ⟨v', hv', r⟩ := ih _ _ _ hr e he
          exact ⟨v', List.mem_cons_of_mem _ hv', r⟩
    · rename_i hk
      split at h
      · cases h
      · cases hr : initIndex rest m with
        | none => rw [hr] at h; cases h
        | some p =>
          rw [hr] at h
          obtain ⟨entries', m''⟩ := p
          simp only [Option.some.injEq, Prod.mk.injEq] at h
          rw [← h.1] at he
          rcases List.mem_cons.mp he with rfl | he
          · exact ⟨v, by simp, rfl, rfl, Or.inr ⟨hk, rfl⟩⟩
          · obtain ⟨v', hv', r⟩ := ih _ _ _ hr e he
            exact ⟨v', List.mem_cons_of_mem _ hv', r⟩

set_option maxRecDepth 100000 in
/-- What evaluating `init` on the shipped tables shows. -/
theorem init_evaluated :
    ∃ r, init = some r ∧ r.funcDescriptions.length = 118 ∧
      (∀ e ∈ r.funcDescriptions, '(' ∈ e.1.data) ∧
      (∀ e ∈ r.funcDescriptions,
        (e.1 = e.2.sig ↔ e.1 ∉ ["transfer(address to, uint256 tokenID)",
          "transfer(address to, uint256 value)", "transfer(address to, uint256 amount)"])) ∧
      (∀ k ∈ ["transfer(address to, uint256 tokenID)", "transfer(address to, uint256 value)",
          "transfer(address to, uint256 amount)"],
        ∃ d, r.descriptions k = some d ∧ d.sig = "transfer(address,uint256)" ∧
          d.methodIDHex = "") ∧
      (r.descriptions "transfer(address,uint256)").isSome = true ∧
      (r.descriptions "totalSupply()").isSome = true ∧
      r.funcDescriptions.map Prod.fst
        = funcDescriptionsLiteral.map Prod.fst ++ (wellKnownRBACFuncs.getD []).map Prod.fst ∧
      ((∀ e ∈ r.funcDescriptions, (strings.EqualFold e.2.name "transfer").isSome = true) ∧
        (r.funcDescriptions.filter
            (fun e => strings.EqualFold e.2.name "transfer" == some true)).map Prod.fst
          = ["transfer(address,uint256)", "transfer(address to, uint256 tokenID)",
              "transfer(address to, uint256 value)", "transfer(address to, uint256 amount)"] ∧
        (∀ e ∈ r.funcDescriptions.filter
            (fun e => strings.EqualFold e.2.name "transfer" == some true),
          e.1 ≠ "transfer(address,uint256)" → e.2.methodIDHex = "")) ∧
      (r.descriptions "totalSupply()").map (fun d => d.outputs)
        = some (some [{ Name := "totalSupply", Typ := "uint256" }]) := by
  have h : init.map (fun r =>
      decide (r.funcDescriptions.length = 118) &&
      r.funcDescriptions.all (fun e => decide ('(' ∈ e.1.data)) &&
      r.funcDescriptions.all (fun e => decide (e.1 = e.2.sig ↔
        e.1 ∉ ["transfer(address to, uint256 tokenID)",
          "transfer(address to, uint256 value)", "transfer(address to, uint256 amount)"])) &&
      ["transfer(address to, uint256 tokenID)", "transfer(address to, uint256 value)",
          "transfer(address to, uint256 amount)"].all (fun k =>
        match r.descriptions k with
        | none => false
        | some d => decide (d.sig = "transfer(address,uint256)") && decide (d.methodIDHex = "")) &&
      (r.descriptions "transfer(address,uint256)").isSome &&
      (r.descriptions "totalSupply()").isSome &&
      decide (r.funcDescriptions.map Prod.fst
        = funcDescriptionsLiteral.map Prod.fst ++ (wellKnownRBACFuncs.getD []).map Prod.fst) &&
      (r.funcDescriptions.all (fun e => (strings.EqualFold e.2.name "transfer").isSome) &&
        decide ((r.funcDescriptions.filter
            (fun e => strings.EqualFold e.2.name "transfer" == some true)).map Prod.fst
          = ["transfer(address,uint256)", "transfer(address to, uint256 tokenID)",
              "transfer(address to, uint256 value)", "transfer(address to, uint256 amount)"]) &&
        (r.funcDescriptions.filter
            (fun e => strings.EqualFold e.2.name "transfer" == some true)).all
          (fun e => decide (e.1 = "transfer(address,uint256)") ||
            decide (e.2.methodIDHex = ""))) &&
      decide ((r.descriptions "totalSupply()").map (fun d => d.outputs)
        = some (some [{ Name := "totalSupply", Typ := "uint256" }])))
      = some true := by decide
  cases hi : init with
  | none => rw [hi] at h; cases h
  | some r =>
    rw [hi] at h
    simp only [Option.map_some', Option.some.injEq, Bool.and_eq_true, decide_eq_true_eq,
      List.all_eq_true, Bool.or_eq_true] at h
    obtain ⟨⟨⟨⟨⟨⟨⟨⟨h1, h2⟩, h3⟩, h4⟩, h5⟩, h6⟩, h7⟩, ⟨h8a, h8b⟩, h8c⟩, h9⟩ := h
    refine ⟨r, rfl, h1, h2, h3, ?_, h5, h6, h7,
      ⟨h8a, h8b, fun e he hne => (h8c e he).resolve_left hne⟩, h9⟩
    intro k hk
    have := h4 k hk
    cases hd : r.descriptions k with
    | none => rw [hd] at this; cases this
    | some d =>
      rw [hd] at this
      simp only [Bool.and_eq_true, decide_eq_true_eq] at this
      exact ⟨d, rfl, this.1, this.2⟩

set_option maxRecDepth 100000 in
/-- What evaluating `wellKnownRBACFuncs` shows. -/
theorem rbac_evaluated :
    ∃ rbac, wellKnownRBACFuncs = some rbac ∧ rbac.length = 84 ∧
      (rbac.map Prod.fst).Nodup ∧
      ∀ e ∈ rbac, funcDescriptionsLiteral.lookup e.1 = none := by
  have h : wellKnownRBACFuncs.map (fun rbac =>
      decide (rbac.length = 84) && decide ((rbac.map Prod.fst).Nodup) &&
      rbac.all (fun e => decide (funcDescriptionsLiteral.lookup e.1 = none))) = some true := by
    decide
  cases hr : wellKnownRBACFuncs with
  | none => rw [hr] at h; cases h
  | some rbac =>
    rw [hr] at h
    simp only [Option.map_some', Option.some.injEq, Bool.and_eq_true, decide_eq_true_eq,
      List.all_eq_true] at h
    exact ⟨rbac, rfl, h.1.1, h.1.2, h.2⟩

theorem lookup_isSome_mem {α : Type} (l : List (String × α)) (k : String)
    (h : (l.lookup k).isSome = true) : ∃ v, (k, v) ∈ l := by
  induction l with
  | nil => simp at h
  | cons e rest ih =>
    obtain ⟨k', v'⟩ := e
    by_cases hk : k = k'
    · subst hk
      exact ⟨v', by simp⟩
    · have hb : (k == k') = false := by simpa using hk
      simp only [List.lookup, hb] at h
      obtain ⟨v, hv⟩ := ih h
      exact ⟨v, List.mem_cons_of_mem _ hv⟩

theorem lookup_some_mem {α : Type} (l : List (String × α)) (k : String) (v : α)
    (h : l.lookup k = some v) : (k, v) ∈ l := by
  induction l with
  | nil => simp at h
  | cons e rest ih =>
    obtain ⟨k', v'⟩ := e
    by_cases hk : k = k'
    · subst hk
      simp only [List.lookup, beq_self_eq_true, Option.some.injEq] at h
      subst h
      simp
    · have hb : (k == k') = false := by simpa using hk
      simp only [List.lookup, hb] at h
      exact List.mem_cons_of_mem _ (ih h)

/-- C21. Evaluation of the registry after `init`: `"transfer(address,uint256)"` and
`"totalSupply()"` are keys of the registry, yet for every key `k` of the registry
`GetWellKnownFuncBySig(k)` reports not found, because it reads the index by selector
`funcDescriptionByMethodID`, whose keys are hexadecimal selectors; and
`NewFuncSignatureFromString(k)` therefore takes the parsing path. -/
theorem GetWellKnownFuncBySig_finds_no_key :
    ∃ r, init = some r ∧
      (r.descriptions "transfer(address,uint256)").isSome = true ∧
      (r.descriptions "totalSupply()").isSome = true ∧
      ∀ k : String, (r.descriptions k).isSome = true →
        GetWellKnownFuncBySig r.funcDescriptionByMethodID k = none ∧
        NewFuncSignatureFromString r.funcDescriptionByMethodID k
          = (parseFuncSig k).map (fun fsig => ({ fsig with unescapedSel := k }, none)) := by
  obtain ⟨r, hr, _, hparen, _, _, ht, hs, _⟩ := init_evaluated
  refine ⟨r, hr, ht, hs, ?_⟩
  intro k hk
  have hnone : GetWellKnownFuncBySig r.funcDescriptionByMethodID k = none := by
    obtain ⟨v, hv⟩ := lookup_isSome_mem r.funcDescriptions k hk
    have hp : '(' ∈ k.data := hparen (k, v) hv
    cases hb : r.funcDescriptionByMethodID k with
    | none => exact hb
    | some d =>
      obtain ⟨b, hb'⟩ := init_byMethodID_keys r hr k (by rw [hb]; rfl)
      exact absurd hb' (hex_ne_of_paren k hp b)
  refine ⟨hnone, ?_⟩
  unfold NewFuncSignatureFromString
  rw [hnone]
  cases parseFuncSig k <;> rfl

theorem wellKnownFuncsByName_eq (name : String) :
    ∀ l : List (String × WellKnownFuncDesc),
      (∀ e ∈ l, (strings.EqualFold e.2.name name).isSome = true) →
      wellKnownFuncsByName name l
        = some ((l.filter (fun e => strings.EqualFold e.2.name name == some true)).map
            Prod.snd) := by
  intro l
  induction l with
  | nil => intro _; rfl
  | cons e rest ih =>
    intro h
    obtain ⟨k, desc⟩ := e
    have hrest := ih (fun e he => h e (List.mem_cons_of_mem _ he))
    have hd := h (k, desc) (List.mem_cons_self _ _)
    simp only at hd
    cases hf : strings.EqualFold desc.name name with
    | none => rw [hf] at hd; cases hd
    | some b =>
      cases b <;> simp [wellKnownFuncsByName, hf, hrest, List.filter_cons]

/-- C22. Evaluation of the registry after `init`: a descriptor whose key is its own
signature has its selector stored, and `MethodID()` returns
`MethodID(name(type,...,type))`; but each of the three annotated transfer entries has
an empty `methodIDHex`, which `hex.DecodeString` decodes without error, so its
`MethodID()` is the empty byte string and not the 4-byte selector. In whatever order
the `range` of `GetWellKnownFuncsByName("transfer")` visits the registry, the call
returns four descriptors: the plain one and the three annotated ones, each with an
empty `MethodID()`. -/
theorem MethodID_of_annotated_transfer_is_empty :
    ∃ r, init = some r ∧
      (∀ e ∈ r.funcDescriptions,
        e.1 ∉ ["transfer(address to, uint256 tokenID)", "transfer(address to, uint256 value)",
          "transfer(address to, uint256 amount)"] →
        e.2.MethodID = MethodID e.2.sig) ∧
      (∀ k ∈ ["transfer(address to, uint256 tokenID)", "transfer(address to, uint256 value)",
          "transfer(address to, uint256 amount)"],
        ∃ d, r.descriptions k = some d ∧ d.sig = "transfer(address,uint256)" ∧
          d.MethodID = [] ∧ (MethodID d.sig).length = 4) ∧
      (∀ rangeOrder : List (String × WellKnownFuncDesc),
        rangeOrder.Perm r.funcDescriptions →
        ∃ L, GetWellKnownFuncsByName rangeOrder "transfer" = some L ∧ L.length = 4 ∧
          (∃ d ∈ L, d.knownMethodKey = "transfer(address,uint256)") ∧
          ∀ k ∈ ["transfer(address to, uint256 tokenID)",
              "transfer(address to, uint256 value)", "transfer(address to, uint256 amount)"],
            ∃ d ∈ L, d.knownMethodKey = k ∧ d.MethodID = []) := by
  obtain ⟨r, hr, _, _, hsig, hann, _, _, _, ⟨hA, hB, hC⟩, _⟩ := init_evaluated
  obtain ⟨rbac, fd, _, _, hidx⟩ := init_unfold r hr
  refine ⟨r, hr, ?_, ?_, ?_⟩
  · intro e he hne
    obtain ⟨v, _, hsv, _, h | h⟩ := initIndex_desc fd _ _ _ hidx e he
    · exact MethodID_of_hex e.2 (by rw [h.2, hsv])
    · exact absurd (hsv ▸ (hsig e he).mpr hne) h.1
  · intro k hk
    obtain ⟨d, hd, hs, hm⟩ := hann k hk
    exact ⟨d, hd, hs, MethodID_of_empty d hm, MethodID_length _⟩
  · intro rangeOrder hperm
    have hall : ∀ e ∈ rangeOrder, (strings.EqualFold e.2.name "transfer").isSome = true :=
      fun e he => hA e (hperm.mem_iff.mp he)
    have hfilter :=
      hperm.filter (fun e => strings.EqualFold e.2.name "transfer" == some true)
    have hmem : ∀ k ∈ ["transfer(address,uint256)", "transfer(address to, uint256 tokenID)",
        "transfer(address to, uint256 value)", "transfer(address to, uint256 amount)"],
        ∃ e ∈ r.funcDescriptions.filter
            (fun e => strings.EqualFold e.2.name "transfer" == some true),
          e.1 = k ∧ e.2.knownMethodKey = k ∧
          e.2 ∈ (rangeOrder.filter
            (fun e => strings.EqualFold e.2.name "transfer" == some true)).map Prod.snd := by
      intro k hk
      rw [← hB, List.mem_map] at hk
      obtain ⟨e, he, rfl⟩ := hk
      obtain ⟨v, _, _, hkey, _⟩ := initIndex_desc fd _ _ _ hidx e (List.mem_filter.mp he).1
      exact ⟨e, he, rfl, hkey, List.mem_map.mpr ⟨e, hfilter.mem_iff.mpr he, rfl⟩⟩
    refine ⟨_, wellKnownFuncsByName_eq "transfer" rangeOrder hall, ?_, ?_, ?_⟩
    · rw [List.length_map, hfilter.length_eq, ← List.length_map _ Prod.fst, hB]
      rfl
    · obtain ⟨e, _, _, hkey, hin⟩ := hmem "transfer(address,uint256)" (by simp)
      exact ⟨e.2, hin, hkey⟩
    · intro k hk
      obtain ⟨e, he, hek, hkey, hin⟩ := hmem k (List.mem_cons_of_mem _ hk)
      refine ⟨e.2, hin, hkey, MethodID_of_empty e.2 (hC e he ?_)⟩
      rw [hek]
      intro h
      rw [h] at hk
      revert hk
      decide

/-- C23. The startup validation pass succeeds on the shipped registry, that is `init`
does not panic: no key generated for the fourteen role names duplicates a key of the
hand-written table (nor another generated key), and every registry key equals its
descriptor's canonical signature `name(type,...,type)` except exactly the three keys
"transfer(address to, uint256 tokenID)", "transfer(address to, uint256 value)" and
"transfer(address to, uint256 amount)", which are keys of the registry. -/
theorem init_does_not_panic :
    init.isSome = true ∧ wellKnownRoles.length = 14 ∧
    (∃ rbac, wellKnownRBACFuncs = some rbac ∧ rbac.length = 6 * 14 ∧
      (rbac.map Prod.fst).Nodup ∧
      (∀ e ∈ rbac, funcDescriptionsLiteral.lookup e.1 = none) ∧
      ∃ r, init = some r ∧
        r.funcDescriptions.map Prod.fst
          = funcDescriptionsLiteral.map Prod.fst ++ rbac.map Prod.fst ∧
        (∀ e ∈ r.funcDescriptions,
          (e.1 = e.2.sig ↔ e.1 ∉ ["transfer(address to, uint256 tokenID)",
            "transfer(address to, uint256 value)", "transfer(address to, uint256 amount)"])) ∧
        (∀ k ∈ ["transfer(address to, uint256 tokenID)", "transfer(address to, uint256 value)",
            "transfer(address to, uint256 amount)"], (r.descriptions k).isSome = true)) := by
  obtain ⟨r, hr, _, _, hsig, hann, _, _, hkeys, _⟩ := init_evaluated
  obtain ⟨rbac, hrbac, hlen, hnodup, hfresh⟩ := rbac_evaluated
  refine ⟨by rw [hr]; rfl, by decide, rbac, hrbac, hlen, hnodup, hfresh, r, hr, ?_, hsig, ?_⟩
  · rw [hkeys, hrbac]; rfl
  · intro k hk
    obtain ⟨d, hd, _⟩ := hann k hk
    rw [hd]; rfl

/-! ## Effect constants -/

/-- C24 (amended). For each compound effect constant (EffectTransfer, EffectMint,
EffectBurn, EffectSelfdestruct, EffectRBACUpdate), its bit pattern is the bitwise OR
of effect constants declared earlier in the source and of one class bit of its own,
`effectClassMax<<iota<<1`, which no constant declared earlier has. -/
theorem compound_effects_add_one_bit :
    (EffectTransfer = EffectStateWrite ||| EffectTrigger ||| 64 ∧
      ∀ c ∈ [EffectUnknown, EffectRead, EffectWrite, EffectTrigger, effectClassMax,
        EffectStateWrite, EffectAddressWrite], c &&& 64 = 0) ∧
    (EffectMint = EffectTransfer ||| 128 ∧
      ∀ c ∈ [EffectUnknown, EffectRead, EffectWrite, EffectTrigger, effectClassMax,
        EffectStateWrite, EffectAddressWrite, EffectTransfer], c &&& 128 = 0) ∧
    (EffectBurn = EffectTransfer ||| 256 ∧
      ∀ c ∈ [EffectUnknown, EffectRead, EffectWrite, EffectTrigger, effectClassMax,
        EffectStateWrite, EffectAddressWrite, EffectTransfer, EffectMint], c &&& 256 = 0) ∧
    (EffectSelfdestruct = EffectAddressWrite ||| EffectStateWrite ||| EffectTrigger ||| 512 ∧
      ∀ c ∈ [EffectUnknown, EffectRead, EffectWrite, EffectTrigger, effectClassMax,
        EffectStateWrite, EffectAddressWrite, EffectTransfer, EffectMint, EffectBurn],
        c &&& 512 = 0) ∧
    (EffectRBACUpdate = EffectStateWrite ||| 1024 ∧
      ∀ c ∈ [EffectUnknown, EffectRead, EffectWrite, EffectTrigger, effectClassMax,
        EffectStateWrite, EffectAddressWrite, EffectTransfer, EffectMint, EffectBurn,
        EffectSelfdestruct], c &&& 1024 = 0) ∧
    [(effectClassMax <<< 2) <<< 1, (effectClassMax <<< 3) <<< 1, (effectClassMax <<< 4) <<< 1,
      (effectClassMax <<< 5) <<< 1, (effectClassMax <<< 6) <<< 1] = [64, 128, 256, 512, 1024] := by
  decide

/-- C24, counterexample: `EffectTransfer` has the bit 64, which none of the constants
declared before it has, so it is not the bitwise OR of earlier constants. -/
theorem EffectTransfer_has_new_bit :
    EffectTransfer &&& 64 = 64 ∧
    (∀ c ∈ [EffectUnknown, EffectRead, EffectWrite, EffectTrigger, effectClassMax,
      EffectStateWrite, EffectAddressWrite], c &&& 64 = 0) ∧
    EffectTransfer ≠ EffectUnknown ||| EffectRead ||| EffectWrite ||| EffectTrigger |||
      effectClassMax ||| EffectStateWrite ||| EffectAddressWrite := by
  decide

/-! ## parseFuncSig: bare names and totality -/

theorem Contains_nil_false (sub : String) (h : sub.data ≠ []) :
    strings.Contains "" sub = false := by
  simp [strings.Contains, strings.Index, indexFrom, h]

/-- C25. For every string `raw` that contains no `(`, `parseFuncSig(raw)` returns a
descriptor whose name is `raw`, with no inputs and no outputs (both fields are `nil`),
and whose canonical form `String()` is `raw` followed by "()". -/
theorem parseFuncSig_bare_name (raw : String) (h : '(' ∉ raw.data) :
    parseFuncSig raw
      = some { name := raw, inputs := [], outputs := none, unescapedSel := raw } ∧
    ∀ fsig, parseFuncSig raw = some fsig →
      fsig.Name = raw ∧ fsig.Inputs = [] ∧ fsig.outputs = none ∧ fsig.String = raw ++ "()" := by
  have hc : strings.Contains raw "(" = false := Contains_single_false '(' raw h
  have h1 : strings.Contains "" "(" = false := Contains_nil_false "(" (by decide)
  have h2 : strings.Contains "" "returns" = false := Contains_nil_false "returns" (by decide)
  have hp : parseFuncSig raw
      = some { name := raw, inputs := [], outputs := none, unescapedSel := raw } := by
    simp [parseFuncSig, parseName, parseInputs, parseOutputs, hc, h1, h2]
  refine ⟨hp, ?_⟩
  intro fsig hf
  rw [hp] at hf
  cases hf
  refine ⟨rfl, rfl, rfl, ?_⟩
  simp only [FuncSig.String, FuncSig.Name, FuncSig.Inputs, typeList]
  apply String.ext
  simp [String.data_append]

/-- C25, witness: the bare name `totalSupply`. -/
theorem parseFuncSig_bare_name_witness :
    parseFuncSig "totalSupply"
      = some { name := "totalSupply", inputs := [], outputs := none,
               unescapedSel := "totalSupply" } ∧
    ∀ fsig, parseFuncSig "totalSupply" = some fsig →
      fsig.Name = "totalSupply" ∧ fsig.Inputs = [] ∧ fsig.outputs = none ∧
      fsig.String = "totalSupply" ++ "()" :=
  parseFuncSig_bare_name "totalSupply" (by decide)

theorem parseFuncSig_isSome (rawSig : String) : (parseFuncSig rawSig).isSome = true := by
  obtain ⟨⟨name, sig⟩, h1⟩ := Option.isSome_iff_exists.mp (parseName_isSome rawSig)
  obtain ⟨⟨inputs, sig'⟩, h2⟩ := Option.isSome_iff_exists.mp (parseInputs_isSome sig)
  obtain ⟨⟨outputs, sig''⟩, h3⟩ := Option.isSome_iff_exists.mp (parseOutputs_isSome sig')
  simp [parseFuncSig, h1, h2, h3]

/-- C26. For every input string, `NewFuncSignatureFromString` returns a descriptor and
a nil error, whatever the registry holds, and `parseFuncSig` never slices a string out
of range: `parseFuncSig`, `parseName`, `parseInputs`, `parseOutputs`, `parseParams` and
`parseParam` return on every string, among them strings with an unmatched `(` or `)`,
an empty parameter list, or the word "returns" at the very end. -/
theorem NewFuncSignatureFromString_total (funcDescriptionByMethodID : GoMap WellKnownFuncDesc)
    (sig : String) :
    (∃ fsig, NewFuncSignatureFromString funcDescriptionByMethodID sig = some (fsig, none)) ∧
    (parseFuncSig sig).isSome = true ∧ (parseName sig).isSome = true ∧
    (parseInputs sig).isSome = true ∧ (parseOutputs sig).isSome = true ∧
    (parseParams sig).isSome = true ∧ (parseParam sig).isSome = true ∧
    (["f(", "f)", ")(", "f()", "f(a", "f(a) returns", "returns", "f(returns"].all
      (fun s => (parseFuncSig s).isSome)) = true := by
  refine ⟨?_, parseFuncSig_isSome sig, parseName_isSome sig, parseInputs_isSome sig,
    parseOutputs_isSome sig, parseParams_isSome sig, parseParam_isSome sig, ?_⟩
  · unfold NewFuncSignatureFromString
    cases GetWellKnownFuncBySig funcDescriptionByMethodID sig with
    | some wellKnown => exact ⟨_, rfl⟩
    | none =>
      obtain ⟨fsig, hf⟩ := Option.isSome_iff_exists.mp (parseFuncSig_isSome sig)
      rw [hf]
      exact ⟨_, rfl⟩
  · simp only [List.all_cons, List.all_nil, parseFuncSig_isSome, Bool.and_self]

theorem NewFuncSignatureFromString_of_paren (r : Registry) (hr : init = some r) (sig : String)
    (hp : '(' ∈ sig.data) :
    NewFuncSignatureFromString r.funcDescriptionByMethodID sig
      = (parseFuncSig sig).map (fun fsig => ({ fsig with unescapedSel := sig }, none)) := by
  have hnone : GetWellKnownFuncBySig r.funcDescriptionByMethodID sig = none := by
    cases hb : r.funcDescriptionByMethodID sig with
    | none => exact hb
    | some d =>
      obtain ⟨b, hb'⟩ := init_byMethodID_keys r hr sig (by rw [hb]; rfl)
      exact absurd hb' (hex_ne_of_paren sig hp b)
  unfold NewFuncSignatureFromString
  rw [hnone]
  cases parseFuncSig sig <;> rfl

theorem UnpackOutput_nil_outputs (funcDescriptions : GoMap WellKnownFuncDesc) (fsig : FuncSig)
    (ins : abi.Arguments) (data : Bytes) (hout : fsig.outputs = none)
    (hin : abiArguments fsig.inputs = .ok ins) (hdata : data ≠ []) :
    fsig.UnpackOutput funcDescriptions data = (some [], none) := by
  have ho : abiArguments (fsig.outputs.getD []) = .ok [] := by rw [hout]; rfl
  rw [(UnpackInput_of_arguments funcDescriptions fsig ins [] data hin ho).2,
    unpackArgs_nonempty fsig [] data false hdata]
  simp [abi.Arguments.UnpackValues, abi.unpackLoop]

/-- C29. Evaluation at the failing input, on the registry after `init`: the
descriptor that `NewFuncSignatureFromString("totalSupply()")` returns comes from the
parser and has no outputs of its own; its `Outputs()` is the registry's single
parameter `uint256 totalSupply`, but `UnpackOutput` builds its ABI from the
descriptor's own (nil) outputs, so for every 32-byte big-endian word it returns an
empty list of values and no error, not the one integer. -/
theorem UnpackOutput_totalSupply_decodes_nothing (unicodeToLower : Char → Char) :
    ∃ r, init = some r ∧
      ∃ fsig, NewFuncSignatureFromString r.funcDescriptionByMethodID "totalSupply()"
          = some (fsig, none) ∧
        fsig.Outputs r.descriptions unicodeToLower
          = some (some [{ Name := "totalSupply", Typ := "uint256" }]) ∧
        ∀ v : Nat, (bigEndianBytes 32 v).length = 32 ∧
          fsig.UnpackOutput r.descriptions (bigEndianBytes 32 v) = (some [], none) := by
  obtain ⟨r, hr, _, _, _, _, _, hs, _, _, hout⟩ := init_evaluated
  have hparse : parseFuncSig "totalSupply()"
      = some { name := "totalSupply", inputs := [], outputs := none,
               unescapedSel := "totalSupply()" } := by decide
  refine ⟨r, hr, { name := "totalSupply", inputs := [], outputs := none,
                   unescapedSel := "totalSupply()" }, ?_, ?_, ?_⟩
  · rw [NewFuncSignatureFromString_of_paren r hr "totalSupply()" (by decide), hparse]
    rfl
  · have hS : FuncSig.String (⟨"totalSupply", [], none, "totalSupply()"⟩ : FuncSig)
        = "totalSupply()" := by decide
    have hT : strings.TrimSpace "totalSupply()" = "totalSupply()" := by decide
    obtain ⟨d, hd⟩ := Option.isSome_iff_exists.mp hs
    rw [hd] at hout
    simp only [Option.map_some', Option.some.injEq] at hout
    simp only [FuncSig.Outputs, FuncSig.WellKnown, lookupWellKnownKey, hS, hT, hd,
      Option.isSome_some, and_self, if_true, hout]
  · intro v
    refine ⟨bigEndianBytes_length 32 v, ?_⟩
    refine UnpackOutput_nil_outputs r.descriptions _ [] _ rfl rfl ?_
    intro h
    have := bigEndianBytes_length 32 v
    rw [h] at this
    cases this

/-! ## Rendering -/

theorem renderLines_eq (lines : List Line) :
    ∀ buf : String, renderLines lines buf
      = buf ++ (lines.map (fun l => l.String.1 ++ "\n")).foldr (fun a b => a ++ b) "" := by
  induction lines with
  | nil => intro buf; simp [renderLines]
  | cons l rest ih =>
    intro buf
    rw [renderLines]
    simp only [ih, List.map_cons, List.foldr_cons, String.append_assoc]

/-- C30. For every Results `r`, `r.String()` leaves `r` unchanged: the Comment, Args,
ProgramCounter and instruction of every line are as before the call, so calling
`r.String()` twice returns the same text; that text is the rendering of each line
followed by a newline, in line order, where the rendering of a line is what
`Line.String` returns on a copy of it (the copy alone gets the ` pc=` suffix). -/
theorem Results_String_leaves_result (r : Results) :
    r.String.2 = r ∧ r.String.2.Lines = r.Lines ∧
    r.String.2.String.1 = r.String.1 ∧
    r.String.1 = (r.Lines.map (fun l => l.String.1 ++ "\n")).foldr (fun a b => a ++ b) "" ∧
    ∀ l ∈ r.Lines, l.String.2.Comment = l.Comment ++ " pc=" ++ toString l.ProgramCounter ∧
      l.String.2.Args = l.Args ∧ l.String.2.ProgramCounter = l.ProgramCounter ∧
      l.String.2.Inst = l.Inst := by
  refine ⟨rfl, rfl, rfl, ?_, ?_⟩
  · show renderLines r.Lines "" = _
    rw [renderLines_eq]
    simp
  · intro l _
    refine ⟨?_, rfl, rfl, rfl⟩
    simp [Line.String, String.append_assoc]

/-! ## Locking discipline -/

theorem getSigsFromFourBytesEvents_result (remote : Remote) (w : World) (fourBytes : Bytes) :
    ((getSigsFromFourBytesEvents remote w fourBytes).1,
      (getSigsFromFourBytesEvents remote w fourBytes).2.1)
      = getSigsFromFourBytes remote w fourBytes := by
  unfold getSigsFromFourBytesEvents getSigsFromFourBytes
  simp only
  cases w.fourBytesCache (hex.EncodeToString fourBytes) <;> rfl

/-- C27. On every execution path of `getSigsFromFourBytes` (cache hit, remote success,
remote failure), every lock that is acquired is released before the function returns,
the remote lookup is performed while neither the shared nor the exclusive lock is
held, the cache is read only under the shared lock, and the cache is written only
while the exclusive lock is held. The events of a run are `RLock`, the read,
`RUnlock` on a hit, followed on a miss by the request, `Lock`, the write and
`Unlock`. -/
theorem getSigsFromFourBytes_locking (remote : Remote) (w : World) (fourBytes : Bytes) :
    ((getSigsFromFourBytesEvents remote w fourBytes).1,
      (getSigsFromFourBytesEvents remote w fourBytes).2.1)
      = getSigsFromFourBytes remote w fourBytes ∧
    Held.run { shared := 0, exclusive := false }
        (getSigsFromFourBytesEvents remote w fourBytes).2.2
      = some { shared := 0, exclusive := false } ∧
    (∀ sigs, w.fourBytesCache (hex.EncodeToString fourBytes) = some sigs →
      (getSigsFromFourBytesEvents remote w fourBytes).2.2
        = [.RLock, .readCache (hex.EncodeToString fourBytes), .RUnlock]) ∧
    (w.fourBytesCache (hex.EncodeToString fourBytes) = none →
      (getSigsFromFourBytesEvents remote w fourBytes).2.2
        = [.RLock, .readCache (hex.EncodeToString fourBytes), .RUnlock, .httpGet fourBytes,
           .Lock, .writeCache (hex.EncodeToString fourBytes)
             (getSigsFromFourBytes remote w fourBytes).1, .Unlock]) := by
  refine ⟨getSigsFromFourBytesEvents_result remote w fourBytes, ?_, ?_, ?_⟩
  · unfold getSigsFromFourBytesEvents
    simp only
    cases w.fourBytesCache (hex.EncodeToString fourBytes) <;> rfl
  · intro sigs h
    unfold getSigsFromFourBytesEvents
    simp only [h]
    rfl
  · intro h
    unfold getSigsFromFourBytesEvents getSigsFromFourBytes
    simp only [h]
    rfl

/-! ## The canonical form is a fixed point of parsing -/

theorem exists_first_occurrence (c : Char) (l : List Char) (h : c ∈ l) :
    ∃ a b, l = a ++ c :: b ∧ c ∉ a := by
  induction l with
  | nil => cases h
  | cons x xs ih =>
    by_cases hx : x = c
    · subst hx
      exact ⟨[], xs, rfl, by simp⟩
    · have hmem : c ∈ xs := by
        rcases List.mem_cons.mp h with e | e
        · exact absurd e.symm hx
        · exact e
      obtain ⟨a, b, hab, hna⟩ := ih hmem
      refine ⟨x :: a, b, by rw [hab]; rfl, ?_⟩
      intro hc
      rcases List.mem_cons.mp hc with e | e
      · exact hx e.symm
      · exact hna e

theorem splitChars_pieces (sep : Char) :
    ∀ (l : List Char), ∀ p ∈ splitChars sep l, sep ∉ p ∧ ∀ c ∈ p, c ∈ l := by
  intro l
  induction l with
  | nil =>
    intro p hp
    simp only [splitChars, List.mem_singleton] at hp
    subst hp
    exact ⟨by simp, by simp⟩
  | cons x xs ih =>
    intro p hp
    by_cases hx : x = sep
    · simp only [splitChars, hx, if_true, List.mem_cons] at hp
      rcases hp with rfl | hp
      · exact ⟨by simp, by simp⟩
      · obtain ⟨h1, h2⟩ := ih p hp
        exact ⟨h1, fun c hc => List.mem_cons_of_mem _ (h2 c hc)⟩
    · simp only [splitChars, hx, if_false] at hp
      cases hs : splitChars sep xs with
      | nil =>
        rw [hs] at hp
        simp only [List.mem_singleton] at hp
        subst hp
        exact ⟨by simpa using fun e => hx e.symm, by simp⟩
      | cons q qs =>
        rw [hs] at hp
        simp only [List.mem_cons] at hp
        rcases hp with rfl | hp
        · obtain ⟨h1, h2⟩ := ih q (by rw [hs]; simp)
          refine ⟨?_, ?_⟩
          · intro hc
            rcases List.mem_cons.mp hc with e | e
            · exact hx e.symm
            · exact h1 e
          · intro c hc
            rcases List.mem_cons.mp hc with e | e
            · rw [e]; simp
            · exact List.mem_cons_of_mem _ (h2 c e)
        · obtain ⟨h1, h2⟩ := ih p (by rw [hs]; exact List.mem_cons_of_mem _ hp)
          exact ⟨h1, fun c hc => List.mem_cons_of_mem _ (h2 c hc)⟩

theorem TrimSpace_subset (s : String) : ∀ c ∈ (strings.TrimSpace s).data, c ∈ s.data := by
  intro c hc
  simp only [strings.TrimSpace, List.mem_reverse] at hc
  have h1 := (List.dropWhile_suffix unicode.IsSpace).subset hc
  rw [List.mem_reverse] at h1
  exact (List.dropWhile_suffix unicode.IsSpace).subset h1

theorem dropWhile_of_all_false (p : Char → Bool) (l : List Char) (h : ∀ c ∈ l, p c = false) :
    l.dropWhile p = l := by
  cases l with
  | nil => rfl
  | cons x xs => simp [List.dropWhile, h x (by simp)]

theorem TrimSpace_of_no_space (t : String) (h : ∀ c ∈ t.data, unicode.IsSpace c = false) :
    strings.TrimSpace t = t := by
  unfold strings.TrimSpace
  rw [dropWhile_of_all_false _ _ h,
    dropWhile_of_all_false _ _ (fun c hc => h c (List.mem_reverse.mp hc)), List.reverse_reverse]

theorem parseParam_type_clean (q : String)
    (hs : ∀ c ∈ q.data, unicode.IsSpace c = true → c = ' ')
    (hcomma : ',' ∉ q.data) (hparen : ')' ∉ q.data) :
    ∃ p, parseParam q = some p ∧ typeClean p.Typ := by
  by_cases hsp : ' ' ∈ q.data
  · obtain ⟨ty, nm, hq, hty⟩ := exists_first_occurrence ' ' q.data hsp
    have hsub : ∀ c ∈ ty, c ∈ q.data := fun c hc => by rw [hq]; simp [hc]
    refine ⟨_, by
      have := parseParam_typed ty nm hty
      rw [← hq] at this
      exact this, ?_, ?_, ?_⟩
    · exact fun h => hcomma (hsub _ h)
    · exact fun h => hparen (hsub _ h)
    · intro c hc
      cases hsc : unicode.IsSpace c with
      | false => rfl
      | true =>
        have := hs c (hsub c hc) hsc
        rw [this] at hc
        exact absurd hc hty
  · refine ⟨_, parseParam_bare q.data hsp, hcomma, hparen, ?_⟩
    intro c hc
    cases hsc : unicode.IsSpace c with
    | false => rfl
    | true =>
      have := hs c hc hsc
      rw [this] at hc
      exact absurd hc hsp

theorem parseParamStrs_types_clean (pieces : List String)
    (h : ∀ p ∈ pieces, (∀ c ∈ p.data, unicode.IsSpace c = true → c = ' ') ∧
      ',' ∉ p.data ∧ ')' ∉ p.data) :
    ∃ ps, parseParamStrs pieces = some ps ∧ ∀ x ∈ ps, typeClean x.Typ := by
  induction pieces with
  | nil => exact ⟨[], rfl, by simp⟩
  | cons a rest ih =>
    obtain ⟨h1, h2, h3⟩ := h a (by simp)
    have hsub := TrimSpace_subset a
    obtain ⟨p, hp, hpc⟩ := parseParam_type_clean (strings.TrimSpace a)
      (fun c hc => h1 c (hsub c hc)) (fun hc => h2 (hsub _ hc)) (fun hc => h3 (hsub _ hc))
    obtain ⟨ps, hps, hpsc⟩ := ih (fun q hq => h q (List.mem_cons_of_mem _ hq))
    refine ⟨p :: ps, by simp [parseParamStrs, hp, hps], ?_⟩
    intro x hx
    rcases List.mem_cons.mp hx with rfl | hx
    · exact hpc
    · exact hpsc x hx

/-- The parameters `parseInputs` reads from the text `inner` between the parentheses. -/
theorem parseInputs_closed (inner tail : List Char) (h : ')' ∉ inner) :
    parseInputs ⟨'(' :: (inner ++ ')' :: tail)⟩
      = (if (⟨inner⟩ : String) ≠ "" then parseParams ⟨inner⟩ else some []).bind
          (fun ins => some (ins, ⟨inner⟩)) := by
  have hc : strings.Contains ⟨'(' :: (inner ++ ')' :: tail)⟩ "(" = true :=
    Contains_single '(' [] _ (by simp)
  have hi : strings.Index ⟨'(' :: (inner ++ ')' :: tail)⟩ "(" = 0 :=
    Index_single '(' [] _ (by simp)
  have hs : sliceFrom ⟨'(' :: (inner ++ ')' :: tail)⟩ (0 + 1) = some ⟨inner ++ ')' :: tail⟩ :=
    sliceFrom_append_succ [] _ '('
  have hc2 : strings.Contains ⟨inner ++ ')' :: tail⟩ ")" = true := Contains_single ')' _ tail h
  have hi2 : strings.Index ⟨inner ++ ')' :: tail⟩ ")" = (inner.length : Int) :=
    Index_single ')' _ tail h
  simp only [parseInputs, hc, if_true, hi, hs, Option.bind_eq_bind, Option.some_bind, hc2, hi2,
    sliceTo_append, Option.pure_def]

theorem parseInputs_open (b : List Char) (h : ')' ∉ b) :
    parseInputs ⟨'(' :: b⟩
      = (if (⟨b⟩ : String) ≠ "" then parseParams ⟨b⟩ else some []).bind
          (fun ins => some (ins, ⟨b⟩)) := by
  have hc : strings.Contains ⟨'(' :: b⟩ "(" = true := Contains_single '(' [] _ (by simp)
  have hi : strings.Index ⟨'(' :: b⟩ "(" = 0 := Index_single '(' [] _ (by simp)
  have hs : sliceFrom ⟨'(' :: b⟩ (0 + 1) = some ⟨b⟩ := sliceFrom_append_succ [] _ '('
  have hc2 : strings.Contains ⟨b⟩ ")" = false := Contains_single_false ')' ⟨b⟩ h
  simp only [parseInputs, hc, if_true, hi, hs, Option.bind_eq_bind, Option.some_bind, hc2,
    Option.pure_def, Bool.false_eq_true, if_false]

theorem parseParams_types_clean (inner : List Char)
    (hs : ∀ c ∈ inner, unicode.IsSpace c = true → c = ' ') (hparen : ')' ∉ inner) :
    ∃ ps, (if (⟨inner⟩ : String) ≠ "" then parseParams ⟨inner⟩ else some []) = some ps ∧
      ∀ x ∈ ps, typeClean x.Typ := by
  split
  · unfold parseParams strings.Split
    apply parseParamStrs_types_clean
    intro p hp
    obtain ⟨q, hq, rfl⟩ := List.mem_map.mp hp
    obtain ⟨h1, h2⟩ := splitChars_pieces ',' inner q hq
    exact ⟨fun c hc => hs c (h2 c hc), h1, fun hc => hparen (h2 _ hc)⟩
  · exact ⟨[], rfl, by simp⟩

theorem parseInputs_types_clean (b : List Char)
    (hs : ∀ c ∈ b, unicode.IsSpace c = true → c = ' ') :
    ∃ ins rest, parseInputs ⟨'(' :: b⟩ = some (ins, rest) ∧ ∀ x ∈ ins, typeClean x.Typ := by
  by_cases hp : ')' ∈ b
  · obtain ⟨inner, tail, hb, hn⟩ := exists_first_occurrence ')' b hp
    have hsub : ∀ c ∈ inner, c ∈ b := fun c hc => by rw [hb]; simp [hc]
    obtain ⟨ps, hps, hc⟩ := parseParams_types_clean inner (fun c hc => hs c (hsub c hc)) hn
    refine ⟨ps, ⟨inner⟩, ?_, hc⟩
    rw [hb, parseInputs_closed inner tail hn, hps]
    rfl
  · obtain ⟨ps, hps, hc⟩ := parseParams_types_clean b hs hp
    refine ⟨ps, ⟨b⟩, ?_, hc⟩
    rw [parseInputs_open b hp, hps]
    rfl

theorem parseFuncSig_of_no_paren (raw : String) (h : '(' ∉ raw.data) :
    parseFuncSig raw
      = some { name := raw, inputs := [], outputs := none, unescapedSel := raw } := by
  have hc : strings.Contains raw "(" = false := Contains_single_false '(' raw h
  have h1 : strings.Contains "" "(" = false := Contains_nil_false "(" (by decide)
  have h2 : strings.Contains "" "returns" = false := Contains_nil_false "returns" (by decide)
  simp [parseFuncSig, parseName, parseInputs, parseOutputs, hc, h1, h2]

/-- What the parser makes of a text whose white space is ASCII spaces. -/
theorem parseFuncSig_shape (s : String)
    (hs : ∀ c ∈ s.data, unicode.IsSpace c = true → c = ' ') :
    ∃ f, parseFuncSig s = some f ∧ '(' ∉ f.name.data ∧ ∀ x ∈ f.inputs, typeClean x.Typ := by
  by_cases hp : '(' ∈ s.data
  · obtain ⟨a, b, hab, hna⟩ := exists_first_occurrence '(' s.data hp
    have hsub : ∀ c ∈ b, c ∈ s.data := fun c hc => by rw [hab]; simp [hc]
    obtain ⟨ins, rest, hins, hclean⟩ := parseInputs_types_clean b (fun c hc => hs c (hsub c hc))
    obtain ⟨o, ho⟩ := Option.isSome_iff_exists.mp (parseOutputs_isSome rest)
    have hname : parseName s = some (⟨a⟩, ⟨'(' :: b⟩) := by
      have := parseName_signature a b hna
      rw [← hab] at this
      exact this
    refine ⟨⟨⟨a⟩, ins, o.1, s⟩, ?_, hna, hclean⟩
    simp only [parseFuncSig, hname, Option.bind_eq_bind, Option.some_bind, hins, ho,
      Option.pure_def]
  · exact ⟨_, parseFuncSig_of_no_paren s hp, hp, by simp⟩

theorem parseParamStrs_clean_types (types : List String) (h : ∀ t ∈ types, typeClean t) :
    parseParamStrs types = some (types.map (fun t => { Name := "", Typ := t })) := by
  induction types with
  | nil => rfl
  | cons t rest ih =>
    have ht := h t (by simp)
    have hsp : ' ' ∉ t.data := by
      intro hc
      have := ht.2.2 ' ' hc
      revert this
      decide
    have hp : parseParam t = some { Name := "", Typ := t } := parseParam_bare t.data hsp
    simp only [parseParamStrs, TrimSpace_of_no_space t ht.2.2, hp,
      ih (fun q hq => h q (List.mem_cons_of_mem _ hq)), Option.bind_eq_bind, Option.some_bind,
      Option.pure_def, List.map_cons]

theorem typeList_of_types (types : List String) :
    typeList (types.map (fun t => ({ Name := "", Typ := t } : FuncParam))) = commaJoin types := by
  rw [typeList_eq_commaJoin, List.map_map]
  congr 1
  exact List.map_id' types

/-- Parsing a canonical form gives back a descriptor with that canonical form. -/
theorem parseFuncSig_canonical (name : String) (types : List String)
    (hn : '(' ∉ name.data) (ht : ∀ t ∈ types, typeClean t) :
    ∃ f, parseFuncSig (name ++ "(" ++ commaJoin types ++ ")") = some f ∧
      f.String = name ++ "(" ++ commaJoin types ++ ")" := by
  have hdata : name ++ "(" ++ commaJoin types ++ ")"
      = ⟨name.data ++ '(' :: ((commaJoin types).data ++ ')' :: [])⟩ := by
    apply String.ext
    simp [String.data_append]
  have hparen : ')' ∉ (commaJoin types).data := by
    rw [commaJoin_data]
    apply not_mem_commaJoinChars ')' (by decide)
    intro p hp
    obtain ⟨t, htm, rfl⟩ := List.mem_map.mp hp
    exact (ht t htm).2.1
  have hname := parseName_signature name.data ((commaJoin types).data ++ ')' :: []) hn
  have hin := parseInputs_closed (commaJoin types).data [] hparen
  obtain ⟨ins, hins, htl⟩ : ∃ ins,
      (if (⟨(commaJoin types).data⟩ : String) ≠ "" then parseParams ⟨(commaJoin types).data⟩
        else some []) = some ins ∧ typeList ins = commaJoin types := by
    split
    · rename_i hne
      have htypes : types ≠ [] := by
        intro e
        exact hne (by rw [e]; rfl)
      have hsplit : splitChars ',' (commaJoin types).data = types.map String.data := by
        rw [commaJoin_data]
        apply splitChars_commaJoinChars
        · simpa using htypes
        · intro p hp
          obtain ⟨t, htm, rfl⟩ := List.mem_map.mp hp
          exact (ht t htm).1
      refine ⟨_, ?_, typeList_of_types types⟩
      unfold parseParams strings.Split
      rw [hsplit, List.map_map]
      have : (String.mk ∘ String.data) = id := by
        funext t; rfl
      rw [this, List.map_id]
      exact parseParamStrs_clean_types types ht
    · rename_i he
      have he' : (⟨(commaJoin types).data⟩ : String) = "" := by
        by_contra hc; exact he hc
      have : commaJoin types = "" := he'
      exact ⟨[], rfl, by rw [this]; rfl⟩
  rw [hins] at hin
  obtain ⟨o, ho⟩ := Option.isSome_iff_exists.mp
    (parseOutputs_isSome ⟨(commaJoin types).data⟩)
  refine ⟨⟨name, ins, o.1, name ++ "(" ++ commaJoin types ++ ")"⟩, ?_, ?_⟩
  · rw [parseFuncSig]
    rw [hdata] at *
    simp only [hname, Option.bind_eq_bind, Option.some_bind, hin, ho, Option.pure_def]
  · simp only [FuncSig.String, FuncSig.Name, FuncSig.Inputs, htl]

/-- C28. For every input string `s` whose only whitespace characters are ASCII spaces,
the canonical form is a fixed point of parsing: with `c = parseFuncSig(s).String()`,
which is the name followed by `(`, the input types joined by `,` and `)`,
`parseFuncSig(c).String() = c`. -/
theorem parseFuncSig_canonical_fixed_point (s : String)
    (hs : ∀ c ∈ s.data, unicode.IsSpace c = true → c = ' ') :
    ∃ f, parseFuncSig s = some f ∧
      f.String = f.name ++ "(" ++ commaJoin (f.inputs.map FuncParam.Typ) ++ ")" ∧
      ∃ f', parseFuncSig f.String = some f' ∧ f'.String = f.String := by
  obtain ⟨f, hf, hname, hclean⟩ := parseFuncSig_shape s hs
  have hstr : f.String = f.name ++ "(" ++ commaJoin (f.inputs.map FuncParam.Typ) ++ ")" := by
    simp only [FuncSig.String, FuncSig.Name, FuncSig.Inputs, typeList_eq_commaJoin]
  refine ⟨f, hf, hstr, ?_⟩
  rw [hstr]
  apply parseFuncSig_canonical f.name _ hname
  intro t ht
  obtain ⟨x, hx, rfl⟩ := List.mem_map.mp ht
  exact hclean x hx

/-- C28, witness: `"transfer(address to, uint256 amount)"`, whose canonical form is
`"transfer(address,uint256)"`. -/
theorem parseFuncSig_canonical_fixed_point_witness :
    ∃ f, parseFuncSig "transfer(address to, uint256 amount)" = some f ∧
      f.String = f.name ++ "(" ++ commaJoin (f.inputs.map FuncParam.Typ) ++ ")" ∧
      ∃ f', parseFuncSig f.String = some f' ∧ f'.String = f.String :=
  parseFuncSig_canonical_fixed_point "transfer(address to, uint256 amount)" (by decide)

/-! ## Effects: the membership table and `Is` -/

/-- C31. The effect membership table is: EffectUnknown = 0, EffectRead = 2,
EffectWrite = 4, EffectTrigger = 8, and the seven write-class constants
EffectStateWrite, EffectAddressWrite, EffectTransfer, EffectMint, EffectBurn,
EffectSelfdestruct, EffectRBACUpdate each include the EffectWrite bit and none includes
the EffectRead bit; EffectMint and EffectBurn include every bit of EffectTransfer,
which includes every bit of EffectStateWrite and of EffectTrigger; EffectSelfdestruct
includes every bit of EffectAddressWrite, EffectStateWrite and EffectTrigger; and all
eleven named constants have pairwise distinct values. -/
theorem effect_membership_table :
    EffectUnknown = 0 ∧ EffectRead = 2 ∧ EffectWrite = 4 ∧ EffectTrigger = 8 ∧
    (∀ c ∈ [EffectStateWrite, EffectAddressWrite, EffectTransfer, EffectMint, EffectBurn,
        EffectSelfdestruct, EffectRBACUpdate],
      c &&& EffectWrite = EffectWrite ∧ c &&& EffectRead = 0) ∧
    EffectMint &&& EffectTransfer = EffectTransfer ∧
    EffectBurn &&& EffectTransfer = EffectTransfer ∧
    EffectTransfer &&& EffectStateWrite = EffectStateWrite ∧
    EffectTransfer &&& EffectTrigger = EffectTrigger ∧
    EffectSelfdestruct &&& EffectAddressWrite = EffectAddressWrite ∧
    EffectSelfdestruct &&& EffectStateWrite = EffectStateWrite ∧
    EffectSelfdestruct &&& EffectTrigger = EffectTrigger ∧
    [EffectUnknown, EffectRead, EffectWrite, EffectTrigger, EffectStateWrite,
      EffectAddressWrite, EffectTransfer, EffectMint, EffectBurn, EffectSelfdestruct,
      EffectRBACUpdate] = [0, 2, 4, 8, 20, 36, 92, 220, 348, 572, 1044] ∧
    [EffectUnknown, EffectRead, EffectWrite, EffectTrigger, EffectStateWrite,
      EffectAddressWrite, EffectTransfer, EffectMint, EffectBurn, EffectSelfdestruct,
      EffectRBACUpdate].Nodup := by
  decide

theorem and_ne_zero_iff (e x : Nat) :
    e &&& x ≠ 0 ↔ ∃ i, e.testBit i = true ∧ x.testBit i = true := by
  constructor
  · intro h
    obtain ⟨i, hi⟩ := Nat.ne_zero_implies_bit_true h
    rw [Nat.testBit_and, Bool.and_eq_true] at hi
    exact ⟨i, hi⟩
  · rintro ⟨i, h1, h2⟩ h0
    have : (e &&& x).testBit i = true := by rw [Nat.testBit_and, h1, h2]; rfl
    rw [h0, Nat.zero_testBit] at this
    cases this

/-- C32. `Effect.Is` is a bit-overlap test, not a containment test: for all effects `e`
and `x`, `e.Is(x)` holds exactly when `e` and `x` share at least one bit, so
`e.Is(x) = x.Is(e)`, `e.Is(EffectUnknown)` is false for every `e` (EffectUnknown
included), and `EffectStateWrite.Is(EffectAddressWrite)` and
`EffectTransfer.Is(EffectMint)` both hold although the first effect does not contain
the second. -/
theorem Effect_Is_overlap (e x : Effect) :
    (Effect.Is e x = true ↔ ∃ i, e.testBit i = true ∧ x.testBit i = true) ∧
    Effect.Is e x = Effect.Is x e ∧
    Effect.Is e EffectUnknown = false ∧
    Effect.Is EffectUnknown EffectUnknown = false ∧
    Effect.Is EffectStateWrite EffectAddressWrite = true ∧
    EffectStateWrite &&& EffectAddressWrite ≠ EffectAddressWrite ∧
    Effect.Is EffectTransfer EffectMint = true ∧
    EffectTransfer &&& EffectMint ≠ EffectMint := by
  refine ⟨?_, ?_, ?_, by decide, by decide, by decide, by decide, by decide⟩
  · simp only [Effect.Is, decide_eq_true_eq]
    exact and_ne_zero_iff e x
  · simp only [Effect.Is, Nat.and_comm e x]
  · simp [Effect.Is, EffectUnknown]


/-! ## Line.String -/

theorem joinAsHex_foldl (sep : String) (rest : List Bytes) :
    ∀ acc : String, rest.foldl (fun b s => b ++ sep ++ hex.EncodeToString s) acc
      = acc ++ (rest.map (fun s => sep ++ hex.EncodeToString s)).foldr (fun a b => a ++ b) "" := by
  induction rest with
  | nil => intro acc; simp
  | cons s rest ih =>
    intro acc
    rw [List.foldl_cons, ih]
    simp only [List.map_cons, List.foldr_cons, String.append_assoc]

theorem Join_cons_foldr (sep : String) (rest : List String) :
    ∀ a : String, strings.Join (a :: rest) sep
      = a ++ (rest.map (fun s => sep ++ s)).foldr (fun a b => a ++ b) "" := by
  induction rest with
  | nil => intro a; simp [strings.Join]
  | cons b rest ih =>
    intro a
    simp only [strings.Join, ih, List.map_cons, List.foldr_cons, String.append_assoc]

theorem joinAsHex_eq_Join (elems : List Bytes) (sep : String) :
    joinAsHex elems sep = strings.Join (elems.map hex.EncodeToString) sep := by
  cases elems with
  | nil => rfl
  | cons e rest =>
    cases rest with
    | nil => rfl
    | cons f rest =>
      have h : joinAsHex (e :: f :: rest) sep
          = (f :: rest).foldl (fun b s => b ++ sep ++ hex.EncodeToString s)
              (hex.EncodeToString e) := rfl
      rw [h, joinAsHex_foldl]
      simp only [List.map_cons]
      rw [Join_cons_foldr]
      simp only [List.map_cons, List.map_map, Function.comp_def]

theorem Line_String_eq (l : Line) :
    l.String = (l.Inst.Mnemonic ++
        (if l.Args = [] then "" else " " ++ strings.Join (l.Args.map hex.EncodeToString) ", ")
        ++ " ; " ++ (l.Comment ++ pcSuffix l),
      { l with Comment := l.Comment ++ pcSuffix l }) := by
  have hm : (if l.Inst.Mnemonic ≠ "" then "" ++ l.Inst.Mnemonic else "") = l.Inst.Mnemonic := by
    split
    · simp
    · rename_i h
      simp only [ne_eq, not_not] at h
      rw [h]
  have ha : (l.Args.length > 0) ↔ ¬ l.Args = [] := by
    cases l.Args <;> simp
  unfold Line.String pcSuffix
  simp only [hm, joinAsHex_eq_Join]
  by_cases h : l.Args = []
  · simp [h]
  · have h' : l.Args.length > 0 := ha.mpr h
    simp [h, h', String.append_assoc]

theorem repeated_succ_right (s : String) : ∀ n : Nat, repeated n s ++ s = repeated (n + 1) s := by
  intro n
  induction n with
  | zero => simp [repeated]
  | succ n ih => rw [repeated, String.append_assoc, ih]; rfl

theorem iterate_String (l : Line) :
    ∀ n : Nat, (fun x : Line => x.String.2)^[n] l
      = { l with Comment := l.Comment ++ repeated n (pcSuffix l) } := by
  intro n
  induction n with
  | zero => simp [repeated]
  | succ n ih =>
    rw [Function.iterate_succ_apply', ih, Line_String_eq]
    simp only [String.append_assoc]
    have : pcSuffix { l with Comment := l.Comment ++ repeated n (pcSuffix l) } = pcSuffix l := rfl
    rw [this, repeated_succ_right]

/-- C33. For every line, each call of `Line.String` appends " pc=<ProgramCounter>" to
the line's Comment and returns the mnemonic, then (when the line has arguments) a space
and the arguments each hex-encoded and joined by ", ", then " ; " and the updated
Comment; all other fields are unchanged. So after `n` calls the Comment carries `n`
copies of the pc suffix, the next call returns a text with `n + 1` copies, and
`Line.String` is not idempotent: the second call never returns the text of the
first. -/
theorem Line_String_appends_pc (l : Line) :
    pcSuffix l = " pc=" ++ toString l.ProgramCounter ∧
    l.String.1 = l.Inst.Mnemonic ++
        (if l.Args = [] then "" else " " ++ strings.Join (l.Args.map hex.EncodeToString) ", ")
        ++ " ; " ++ l.String.2.Comment ∧
    l.String.2 = { l with Comment := l.Comment ++ pcSuffix l } ∧
    (∀ n : Nat,
      (fun x : Line => x.String.2)^[n] l
        = { l with Comment := l.Comment ++ repeated n (pcSuffix l) } ∧
      ((fun x : Line => x.String.2)^[n] l).String.1 = l.Inst.Mnemonic ++
        (if l.Args = [] then "" else " " ++ strings.Join (l.Args.map hex.EncodeToString) ", ")
        ++ " ; " ++ (l.Comment ++ repeated (n + 1) (pcSuffix l))) ∧
    l.String.2.String.1 ≠ l.String.1 := by
  refine ⟨rfl, by rw [Line_String_eq], by rw [Line_String_eq], ?_, ?_⟩
  · intro n
    refine ⟨iterate_String l n, ?_⟩
    rw [iterate_String, Line_String_eq]
    have : pcSuffix { l with Comment := l.Comment ++ repeated n (pcSuffix l) } = pcSuffix l := rfl
    simp only [this, String.append_assoc, repeated_succ_right]
  · rw [Line_String_eq l]
    simp only
    rw [Line_String_eq]
    simp only
    intro h
    have hl := congrArg String.length h
    have hp : pcSuffix { l with Comment := l.Comment ++ pcSuffix l } = pcSuffix l := rfl
    rw [hp] at hl
    simp only [String.length_append] at hl
    have h4 : (pcSuffix l).length = 4 + (toString l.ProgramCounter).length := by
      simp only [pcSuffix, String.length_append]
      rfl
    omega


/-! ## The built-in entries of the ERC20 and ERC721 interfaces -/

theorem getSigs_requests (remote : Remote) (w : World) (fourBytes : Bytes) :
    (∀ sigs, w.fourBytesCache (hex.EncodeToString fourBytes) = some sigs →
      (getSigsFromFourBytes remote w fourBytes).2.requests = w.requests) ∧
    (w.fourBytesCache (hex.EncodeToString fourBytes) = none →
      (getSigsFromFourBytes remote w fourBytes).2.requests = w.requests ++ [fourBytes]) := by
  constructor
  · intro sigs h
    rw [getSigs_hit remote w fourBytes sigs h]
  · intro h
    obtain ⟨sigs, hs, _⟩ := getSigs_miss remote w fourBytes h
    rw [hs]

theorem getSigs_requests_fresh (remote : Remote) (w : World) (fourBytes : Bytes)
    (hw : Reachable w) :
    ∃ extra : List Bytes,
      (getSigsFromFourBytes remote w fourBytes).2.requests = w.requests ++ extra ∧
      ∀ fb ∈ extra, Evmtools.fourBytesCache (hex.EncodeToString fb) = none := by
  cases h : w.fourBytesCache (hex.EncodeToString fourBytes) with
  | some sigs =>
    exact ⟨[], by rw [(getSigs_requests remote w fourBytes).1 sigs h]; simp, by simp⟩
  | none =>
    refine ⟨[fourBytes], (getSigs_requests remote w fourBytes).2 h, ?_⟩
    intro fb hfb
    rw [List.mem_singleton] at hfb
    subst hfb
    cases hb : Evmtools.fourBytesCache (hex.EncodeToString fb) with
    | none => rfl
    | some sigs =>
      rw [Reachable_builtin w hw _ sigs hb] at h
      cases h

theorem disassembleBody_requests (InstructionSet : Nat → Instruction) (remote : Remote)
    (i : Instr) (pc : Nat) (st : DisState) (h : Reachable st.world) :
    ∃ extra : List Bytes,
      (disassembleBody InstructionSet remote (i.iterator [] pc) st).world.requests
        = st.world.requests ++ extra ∧
      ∀ fb ∈ extra, Evmtools.fourBytesCache (hex.EncodeToString fb) = none := by
  by_cases h4 : i.op = vm.PUSH4 ∧ i.args.length = 4
  · cases hm : st.fourBytesToSigs.has (hex.EncodeToString i.args) with
    | true =>
      rw [(disassembleBody_PUSH4_known InstructionSet remote i pc st h4.1 h4.2 hm).2.2.1]
      exact ⟨[], by simp, by simp⟩
    | false =>
      rw [(disassembleBody_PUSH4_fresh InstructionSet remote i pc st h4.1 h4.2 hm).2.2.1]
      exact getSigs_requests_fresh remote st.world i.args h
  · rw [(disassembleBody_not_PUSH4 InstructionSet remote i pc st h4).2.2]
    exact ⟨[], by simp, by simp⟩

theorem runInstrs_requests (InstructionSet : Nat → Instruction) (remote : Remote)
    (is : List Instr) :
    ∀ (pc : Nat) (st : DisState), Reachable st.world →
      ∃ extra : List Bytes,
        (runInstrs InstructionSet remote pc is st).world.requests
          = st.world.requests ++ extra ∧
        ∀ fb ∈ extra, Evmtools.fourBytesCache (hex.EncodeToString fb) = none := by
  induction is with
  | nil => intro pc st _; exact ⟨[], by simp [runInstrs], by simp⟩
  | cons i is ih =>
    intro pc st h
    obtain ⟨e1, h1, hn1⟩ := disassembleBody_requests InstructionSet remote i pc st h
    obtain ⟨e2, h2, hn2⟩ := ih (pc + 1 + i.args.length) _
      (Reachable_disassembleBody InstructionSet remote i pc st h)
    refine ⟨e1 ++ e2, ?_, ?_⟩
    · rw [runInstrs, h2, h1, List.append_assoc]
    · intro fb hfb
      rcases List.mem_append.mp hfb with hfb | hfb
      · exact hn1 fb hfb
      · exact hn2 fb hfb

set_option maxRecDepth 100000 in
theorem erc20Selectors_builtin :
    erc20Selectors.map Prod.snd = ERC20Iface ∧
    (∀ e ∈ erc20Selectors, e.1.length = 4 ∧
      ∃ L, Evmtools.fourBytesCache (hex.EncodeToString e.1) = some L ∧ e.2 ∈ L) := by
  decide

set_option maxRecDepth 100000 in
theorem ERC721Iface_builtin :
    ∀ sig ∈ ERC721Iface, ∃ entry ∈ builtinFourBytes, sig ∈ entry.2 := by
  decide

/-- C34. For every bytecode that decodes to instructions among which is a `PUSH4` of
each of the six selectors 18160ddd, 70a08231, dd62ed3e, a9059cbb, 095ea7b3 and 23b872dd,
disassembled in any process state reachable in sequential use and with any remote
collaborator: the result satisfies `Implements(ERC20Iface)`; the requests the call adds
to the log of remote lookups contain none of the six selectors, and in every reachable
state resolving one of them leaves the log unchanged and returns a list holding its
signature; the six selectors stand for the six signatures of `ERC20Iface` in order, each
a built-in cache entry whose candidate list contains that signature; and every signature
of `ERC721Iface` occurs in the candidate list of some built-in entry. -/
theorem Disassemble_implements_ERC20 (InstructionSet : Nat → Instruction) (remote : Remote)
    (w : World) (code : String) (is : List Instr) (suffix : Bytes)
    (hw : Reachable w)
    (hdec : hex.DecodeString code = .ok (assemble is ++ suffix))
    (hall : ∀ i ∈ is, i.complete = true)
    (hsuf : suffix = [] ∨ truncatedPush suffix = true)
    (hsel : ∀ e ∈ erc20Selectors, (⟨vm.PUSH4, e.1⟩ : Instr) ∈ is) :
    (∃ r, (Disassemble InstructionSet remote w code).result = some r ∧
      r.Implements ERC20Iface = true) ∧
    (∃ extra : List Bytes,
      (Disassemble InstructionSet remote w code).world.requests = w.requests ++ extra ∧
      ∀ e ∈ erc20Selectors, e.1 ∉ extra) ∧
    (∀ (remote' : Remote) (w' : World), Reachable w' → ∀ e ∈ erc20Selectors,
      (getSigsFromFourBytes remote' w' e.1).2.requests = w'.requests ∧
      e.2 ∈ (getSigsFromFourBytes remote' w' e.1).1) ∧
    erc20Selectors.map Prod.snd = ERC20Iface ∧
    (∀ e ∈ erc20Selectors,
      ∃ L, World.initial.fourBytesCache (hex.EncodeToString e.1) = some L ∧ e.2 ∈ L) ∧
    (∀ sig ∈ ERC721Iface, ∃ entry ∈ builtinFourBytes, sig ∈ entry.2) := by
  obtain ⟨hres, _, hworld⟩ :=
    Disassemble_assemble InstructionSet remote w code is suffix hdec hall hsuf
  obtain ⟨_, _, h3⟩ := FoundInv_runInstrs InstructionSet remote is 0 (DisState.start w) []
    (FoundInv_start w)
  simp only [List.nil_append] at h3
  have hreach : Reachable (runInstrs InstructionSet remote 0 is (DisState.start w)).world :=
    Reachable_runInstrs InstructionSet remote is 0 (DisState.start w) hw
  obtain ⟨hmap, hbuilt⟩ := erc20Selectors_builtin
  refine ⟨⟨_, hres, ?_⟩, ?_, ?_, hmap, fun e he => (hbuilt e he).2, ERC721Iface_builtin⟩
  · rw [implements_eq_all, List.all_eq_true]
    intro sig hsig
    rw [← hmap, List.mem_map] at hsig
    obtain ⟨e, he, rfl⟩ := hsig
    obtain ⟨hlen, L, hL, heL⟩ := hbuilt e he
    obtain ⟨L', hL', hs⟩ := h3 ⟨vm.PUSH4, e.1⟩ (hsel e he) rfl hlen
    have := Reachable_builtin _ hreach _ L hL
    simp only at hL'
    rw [this] at hL'
    cases hL'
    exact hs e.2 heL
  · obtain ⟨extra, hex, hnone⟩ :=
      runInstrs_requests InstructionSet remote is 0 (DisState.start w) hw
    refine ⟨extra, by rw [hworld]; exact hex, ?_⟩
    intro e he hmem
    obtain ⟨_, L, hL, _⟩ := hbuilt e he
    rw [hnone e.1 hmem] at hL
    cases hL
  · intro remote' w' hw' e he
    obtain ⟨_, L, hL, heL⟩ := hbuilt e he
    have hc := Reachable_builtin w' hw' _ L hL
    rw [getSigs_hit remote' w' e.1 L hc]
    exact ⟨rfl, heL⟩

set_option maxRecDepth 100000 in
/-- C34, witness: the bytecode of six `PUSH4` instructions, one for each ERC20 selector,
disassembled in a fresh process with the network down, implements `ERC20Iface` and adds
no request for any of the six selectors. -/
theorem Disassemble_implements_ERC20_witness :
    (∃ r, (Disassemble exampleInstructionSet offlineRemote World.initial
        "6318160ddd6370a0823163dd62ed3e63a9059cbb63095ea7b36323b872dd").result = some r ∧
      r.Implements ERC20Iface = true) ∧
    (∃ extra : List Bytes,
      (Disassemble exampleInstructionSet offlineRemote World.initial
        "6318160ddd6370a0823163dd62ed3e63a9059cbb63095ea7b36323b872dd").world.requests
          = World.initial.requests ++ extra ∧
      ∀ e ∈ erc20Selectors, e.1 ∉ extra) :=
  let h := Disassemble_implements_ERC20 exampleInstructionSet offlineRemote World.initial
    "6318160ddd6370a0823163dd62ed3e63a9059cbb63095ea7b36323b872dd"
    (erc20Selectors.map (fun e => ⟨vm.PUSH4, e.1⟩)) []
    Reachable.initial (DecodeString_of_toOption _ _ (by decide)) (by decide) (Or.inl rfl)
    (by decide)
  ⟨h.1, h.2.1⟩

end Evmtools
